import Mathlib

/-!
# Verification of the app-idea-miner idea-mining and clustering core

A shallow embedding, in Lean 4, of the core functions of the
`app-idea-miner` repository, together with theorems settling the claims of
its natural-language specification.

Python strings are modelled as `List Char` (Unicode code points), Python
floats as `ℚ` (exact arithmetic), machine integers as `ℕ`/`ℤ`, raising
functions as `Option`/`Except`.  Each definition is translated from the
repository source (or, for Python standard-library helpers such as
`urllib.parse`, from the CPython 3.11 source that the repository runs on);
the doc-comment of each definition names the function it embeds.

Covered source files:
* `packages/core/nlp.py` (quality scoring, need-statement extraction);
* `packages/core/dedupe.py` (URL canonicalization and hashing);
* `.history/packages/core/clustering_20251231140643.py` (cluster engine);
* `apps/worker/tasks/clustering.py` (clustering run orchestration).
-/

/-- Convert a string literal into the `List Char` model of Python strings. -/
def lstr (s : String) : List Char := s.toList

/-! ## Cluster engine (`packages/core/clustering.py`) -/

/-- Configuration of `ClusterEngine.__init__`: the six keyword arguments,
with the source defaults.  The engine stores them unchanged; the fitted
vectorizer/clusterer (`self.vectorizer`, `self.clusterer`,
`self.tfidf_matrix`) are external library state not used by any claim. -/
structure ClusterEngine where
  max_features : ℕ := 500
  ngram_range : ℕ × ℕ := (1, 3)
  min_df : ℕ := 2
  max_df : ℚ := 0.85
  min_cluster_size : ℕ := 3
  min_samples : ℕ := 2
deriving DecidableEq

/-- `ClusterResult` dataclass: labels (−1 = noise), per-cluster keyword
lists, optional soft-membership probabilities, cluster and noise counts. -/
structure ClusterResult where
  labels : List ℤ
  keywords : List (ℤ × List (List Char × ℚ))
  probabilities : Option (List ℚ)
  n_clusters : ℕ
  n_noise : ℕ
deriving DecidableEq

/-- The all-noise fallback result built at the too-few-texts early return:
`ClusterResult(labels=np.array([-1]*len(texts)), keywords={}, n_clusters=0,
n_noise=len(texts))` (`probabilities` keeps its default `None`). -/
def allNoiseResult (n : ℕ) : ClusterResult :=
  ⟨List.replicate n (-1), [], none, 0, n⟩

/-- `ClusterEngine.cluster_ideas`.  The TF-IDF + HDBSCAN pipeline that runs
when `len(texts) ≥ min_cluster_size` is abstracted as the parameter `fit`:
in the source every exception of that pipeline is caught and turned into
the all-noise fallback, so the pipeline acts as a total function of the
texts.  The two guarded branches (`ValueError` on empty input, all-noise
early return on fewer than `min_cluster_size` texts) are translated
literally. -/
def cluster_ideas (engine : ClusterEngine)
    (fit : List (List Char) → ClusterResult)
    (texts : List (List Char)) : Except (List Char) ClusterResult :=
  if texts = [] then
    .error (lstr "Cannot cluster empty list of texts")
  else if texts.length < engine.min_cluster_size then
    .ok (allNoiseResult texts.length)
  else
    .ok (fit texts)

/-- `ClusterEngine.score_cluster`, idealized: the weighted combination of
normalized size, remapped sentiment, quality and trend, evaluated in exact
rational arithmetic.  The source evaluates the same formula in IEEE-754
binary64 floating point; see `score_cluster_f64` for the bit-exact model
of that evaluation. -/
def score_cluster (size : ℕ) (avg_sentiment avg_quality : ℚ)
    (trend_score : ℚ := 0) : ℚ :=
  let size_score : ℚ := min ((size : ℚ) / 50) 1
  let sentiment_score : ℚ := (avg_sentiment + 1) / 2
  let quality_score : ℚ := avg_quality
  0.4 * size_score + 0.2 * sentiment_score + 0.3 * quality_score
    + 0.1 * trend_score

/-- Bit length of a natural number, by fuel-bounded structural recursion
(`bitlen fuel n = ⌊log₂ n⌋ + 1` for `0 < n < 2^fuel`). -/
def bitlen : ℕ → ℕ → ℕ
  | 0, _ => 0
  | fuel + 1, n => if n = 0 then 0 else bitlen fuel (n / 2) + 1

/-- `2^e` as a rational, for an integer exponent. -/
def pow2 : ℤ → ℚ
  | .ofNat n => mkRat (2 ^ n) 1
  | .negSucc n => mkRat 1 (2 ^ (n + 1))

/-- Rational multiplication, written out through `mkRat` so that concrete
values reduce definitionally. -/
def qmul (a b : ℚ) : ℚ := mkRat (a.num * b.num) (a.den * b.den)

/-- Rational addition through `mkRat`. -/
def qadd (a b : ℚ) : ℚ :=
  mkRat (a.num * (b.den : ℤ) + b.num * (a.den : ℤ)) (a.den * b.den)

/-- Rational negation through `mkRat`. -/
def qneg (a : ℚ) : ℚ := mkRat (-a.num) a.den

/-- Rational division through `mkRat`. -/
def qdiv (a b : ℚ) : ℚ :=
  if 0 ≤ b.num then mkRat (a.num * (b.den : ℤ)) (a.den * b.num.toNat)
  else mkRat (-(a.num * (b.den : ℤ))) (a.den * (-b.num).toNat)

/-- `⌊log₂ a⌋` for a positive rational `a`. -/
def qlog2 (a : ℚ) : ℤ :=
  let e0 : ℤ := (bitlen 128 a.num.toNat : ℤ) - (bitlen 128 a.den : ℤ)
  if a < pow2 e0 then e0 - 1 else e0

/-- Round a positive rational to the nearest IEEE-754 binary64 value:
53 significant bits, ties to even.  (Overflow and subnormals lie outside
the range of every value arising here.) -/
def flPos (a : ℚ) : ℚ :=
  let e := qlog2 a
  let b := qmul a (pow2 (52 - e))
  let m : ℤ := b.num / (b.den : ℤ)
  let r : ℚ := qadd b (qneg (mkRat m 1))
  let m' : ℤ :=
    if r < mkRat 1 2 then m
    else if mkRat 1 2 < r then m + 1
    else if m % 2 = 0 then m else m + 1
  qmul (mkRat m' 1) (pow2 (e - 52))

/-- Round a rational to the nearest IEEE-754 binary64 value. -/
def fl (a : ℚ) : ℚ :=
  if a = 0 then 0 else if 0 < a then flPos a else qneg (flPos (qneg a))

/-- binary64 addition: the correctly rounded exact sum. -/
def fadd (x y : ℚ) : ℚ := fl (qadd x y)

/-- binary64 multiplication: the correctly rounded exact product. -/
def fmul (x y : ℚ) : ℚ := fl (qmul x y)

/-- binary64 true division: the correctly rounded exact quotient. -/
def fdiv (x y : ℚ) : ℚ := fl (qdiv x y)

/-- `ClusterEngine.score_cluster` exactly as the source computes it: the
weighted combination evaluated left to right in binary64 arithmetic, with
the literals `0.4`, `0.2`, `0.3`, `0.1` replaced by the doubles they parse
to (`fl` of the exact decimal value) and no rounding or clamping of the
result. -/
def score_cluster_f64 (size : ℕ) (avg_sentiment avg_quality : ℚ)
    (trend_score : ℚ := 0) : ℚ :=
  let size_score : ℚ := min (fdiv (size : ℚ) 50) (fl 1)
  let sentiment_score : ℚ := fdiv (fadd avg_sentiment 1) 2
  let quality_score : ℚ := avg_quality
  fadd (fadd (fadd (fmul (fl (mkRat 2 5)) size_score)
      (fmul (fl (mkRat 1 5)) sentiment_score))
      (fmul (fl (mkRat 3 10)) quality_score))
    (fmul (fl (mkRat 1 10)) trend_score)

/-- `ClusterEngine.calculate_trend_score`: proportion of timestamps at or
after the cutoff `now − window`.  Timestamps are modelled as integers. -/
def calculate_trend_score (now : ℤ) (idea_timestamps : List ℤ)
    (window : ℤ) : ℚ :=
  if idea_timestamps = [] then 0
  else
    let cutoff := now - window
    let recent_count := (idea_timestamps.filter (fun ts => cutoff ≤ ts)).length
    (recent_count : ℚ) / (idea_timestamps.length : ℚ)

/-- `ClusterEngine.generate_cluster_label`: top-3 keywords joined by
`" + "`, or `"Uncategorized"`.  (`term.title()` is kept abstract as
`titleCase`; no claim depends on its letter-by-letter behaviour.) -/
def generate_cluster_label (titleCase : List Char → List Char)
    (keywords : List (List Char × ℚ)) : List Char :=
  if keywords = [] then lstr "Uncategorized"
  else
    List.intercalate (lstr " + ")
      ((keywords.take 3).map (fun kw => titleCase kw.1))

/-- `get_cluster_engine`: module-level singleton.  The module state
(`_cluster_engine`) is passed explicitly; the result is the engine returned
to the caller together with the new module state.  The keyword arguments
are used only when the state is `none`. -/
def get_cluster_engine (state : Option ClusterEngine)
    (kwargs : ClusterEngine) : ClusterEngine × Option ClusterEngine :=
  match state with
  | none => (kwargs, some kwargs)
  | some e => (e, some e)

/-- Module-level convenience function `cluster_ideas(texts, **kwargs)`:
fetches the singleton engine (creating it from `kwargs` if absent) and
delegates to its `cluster_ideas` method. -/
def cluster_ideas_convenience (state : Option ClusterEngine)
    (kwargs : ClusterEngine) (fit : List (List Char) → ClusterResult)
    (texts : List (List Char)) :
    Except (List Char) ClusterResult × Option ClusterEngine :=
  let es := get_cluster_engine state kwargs
  (cluster_ideas es.1 fit texts, es.2)

/-! ## Clustering run orchestration (`apps/worker/tasks/clustering.py`) -/

/-- The fields of an `IdeaCandidate` row used by `_run_clustering_async`.
The list of fetched ideas is given in fetch order (the SQL
`ORDER BY quality_score DESC` order); ideas are identified by their
position in that list alongside the database `id`. -/
structure IdeaRow where
  id : ℕ
  sentiment_score : ℚ
  quality_score : ℚ
  extracted_at : ℤ
deriving DecidableEq

/-- One `ClusterMembership` row created by `_run_clustering_async`.
`cluster_index` is the loop's `cluster_id` (which cluster row the
membership points at), `idea_index` the idea's position in the fetched
list. -/
structure MembershipRow where
  cluster_index : ℕ
  idea_index : ℕ
  idea_id : ℕ
  similarity_score : ℚ
  is_representative : Bool
deriving DecidableEq

/-- `cluster_mask = cluster_result.labels == cluster_id` together with
`cluster_idea_indices` and `cluster_ideas = [ideas[i] for i in ...]`:
the `(index, idea)` pairs of cluster `c`, in fetch order.  `labels` and
`ideas` are aligned positionally (the source guarantees
`len(labels) = len(ideas)`; the theorems carry this as a hypothesis). -/
def clusterMembers (ideas : List IdeaRow) (labels : List ℤ) (c : ℕ) :
    List (ℕ × IdeaRow) :=
  ((labels.zip ideas).enum.filter (fun p => p.2.1 == (c : ℤ))).map
    (fun p => (p.1, p.2.2))

/-- The key of `sorted(zip(cluster_idea_indices, cluster_ideas),
key=lambda x: x[1].quality_score, reverse=True)`: `a` may come before `b`
iff `b`'s quality is at most `a`'s. -/
def qualityDescLe (a b : ℕ × IdeaRow) : Bool :=
  decide (b.2.quality_score ≤ a.2.quality_score)

/-- Python's `sorted(..., key=lambda x: x[1].quality_score, reverse=True)`
— a stable descending sort by quality score, modelled by the stable
`List.mergeSort`. -/
def sortByQualityDesc (members : List (ℕ × IdeaRow)) : List (ℕ × IdeaRow) :=
  members.mergeSort qualityDescLe

/-- The `for rank, (idx, idea) in enumerate(sorted_cluster_ideas)` loop
body: one `ClusterMembership` per member, similarity from the HDBSCAN
probability at the member's index (or the 0.9 fallback), representative
iff `rank < 5`. -/
def membershipRowsOf (probabilities : Option (List ℚ)) (c : ℕ)
    (sorted : List (ℕ × IdeaRow)) : List MembershipRow :=
  sorted.enum.map (fun p =>
    { cluster_index := c
      idea_index := p.2.1
      idea_id := p.2.2.id
      similarity_score :=
        match probabilities with
        | some probs => probs.getD p.2.1 0
        | none => 0.9
      is_representative := decide (p.1 < 5) })

/-- All membership rows the run creates for cluster `c`. -/
def clusterMembershipRows (ideas : List IdeaRow) (res : ClusterResult)
    (c : ℕ) : List MembershipRow :=
  membershipRowsOf res.probabilities c
    (sortByQualityDesc (clusterMembers ideas res.labels c))

/-- The membership rows created by the whole
`for cluster_id in range(cluster_result.n_clusters)` loop (the
`if not cluster_ideas: continue` guard skips empty clusters, which create
no rows either way). -/
def run_clustering_memberships (ideas : List IdeaRow)
    (res : ClusterResult) : List MembershipRow :=
  (List.range res.n_clusters).flatMap (fun c =>
    if clusterMembers ideas res.labels c = [] then []
    else clusterMembershipRows ideas res c)

/-- The run's `clusters_created` counter: one `Cluster` row per non-empty
`cluster_id` in `range(n_clusters)`. -/
def run_clustering_clusters_created (ideas : List IdeaRow)
    (res : ClusterResult) : ℕ :=
  ((List.range res.n_clusters).filter
    (fun c => decide (clusterMembers ideas res.labels c ≠ []))).length

/-! ## Text processing (`packages/core/nlp.py`)

Python strings are `List Char`.  `str.lower()`, `str.isupper()`, character
classes and whitespace are modelled at ASCII precision (`Char.toLower`,
`Char.isUpper`, `Char.isAlpha`, `Char.isWhitespace`); every keyword and
pattern in `nlp.py` is ASCII. -/

/-- Python `str.lower()` (ASCII model). -/
def pyLower (s : List Char) : List Char := s.map Char.toLower

/-- Python `str.strip()`: drop leading and trailing whitespace. -/
def pyStrip (s : List Char) : List Char :=
  ((s.dropWhile Char.isWhitespace).reverse.dropWhile Char.isWhitespace).reverse

/-- Python `str.rstrip(chars)`: drop trailing characters from `bad`. -/
def pyRstripChars (bad s : List Char) : List Char :=
  (s.reverse.dropWhile (fun c => bad.contains c)).reverse

/-- Split a string at each maximal run of characters satisfying `p`,
keeping the (possibly empty) pieces between runs — the behaviour of
`re.split` on a `[...]+` character-class pattern. -/
def splitOnRuns (p : Char → Bool) : List Char → List (List Char)
  | [] => [[]]
  | c :: cs =>
    let rest := splitOnRuns p cs
    if p c then
      match cs with
      | [] => [] :: rest
      | c' :: _ => if p c' then rest else [] :: rest
    else
      match rest with
      | w :: ws => (c :: w) :: ws
      | [] => [[c]]

/-- `TextProcessor._split_sentences`: `re.split(r"[.!?]+", text)`, then
strip each piece and drop the empty ones. -/
def split_sentences (text : List Char) : List (List Char) :=
  ((splitOnRuns (fun c => c == '.' || c == '!' || c == '?') text).map
    pyStrip).filter (fun s => !(s.isEmpty))

/-- Python `str.split()` with no argument: whitespace-delimited words,
empty pieces dropped. -/
def pySplitWords (s : List Char) : List (List Char) :=
  (splitOnRuns Char.isWhitespace s).filter (fun w => !(w.isEmpty))

/-- Python `needle in hay` substring test. -/
def containsSub (needle : List Char) : List Char → Bool
  | [] => needle.isEmpty
  | c :: cs => needle.isPrefixOf (c :: cs) || containsSub needle cs

/-- A regex `\w` word character (ASCII model): alphanumeric or `_`. -/
def isWordChar (c : Char) : Bool := c.isAlphanum || c == '_'

/-- A `\b` boundary holds before the current position: at the start of the
string or after a non-word character. -/
def boundaryOk : Option Char → Bool
  | none => true
  | some c => !(isWordChar c)

/-- Case-insensitive occurrence of the (lower-case, word-character-only)
keyword `kw` at the current position, with `\b` boundaries on both sides;
`prev` is the character before the position. -/
def keywordAt (kw : List Char) (prev : Option Char) (s : List Char) : Bool :=
  (pyLower (s.take kw.length) == kw) && boundaryOk prev &&
    (match s.drop kw.length with
     | [] => true
     | c :: _ => !(isWordChar c))

/-- `re.search` of `\b kw \b` (case-insensitive) anywhere in `s`. -/
def hasBoundedKeyword (kw : List Char) : Option Char → List Char → Bool
  | prev, [] => keywordAt kw prev []
  | prev, c :: cs => keywordAt kw prev (c :: cs) ||
      hasBoundedKeyword kw (some c) cs

/-- `re.search(r"\b\d+\b", s)`: some maximal digit run flanked by word
boundaries. -/
def hasBoundedNumber : Option Char → List Char → Bool
  | _, [] => false
  | prev, c :: cs =>
    (c.isDigit && boundaryOk prev &&
      (match cs.dropWhile Char.isDigit with
       | [] => true
       | d :: _ => !(isWordChar d)))
    || hasBoundedNumber (some c) cs

/-- The three `tech_patterns` alternation lists of
`TextProcessor._score_specificity`, lower-cased. -/
def techPatternTerms : List (List Char) :=
  [lstr "ai", lstr "ml", lstr "api", lstr "ocr", lstr "gps", lstr "ar",
   lstr "vr", lstr "blockchain", lstr "cloud",
   lstr "android", lstr "ios", lstr "web", lstr "mobile", lstr "desktop",
   lstr "calendar", lstr "notification", lstr "photo", lstr "camera",
   lstr "location"]

/-- `TextProcessor._score_specificity`: word-count bonus, feature-word
bonus, technology-term bonus, numeral bonus, capped at 1. -/
def score_specificity (text : List Char) : ℚ :=
  let word_count := (pySplitWords text).length
  let lenBonus : ℚ :=
    if 15 ≤ word_count then 0.3
    else if 10 ≤ word_count then 0.2
    else if 5 ≤ word_count then 0.1
    else 0
  let feature_words := [lstr "with", lstr "that", lstr "which", lstr "using",
    lstr "via", lstr "through", lstr "by"]
  let featBonus : ℚ :=
    if feature_words.any (fun w => containsSub w (pyLower text)) then 0.2
    else 0
  let techBonus : ℚ :=
    if techPatternTerms.any (fun kw => hasBoundedKeyword kw none text)
    then 0.15 else 0
  let numBonus : ℚ := if hasBoundedNumber none text then 0.15 else 0
  min (lenBonus + featBonus + techBonus + numBonus) 1

/-- `TextProcessor._score_actionability`: baseline 0.5 adjusted by action
verbs, problem framing, audience terms and vague fillers, clamped to
`[0, 1]`. -/
def score_actionability (text : List Char) : ℚ :=
  let t := pyLower text
  let action_verbs := [lstr "track", lstr "manage", lstr "organize",
    lstr "find", lstr "search", lstr "create", lstr "share", lstr "analyze",
    lstr "monitor", lstr "schedule", lstr "plan", lstr "calculate"]
  let problem_words := [lstr "problem", lstr "issue", lstr "challenge",
    lstr "difficulty", lstr "need"]
  let audience_words := [lstr "users", lstr "people", lstr "developers",
    lstr "students", lstr "professionals"]
  let vague_words := [lstr "something", lstr "somehow", lstr "whatever",
    lstr "stuff", lstr "things"]
  let s : ℚ := 0.5
    + (if action_verbs.any (fun w => containsSub w t) then 0.2 else 0)
    + (if problem_words.any (fun w => containsSub w t) then 0.1 else 0)
    + (if audience_words.any (fun w => containsSub w t) then 0.1 else 0)
    - (if vague_words.any (fun w => containsSub w t) then 0.2 else 0)
  max 0 (min s 1)

/-- Python `str.isupper()` (ASCII model): at least one cased character and
no lower-case cased character. -/
def pyIsUpper (s : List Char) : Bool :=
  s.any Char.isAlpha && s.all (fun c => !(c.isAlpha) || c.isUpper)

/-- `TextProcessor._score_clarity`.  On the empty string the source
evaluates `text[0]` and raises `IndexError`, so the model returns `none`
there; otherwise: baseline 0.5 with word-count, complete-sentence,
punctuation-density and all-caps adjustments, clamped to `[0, 1]`. -/
def score_clarity (text : List Char) : Option ℚ :=
  match text with
  | [] => none
  | c0 :: rest =>
    let word_count := (pySplitWords text).length
    let lenAdj : ℚ :=
      if 8 ≤ word_count ∧ word_count ≤ 30 then 0.3
      else if word_count < 5 then -0.2
      else if 50 < word_count then -0.1
      else 0
    let lastc := (c0 :: rest).getLast (List.cons_ne_nil c0 rest)
    let sentAdj : ℚ :=
      if c0.isUpper ∧ (lastc = '.' ∨ lastc = '!' ∨ lastc = '?') then 0.1
      else 0
    let punct_count :=
      ((c0 :: rest).filter (fun c => c == '!' || c == '?' || c == '.')).length
    let punct_ratio : ℚ :=
      (punct_count : ℚ) / ((max (c0 :: rest).length 1 : ℕ) : ℚ)
    let punctAdj : ℚ := if (1 : ℚ)/10 < punct_ratio then -0.2 else 0
    let capsAdj : ℚ := if pyIsUpper (c0 :: rest) then -0.3 else 0
    some (max 0 (min (0.5 + lenAdj + sentAdj + punctAdj + capsAdj) 1))

/-- Python 3 `round(·)` on an exact value: round half to even. -/
def roundHalfEven (q : ℚ) : ℤ :=
  let f := Rat.floor q
  let r := q - (f : ℚ)
  if r < 1/2 then f
  else if (1 : ℚ)/2 < r then f + 1
  else if f % 2 = 0 then f else f + 1

/-- Python `round(x, 2)` on an exact value. -/
def pyRound2 (q : ℚ) : ℚ := (roundHalfEven (q * 100) : ℚ) / 100

/-- `TextProcessor.calculate_quality_score`: the weighted sum of the three
sub-scores (weights 0.4 / 0.3 / 0.3, summed in the source's key order),
rounded to two decimals; `none` when `_score_clarity` raises. -/
def calculate_quality_score (text : List Char) : Option ℚ :=
  match score_clarity text with
  | none => none
  | some clarity =>
    some (pyRound2 (score_specificity text * 0.4
      + score_actionability text * 0.3 + clarity * 0.3))

/-- `TextProcessor._clean_statement`, step 1: strip one leading article
(`^(?:an?|the)\s+`, case-insensitive) together with the whitespace run
after it.  `stripArticleTry` attempts one alternative. -/
def stripArticleTry (art s : List Char) : Option (List Char) :=
  if pyLower (s.take art.length) = art then
    match s.drop art.length with
    | [] => none
    | c :: cs =>
      if c.isWhitespace then some ((c :: cs).dropWhile Char.isWhitespace)
      else none
  else none

/-- The full leading-article strip, in the regex's alternation order
(`an`, `a`, `the`). -/
def stripLeadingArticle (s : List Char) : List Char :=
  match stripArticleTry (lstr "an") s with
  | some r => r
  | none =>
    match stripArticleTry (lstr "a") s with
    | some r => r
    | none =>
      match stripArticleTry (lstr "the") s with
      | some r => r
      | none => s

/-- `re.sub(r"\s+", " ", s)`: collapse each whitespace run to one space. -/
def collapseWs (s : List Char) : List Char :=
  List.intercalate [' '] (splitOnRuns Char.isWhitespace s)

/-- `TextProcessor._clean_statement`: strip a leading article, strip
trailing punctuation, normalize whitespace. -/
def clean_statement (s : List Char) : List Char :=
  pyStrip (collapseWs (pyRstripChars (lstr ".,;:!?") (stripLeadingArticle s)))

/-- `TextProcessor._extract_context`: slice `context_chars` around the
match positions (clipped), **strip** the slice, then add ellipsis markers
when the slice was clipped. -/
def extract_context (text : List Char)
    (start endPos context_chars : ℕ) : List Char :=
  let context_start := start - context_chars
  let context_end := min text.length (endPos + context_chars)
  let context :=
    pyStrip ((text.drop context_start).take (context_end - context_start))
  let context :=
    if 0 < context_start then lstr "..." ++ context else context
  if context_end < text.length then context ++ lstr "..." else context

/-- Modelled from the spec: "attach ±100 characters of surrounding text as
context (with ellipsis markers when truncated at document boundaries)" —
the exact substring of the *document* around the match, with ellipses. -/
def specContext (text : List Char)
    (start endPos context_chars : ℕ) : List Char :=
  let context_start := start - context_chars
  let context_end := min text.length (endPos + context_chars)
  (if 0 < context_start then lstr "..." else [])
    ++ (text.drop context_start).take (context_end - context_start)
    ++ (if context_end < text.length then lstr "..." else [])

/-- The per-document match-processing loop of
`TextProcessor.extract_need_statements`, given the sequence of raw regex
captures (`match.group(1)`) in the order `re.finditer` yields them over
the sentences and patterns.  `seen` accumulates the lower-cased *cleaned*
statements while the skip test compares the lower-cased *raw* span
against it — translated literally from the source. -/
def processCapturesGo (seen : List (List Char)) :
    List (List Char) → List (List Char)
  | [] => []
  | cap :: rest =>
    let statement := pyStrip cap
    if statement.length < 10 || seen.contains (pyLower statement) then
      processCapturesGo seen rest
    else
      let cleaned := clean_statement statement
      cleaned :: processCapturesGo (pyLower cleaned :: seen) rest

/-- The statements returned for one document, as a function of its capture
sequence. -/
def process_captures (caps : List (List Char)) : List (List Char) :=
  processCapturesGo [] caps

/-- The C5 failing document: a 130-character first sentence followed by a
sentence matched by the first need pattern. -/
def c5doc : List Char :=
  List.replicate 130 'x'
    ++ lstr ". I wish there was an app for tracking my plants."

/-! ## URL canonicalization (`packages/core/dedupe.py`)

`Deduplicator.canonicalize_url` delegates to CPython 3.11's
`urllib.parse`; the helpers below embed the `urllib.parse` functions the
repository exercises (`urlparse`, `parse_qs`, `urlencode` with
`quote_plus`, `urlunparse`), translated from the CPython 3.11 source.
Strings are `List Char`, bytes are `ℕ` (kept below 256 by construction).
Model boundary: `urlsplit`'s host validation (`_check_bracketed_host`,
`_checknetloc`) is modelled as rejection (`none`) of any netloc that
contains a bracket or a non-ASCII character; CPython accepts some of
those (valid bracketed IPv6 hosts, benign non-ASCII hosts), so theorems
below simply say nothing about them.  The UTF-8 decoder follows
`errors="replace"` behaviour; on *invalid* byte sequences the precise
placement of replacement characters may differ from CPython (no claim
evaluates those). -/

/-- Hexadecimal digit value (`0-9a-fA-F`), as used by `unquote`'s
`_hextobyte` table. -/
def hexVal (b : ℕ) : Option ℕ :=
  if 48 ≤ b ∧ b ≤ 57 then some (b - 48)
  else if 65 ≤ b ∧ b ≤ 70 then some (b - 65 + 10)
  else if 97 ≤ b ∧ b ≤ 102 then some (b - 97 + 10)
  else none

/-- Upper-case hexadecimal digit, as emitted by `quote`'s
`'%{:02X}'.format(b)`. -/
def hexUpper (n : ℕ) : Char :=
  (lstr "0123456789ABCDEF").getD n '0'

/-- Two-digit upper-case hexadecimal rendering of a byte. -/
def toHexUpper2 (b : ℕ) : List Char := [hexUpper (b / 16), hexUpper (b % 16)]

/-- UTF-8 encoding of one scalar value (`str.encode("utf-8")`). -/
def utf8EncodeChar (c : Char) : List ℕ :=
  let v := c.toNat
  if v < 128 then [v]
  else if v < 2048 then [192 + v / 64, 128 + v % 64]
  else if v < 65536 then
    [224 + v / 4096, 128 + (v / 64) % 64, 128 + v % 64]
  else
    [240 + v / 262144, 128 + (v / 4096) % 64, 128 + (v / 64) % 64,
     128 + v % 64]

/-- UTF-8 encoding of a string. -/
def utf8Encode (s : List Char) : List ℕ := s.flatMap utf8EncodeChar

/-- U+FFFD, the `errors="replace"` replacement character. -/
def replChar : Char := Char.ofNat 65533

/-- A decoded scalar value as a character; invalid scalar values (as in
CPython's strict surrogate handling) become the replacement character. -/
def scalarChar (n : ℕ) : Char :=
  if Nat.isValidChar n then Char.ofNat n else replChar

/-- Incremental UTF-8 decoder state: `some (need, acc)` when `need` more
continuation bytes are expected for the partial scalar `acc`. -/
def Utf8State : Type := Option (ℕ × ℕ)

/-- Feed one byte to the UTF-8 decoder in the initial state. -/
def utf8StartByte (b : ℕ) : Utf8State × List Char :=
  if b < 128 then (none, [Char.ofNat b])
  else if 194 ≤ b ∧ b ≤ 223 then (some (1, b - 192), [])
  else if 224 ≤ b ∧ b ≤ 239 then (some (2, b - 224), [])
  else if 240 ≤ b ∧ b ≤ 244 then (some (3, b - 240), [])
  else (none, [replChar])

/-- Feed one byte to the UTF-8 decoder. -/
def utf8Step (u : Utf8State) (b : ℕ) : Utf8State × List Char :=
  match u with
  | none => utf8StartByte b
  | some (need, acc) =>
    if 128 ≤ b ∧ b < 192 then
      if need = 1 then (none, [scalarChar (acc * 64 + (b - 128))])
      else (some (need - 1, acc * 64 + (b - 128)), [])
    else
      let r := utf8StartByte b
      (r.1, replChar :: r.2)

/-- Flush the UTF-8 decoder at end of input. -/
def utf8Flush (u : Utf8State) : List Char :=
  match u with
  | none => []
  | some _ => [replChar]

/-- Feed a byte list to the UTF-8 decoder. -/
def feedBytes (u : Utf8State) : List ℕ → Utf8State × List Char
  | [] => (u, [])
  | b :: bs =>
    let r := utf8Step u b
    let r2 := feedBytes r.1 bs
    (r2.1, r.2 ++ r2.2)

/-- Percent-decoder state: idle, after a `%`, or after `%` and one hex
digit (whose raw byte is remembered for literal fall-back). -/
inductive PctState : Type
  | idle : PctState
  | afterPct : PctState
  | afterHex (b1 : ℕ) : PctState
deriving DecidableEq

/-- The literal bytes a pending percent-escape stands for when it turns
out incomplete (CPython appends `b"%" + item` on a failed table lookup). -/
def pctPendingBytes : PctState → List ℕ
  | .idle => []
  | .afterPct => [37]
  | .afterHex b1 => [37, b1]

/-- One step of the combined percent + UTF-8 decoding automaton on an
ASCII byte. -/
def pctStep (p : PctState) (u : Utf8State) (b : ℕ) :
    PctState × Utf8State × List Char :=
  match p with
  | .idle =>
    if b = 37 then (.afterPct, u, [])
    else
      let r := utf8Step u b
      (.idle, r.1, r.2)
  | .afterPct =>
    if (hexVal b).isSome then (.afterHex b, u, [])
    else if b = 37 then
      let r := utf8Step u 37
      (.afterPct, r.1, r.2)
    else
      let r := feedBytes u [37, b]
      (.idle, r.1, r.2)
  | .afterHex b1 =>
    match hexVal b1, hexVal b with
    | some h1, some h2 =>
      let r := utf8Step u (h1 * 16 + h2)
      (.idle, r.1, r.2)
    | _, _ =>
      if b = 37 then
        let r := feedBytes u [37, b1]
        (.afterPct, r.1, r.2)
      else
        let r := feedBytes u [37, b1, b]
        (.idle, r.1, r.2)

/-- `urllib.parse.unquote` (with `encoding="utf-8"`, `errors="replace"`):
percent-escapes inside maximal ASCII runs are decoded to bytes and the
bytes UTF-8-decoded; non-ASCII characters pass through unchanged and
terminate the current run. -/
def unquoteGo (p : PctState) (u : Utf8State) : List Char → List Char
  | [] =>
    let r := feedBytes u (pctPendingBytes p)
    r.2 ++ utf8Flush r.1
  | c :: cs =>
    if c.toNat < 128 then
      let s := pctStep p u c.toNat
      s.2.2 ++ unquoteGo s.1 s.2.1 cs
    else
      let r := feedBytes u (pctPendingBytes p)
      r.2 ++ utf8Flush r.1 ++ c :: unquoteGo .idle none cs

/-- `urllib.parse.unquote`. -/
def unquote (s : List Char) : List Char := unquoteGo .idle none s

/-- The `.replace("+", " ")` applied by `parse_qsl` before unquoting. -/
def plusToSpace (s : List Char) : List Char :=
  s.map (fun c => if c = '+' then ' ' else c)

/-- Python `str.split(sep)` for a one-character separator: split at every
occurrence, keeping empty pieces. -/
def splitChar (sep : Char) : List Char → List (List Char)
  | [] => [[]]
  | c :: cs =>
    if c = sep then [] :: splitChar sep cs
    else
      match splitChar sep cs with
      | w :: ws => (c :: w) :: ws
      | [] => [[c]]

/-- Python `s.split(ch, 1)`: the part before the first `ch`, and — when
`ch` occurs — the part after it. -/
def breakAtFirst (ch : Char) (s : List Char) : List Char × Option (List Char) :=
  match s.dropWhile (fun c => !(c == ch)) with
  | [] => (s, none)
  | _ :: rest => (s.takeWhile (fun c => !(c == ch)), some rest)

/-- `urllib.parse.parse_qsl` with the default arguments
(`keep_blank_values=False`, `separator="&"`): fields without `=` or with
an empty value are dropped; names and values are `+`-restored and
unquoted. -/
def parse_qsl_model (qs : List Char) : List (List Char × List Char) :=
  if qs = [] then []
  else
    (splitChar '&' qs).filterMap (fun field =>
      if field = [] then none
      else
        match breakAtFirst '=' field with
        | (_, none) => none
        | (name, some value) =>
          if value = [] then none
          else some (unquote (plusToSpace name), unquote (plusToSpace value)))

/-- Append one parsed pair into the `parse_qs` dictionary (insertion
order preserved, values grouped per key). -/
def dictAppend : List (List Char × List (List Char)) →
    List Char × List Char → List (List Char × List (List Char))
  | [], kv => [(kv.1, [kv.2])]
  | (k, vs) :: rest, kv =>
    if k = kv.1 then (k, vs ++ [kv.2]) :: rest
    else (k, vs) :: dictAppend rest kv

/-- `urllib.parse.parse_qs`: group the `parse_qsl` pairs by key, in
first-occurrence order. -/
def parse_qs_model (qs : List Char) : List (List Char × List (List Char)) :=
  (parse_qsl_model qs).foldl dictAppend []

/-- The `_ALWAYS_SAFE` byte set of `urllib.parse` (letters, digits,
`_.-~`); `urlencode` passes `safe=""`. -/
def isSafeByte (b : ℕ) : Bool :=
  (48 ≤ b && b ≤ 57) || (65 ≤ b && b ≤ 90) || (97 ≤ b && b ≤ 122)
    || b == 95 || b == 46 || b == 45 || b == 126

/-- `urllib.parse.quote_plus` with `safe=""`: UTF-8 encode, keep safe
bytes, turn spaces into `+`, percent-escape the rest in upper-case hex. -/
def quote_plus_model (s : List Char) : List Char :=
  (utf8Encode s).flatMap (fun b =>
    if b = 32 then ['+']
    else if isSafeByte b then [Char.ofNat b]
    else '%' :: toHexUpper2 b)

/-- `urllib.parse.urlencode(query, doseq=True)` on a `parse_qs`-shaped
dictionary: one `key=value` field per value, joined with `&`. -/
def urlencode_model (pairs : List (List Char × List (List Char))) :
    List Char :=
  List.intercalate ['&'] (pairs.flatMap (fun kv =>
    kv.2.map (fun v => quote_plus_model kv.1 ++ '=' :: quote_plus_model v)))

/-- Lexicographic comparison of lists, lifted from an element
comparison — the order Python uses on strings and on lists of strings. -/
def cmpLex {α : Type} (cmp : α → α → Ordering) : List α → List α → Ordering
  | [], [] => .eq
  | [], _ :: _ => .lt
  | _ :: _, [] => .gt
  | a :: as, b :: bs =>
    match cmp a b with
    | .lt => .lt
    | .gt => .gt
    | .eq => cmpLex cmp as bs

/-- Code-point comparison of characters. -/
def cmpChar (a b : Char) : Ordering :=
  if a < b then .lt else if b < a then .gt else .eq

/-- Python `str` comparison. -/
def cmpStr : List Char → List Char → Ordering := cmpLex cmpChar

/-- Python comparison of `(key, value_list)` tuples, as compared by
`sorted(filtered_params.items())`: keys first, then the value lists. -/
def cmpPair (a b : List Char × List (List Char)) : Ordering :=
  match cmpStr a.1 b.1 with
  | .eq => cmpLex cmpStr a.2 b.2
  | o => o

/-- The non-strict order underlying Python's `sorted` on those tuples. -/
def pairLe (a b : List Char × List (List Char)) : Bool :=
  match cmpPair a b with
  | .gt => false
  | _ => true

/-- `sorted(filtered_params.items())` — Python's stable sort under the
tuple order.  (A stable sort's output is determined by the order alone,
so the structural insertion sort used here computes the same list as any
other stable implementation.) -/
def sortPairs (pairs : List (List Char × List (List Char))) :
    List (List Char × List (List Char)) :=
  pairs.insertionSort (fun a b => pairLe a b = true)

/-- The result of `urllib.parse.urlparse`: scheme, netloc, path, params,
query, fragment. -/
structure UrlParts where
  scheme : List Char
  netloc : List Char
  path : List Char
  params : List Char
  query : List Char
  fragment : List Char
deriving DecidableEq

/-- `scheme_chars` of `urllib.parse`. -/
def schemeChars : List Char :=
  lstr "abcdefghijklmnopqrstuvwxyzABCDEFGHIJKLMNOPQRSTUVWXYZ0123456789+-."

/-- `uses_netloc` of `urllib.parse` (the empty scheme included). -/
def usesNetloc : List (List Char) :=
  [[], lstr "ftp", lstr "http", lstr "gopher", lstr "nntp", lstr "telnet",
   lstr "imap", lstr "wais", lstr "file", lstr "mms", lstr "https",
   lstr "shttp", lstr "snews", lstr "prospero", lstr "rtsp", lstr "rtsps",
   lstr "rtspu", lstr "rsync", lstr "svn", lstr "svn+ssh", lstr "sftp",
   lstr "nfs", lstr "git", lstr "git+ssh", lstr "ws", lstr "wss"]

/-- `uses_params` of `urllib.parse` (the empty scheme included). -/
def usesParams : List (List Char) :=
  [[], lstr "ftp", lstr "hdl", lstr "prospero", lstr "http", lstr "imap",
   lstr "https", lstr "shttp", lstr "rtsp", lstr "rtsps", lstr "rtspu",
   lstr "sip", lstr "sips", lstr "mms", lstr "sftp", lstr "tel"]

/-- The scheme-splitting step of `urlsplit`: a scheme is recognised when
the first `:` is preceded by an ASCII letter followed by scheme
characters only; it is returned lower-cased. -/
def splitScheme (url : List Char) : List Char × List Char :=
  match breakAtFirst ':' url with
  | (_, none) => ([], url)
  | (pre, some rest) =>
    match pre with
    | [] => ([], url)
    | c :: _ =>
      if c.toNat < 128 && c.isAlpha && pre.all (fun d => schemeChars.contains d)
      then (pyLower pre, rest)
      else ([], url)

/-- Is the character one of the netloc delimiters `/?#`? -/
def isNetlocDelim (c : Char) : Bool := c == '/' || c == '?' || c == '#'

/-- `urllib.parse.urlsplit` with default arguments: strip leading
C0-control/space characters, remove `\t\r\n`, split off scheme, netloc,
fragment and query.  Netlocs containing brackets or non-ASCII characters
are outside the model (`none`); see the section comment. -/
def urlsplitModel (url0 : List Char) :
    Option (List Char × List Char × List Char × List Char × List Char) :=
  let url1 := (url0.dropWhile (fun c => c.toNat ≤ 32)).filter
    (fun c => !(c == '\t' || c == '\r' || c == '\n'))
  let sr := splitScheme url1
  let scheme := sr.1
  let url2 := sr.2
  let hasNetloc := (lstr "//").isPrefixOf url2
  let netloc := if hasNetloc then (url2.drop 2).takeWhile
    (fun c => !(isNetlocDelim c)) else []
  let url3 := if hasNetloc then (url2.drop 2).dropWhile
    (fun c => !(isNetlocDelim c)) else url2
  if netloc.contains '[' || netloc.contains ']'
      || !(netloc.all (fun c => c.toNat < 128)) then
    none
  else
    let fr := breakAtFirst '#' url3
    let url4 := if (fr.2).isSome then fr.1 else url3
    let fragment := (fr.2).getD []
    let qr := breakAtFirst '?' url4
    let path := if (qr.2).isSome then qr.1 else url4
    let query := (qr.2).getD []
    some (scheme, netloc, path, query, fragment)

/-- `urllib.parse._splitparams`: split path parameters off the last path
segment (the first `;` at or after the last `/`). -/
def splitParamsModel (p : List Char) : List Char × List Char :=
  if p.contains '/' then
    let seg := (p.reverse.takeWhile (fun c => !(c == '/'))).reverse
    let pre := p.take (p.length - seg.length)
    match breakAtFirst ';' seg with
    | (_, none) => (p, [])
    | (before, some after) => (pre ++ before, after)
  else
    match breakAtFirst ';' p with
    | (_, none) => (p, [])
    | (before, some after) => (before, after)

/-- `urllib.parse.urlparse`: `urlsplit`, then split path parameters when
the scheme uses them. -/
def urlparseModel (url : List Char) : Option UrlParts :=
  match urlsplitModel url with
  | none => none
  | some (scheme, netloc, url', query, fragment) =>
    if usesParams.contains scheme && url'.contains ';' then
      let pp := splitParamsModel url'
      some ⟨scheme, netloc, pp.1, pp.2, query, fragment⟩
    else
      some ⟨scheme, netloc, url', [], query, fragment⟩

/-- `urllib.parse.urlunsplit`. -/
def urlunsplitModel (scheme netloc url query fragment : List Char) :
    List Char :=
  let url1 :=
    if netloc ≠ [] ∨ (scheme ≠ [] ∧ usesNetloc.contains scheme
        ∧ ¬ (lstr "//").isPrefixOf url) then
      lstr "//" ++ netloc
        ++ (if url ≠ [] ∧ ¬ (['/'].isPrefixOf url) then '/' :: url else url)
    else url
  let url2 := if scheme ≠ [] then scheme ++ ':' :: url1 else url1
  let url3 := if query ≠ [] then url2 ++ '?' :: query else url2
  if fragment ≠ [] then url3 ++ '#' :: fragment else url3

/-- `urllib.parse.urlunparse`. -/
def urlunparseModel (p : UrlParts) : List Char :=
  let url := if p.params ≠ [] then p.path ++ ';' :: p.params else p.path
  urlunsplitModel p.scheme p.netloc url p.query p.fragment

/-- The `tracking_params` set of `Deduplicator.canonicalize_url`. -/
def trackingParams : List (List Char) :=
  [lstr "utm_source", lstr "utm_medium", lstr "utm_campaign",
   lstr "utm_term", lstr "utm_content", lstr "fbclid", lstr "gclid",
   lstr "mc_eid", lstr "mc_cid", lstr "_ga", lstr "ref", lstr "source"]

/-- Python `str.rstrip("/")`. -/
def rstripSlash (s : List Char) : List Char :=
  (s.reverse.dropWhile (fun c => c == '/')).reverse

/-- Strip one leading `www.` from a netloc, as `canonicalize_url` does. -/
def stripWww (netloc : List Char) : List Char :=
  if (lstr "www.").isPrefixOf netloc then netloc.drop 4 else netloc

/-- The query part of the canonical URL: drop tracking parameters from
the parsed dictionary, sort, re-encode. -/
def canonicalQuery (query : List Char) : List Char :=
  urlencode_model (sortPairs ((parse_qs_model query).filter
    (fun kv => !(trackingParams.contains kv.1))))

/-- The component transformation of `Deduplicator.canonicalize_url`:
default/lower the scheme, lower the netloc and strip one `www.`, strip
trailing slashes from the path, keep params, filter+sort+re-encode the
query, drop the fragment. -/
def canonicalParts (p : UrlParts) : UrlParts :=
  { scheme := if pyLower p.scheme = [] then lstr "https" else pyLower p.scheme
    netloc := stripWww (pyLower p.netloc)
    path := rstripSlash p.path
    params := p.params
    query := canonicalQuery p.query
    fragment := [] }

/-- `Deduplicator.canonicalize_url`. -/
def canonicalize_url (url : List Char) : Option (List Char) :=
  match urlparseModel url with
  | none => none
  | some p => some (urlunparseModel (canonicalParts p))

/-! ### SHA-256 (`hashlib.sha256(...).hexdigest()`)

A direct FIPS 180-4 implementation over byte lists, with 32-bit words as
naturals reduced modulo `2^32`. -/

/-- Addition modulo `2^32`. -/
def add32 (a b : ℕ) : ℕ := (a + b) % 4294967296

/-- Right rotation of a 32-bit word. -/
def rotr32 (n x : ℕ) : ℕ :=
  (x / 2 ^ n + (x % 2 ^ n) * 2 ^ (32 - n)) % 4294967296

/-- Bitwise complement of a 32-bit word. -/
def not32 (x : ℕ) : ℕ := 4294967295 - x % 4294967296

/-- The SHA-256 round constants. -/
def sha256K : List ℕ :=
  [1116352408, 1899447441, 3049323471, 3921009573, 961987163,
   1508970993, 2453635748, 2870763221, 3624381080, 310598401,
   607225278, 1426881987, 1925078388, 2162078206, 2614888103,
   3248222580, 3835390401, 4022224774, 264347078, 604807628,
   770255983, 1249150122, 1555081692, 1996064986, 2554220882,
   2821834349, 2952996808, 3210313671, 3336571891, 3584528711,
   113926993, 338241895, 666307205, 773529912, 1294757372,
   1396182291, 1695183700, 1986661051, 2177026350, 2456956037,
   2730485921, 2820302411, 3259730800, 3345764771, 3516065817,
   3600352804, 4094571909, 275423344, 430227734, 506948616,
   659060556, 883997877, 958139571, 1322822218, 1537002063,
   1747873779, 1955562222, 2024104815, 2227730452, 2361852424,
   2428436474, 2756734187, 3204031479, 3329325298]

/-- The eight 32-bit words of the SHA-256 state. -/
structure Hash8 where
  a : ℕ
  b : ℕ
  c : ℕ
  d : ℕ
  e : ℕ
  f : ℕ
  g : ℕ
  h : ℕ
deriving DecidableEq

/-- The SHA-256 initial state. -/
def sha256Init : Hash8 :=
  ⟨1779033703, 3144134277, 1013904242, 2773480762,
   1359893119, 2600822924, 528734635, 1541459225⟩

/-- Big-endian 8-byte rendering of the bit length. -/
def bigEndian8 (n : ℕ) : List ℕ :=
  [n / 2 ^ 56 % 256, n / 2 ^ 48 % 256, n / 2 ^ 40 % 256, n / 2 ^ 32 % 256,
   n / 2 ^ 24 % 256, n / 2 ^ 16 % 256, n / 2 ^ 8 % 256, n % 256]

/-- SHA-256 message padding: `0x80`, zeros to 56 mod 64, 64-bit length. -/
def sha256Pad (msg : List ℕ) : List ℕ :=
  msg ++ [128] ++ List.replicate ((119 - msg.length % 64) % 64) 0
    ++ bigEndian8 (msg.length * 8)

/-- Split a byte list into 64-byte blocks (fuel-driven, total). -/
def chunks64Go : ℕ → List ℕ → List (List ℕ)
  | 0, _ => []
  | _, [] => []
  | fuel + 1, l => l.take 64 :: chunks64Go fuel (l.drop 64)

/-- The 64-byte blocks of a padded message. -/
def chunks64 (l : List ℕ) : List (List ℕ) := chunks64Go l.length l

/-- The sixteen big-endian message words of one block. -/
def blockWords (block : List ℕ) : List ℕ :=
  (List.range 16).map (fun i =>
    block.getD (4 * i) 0 * 2 ^ 24 + block.getD (4 * i + 1) 0 * 2 ^ 16
      + block.getD (4 * i + 2) 0 * 2 ^ 8 + block.getD (4 * i + 3) 0)

/-- Message-schedule extension to 64 words. -/
def extendWords (w16 : List ℕ) : List ℕ :=
  (List.range 48).foldl (fun w _ =>
    let i := w.length
    let s0 :=
      (rotr32 7 (w.getD (i - 15) 0)).xor
        ((rotr32 18 (w.getD (i - 15) 0)).xor (w.getD (i - 15) 0 / 2 ^ 3))
    let s1 :=
      (rotr32 17 (w.getD (i - 2) 0)).xor
        ((rotr32 19 (w.getD (i - 2) 0)).xor (w.getD (i - 2) 0 / 2 ^ 10))
    w ++ [add32 (add32 (w.getD (i - 16) 0) s0)
          (add32 (w.getD (i - 7) 0) s1)]) w16

/-- One SHA-256 compression round. -/
def sha256Round (st : Hash8) (kw : ℕ × ℕ) : Hash8 :=
  let S1 := (rotr32 6 st.e).xor ((rotr32 11 st.e).xor (rotr32 25 st.e))
  let ch := (st.e.land st.f).xor ((not32 st.e).land st.g)
  let temp1 := add32 (add32 st.h S1) (add32 ch (add32 kw.1 kw.2))
  let S0 := (rotr32 2 st.a).xor ((rotr32 13 st.a).xor (rotr32 22 st.a))
  let maj := ((st.a.land st.b).xor (st.a.land st.c)).xor (st.b.land st.c)
  let temp2 := add32 S0 maj
  ⟨add32 temp1 temp2, st.a, st.b, st.c, add32 st.d temp1, st.e, st.f, st.g⟩

/-- Compress one 64-byte block into the state. -/
def sha256Compress (st : Hash8) (block : List ℕ) : Hash8 :=
  let w := extendWords (blockWords block)
  let r := (sha256K.zip w).foldl sha256Round st
  ⟨add32 st.a r.a, add32 st.b r.b, add32 st.c r.c, add32 st.d r.d,
   add32 st.e r.e, add32 st.f r.f, add32 st.g r.g, add32 st.h r.h⟩

/-- Lower-case hexadecimal digit, as in `hexdigest()`. -/
def hexLower (n : ℕ) : Char := (lstr "0123456789abcdef").getD n '0'

/-- Eight-digit lower-case hexadecimal rendering of a 32-bit word. -/
def hex8 (w : ℕ) : List Char :=
  [hexLower (w / 16 ^ 7 % 16), hexLower (w / 16 ^ 6 % 16),
   hexLower (w / 16 ^ 5 % 16), hexLower (w / 16 ^ 4 % 16),
   hexLower (w / 16 ^ 3 % 16), hexLower (w / 16 ^ 2 % 16),
   hexLower (w / 16 % 16), hexLower (w % 16)]

/-- `hashlib.sha256(bytes).hexdigest()`. -/
def sha256hex (msg : List ℕ) : List Char :=
  let st := (chunks64 (sha256Pad msg)).foldl sha256Compress sha256Init
  hex8 st.a ++ hex8 st.b ++ hex8 st.c ++ hex8 st.d ++ hex8 st.e
    ++ hex8 st.f ++ hex8 st.g ++ hex8 st.h

/-- `Deduplicator.generate_url_hash`: SHA-256 hex digest of the UTF-8
encoding of the canonical URL. -/
def generate_url_hash (url : List Char) : Option (List Char) :=
  (canonicalize_url url).map (fun c => sha256hex (utf8Encode c))

/-- C7's hypothesis, formalized as the claim states it: the two URLs
parse successfully and differ *only* by (i) presence of tracking query
parameters, (ii) a leading `www.` on the host, (iii) trailing slashes on
the path, and (iv) the order of the remaining `key=value` query
parameters (a permutation of the non-tracking parsed pairs); all other
components are equal. -/
def differOnlyByClaimed (u₁ u₂ : List Char) : Bool :=
  match urlparseModel u₁, urlparseModel u₂ with
  | some p₁, some p₂ =>
    p₁.scheme == p₂.scheme
    && (p₁.netloc == p₂.netloc || p₁.netloc == lstr "www." ++ p₂.netloc
        || p₂.netloc == lstr "www." ++ p₁.netloc)
    && rstripSlash p₁.path == rstripSlash p₂.path
    && p₁.params == p₂.params
    && p₁.fragment == p₂.fragment
    && ((parse_qsl_model p₁.query).filter
          (fun kv => !(trackingParams.contains kv.1))).isPerm
        ((parse_qsl_model p₂.query).filter
          (fun kv => !(trackingParams.contains kv.1)))
  | _, _ => false

/-- Stability of the path/params portion of a canonical URL under one
re-parse.  `urlunparse` joins `path;params` back into one string and the
next `urlparse` re-splits it; this predicate states that re-splitting the
joined string (as it appears in the canonical URL, including the `/`
prepended by `urlunsplit` when a netloc is emitted before a relative
path) returns the same `path`/`params` after trailing-slash stripping.
It fails exactly in the degenerate cases where canonicalization is not
idempotent on the path — e.g. a trailing `;` exposed by slash-stripping
is dropped on the next round. -/
def fpParamsStable (q : UrlParts) : Bool :=
  let pp := if q.params = [] then q.path else q.path ++ ';' :: q.params
  let pathpart :=
    if q.netloc ≠ [] ∨ (q.scheme ≠ [] ∧ usesNetloc.contains q.scheme
        ∧ ¬ (lstr "//").isPrefixOf pp) then
      (if pp ≠ [] ∧ ¬ (['/'].isPrefixOf pp) then '/' :: pp else pp)
    else pp
  let res :=
    if usesParams.contains q.scheme && pathpart.contains ';' then
      splitParamsModel pathpart
    else (pathpart, [])
  rstripSlash res.1 == q.path && res.2 == q.params

/-! ### Derived notions for the idempotence analysis

The following definitions are not translations of further source
functions; they are derived notions used to state and prove properties
of the embedding above. -/

/-- What one byte of a `quote_plus`-encoded string looks like to
`parse_qsl` after its `.replace("+", " ")` step. -/
def qpRestChar (b : ℕ) : List Char :=
  if b = 32 then [' ']
  else if isSafeByte b then [Char.ofNat b]
  else '%' :: toHexUpper2 b

/-- The `(key, value)` pairs a `parse_qs`-shaped dictionary stands for,
one per value, in dictionary order. -/
def flatPairs (pairs : List (List Char × List (List Char))) :
    List (List Char × List Char) :=
  pairs.flatMap (fun kv => kv.2.map (fun v => (kv.1, v)))

/-- One `key=value` field of `urlencode(..., doseq=True)`. -/
def qsField (kv : List Char × List Char) : List Char :=
  quote_plus_model kv.1 ++ '=' :: quote_plus_model kv.2

/-- Characters that survive the `\t\r\n` removal of `urlsplit`. -/
def goodCh (c : Char) : Bool := !(c == '\t' || c == '\r' || c == '\n')

/-- The fragment/query-splitting tail of `urlsplitModel`, factored out
for the reparse analysis. -/
def urlsplitFq (scheme netloc url3 : List Char) :
    Option (List Char × List Char × List Char × List Char × List Char) :=
  let fr := breakAtFirst '#' url3
  let url4 := if (fr.2).isSome then fr.1 else url3
  let fragment := (fr.2).getD []
  let qr := breakAtFirst '?' url4
  let path := if (qr.2).isSome then qr.1 else url4
  let query := (qr.2).getD []
  some (scheme, netloc, path, query, fragment)

/-- The netloc-splitting tail of `urlsplitModel`, applied after scheme
recognition. -/
def urlsplitRest (scheme url2 : List Char) :
    Option (List Char × List Char × List Char × List Char × List Char) :=
  let hasNetloc := (lstr "//").isPrefixOf url2
  let netloc := if hasNetloc then (url2.drop 2).takeWhile
    (fun c => !(isNetlocDelim c)) else []
  let url3 := if hasNetloc then (url2.drop 2).dropWhile
    (fun c => !(isNetlocDelim c)) else url2
  if netloc.contains '[' || netloc.contains ']'
      || !(netloc.all (fun c => c.toNat < 128)) then
    none
  else
    urlsplitFq scheme netloc url3

/-- `fpParamsStable` with the joined path/params string given
explicitly. -/
def fpStableOn (q : UrlParts) (ppv : List Char) : Bool :=
  let pathpart :=
    if q.netloc ≠ [] ∨ (q.scheme ≠ [] ∧ usesNetloc.contains q.scheme
        ∧ ¬ (lstr "//").isPrefixOf ppv) then
      (if ppv ≠ [] ∧ ¬ (['/'].isPrefixOf ppv) then '/' :: ppv else ppv)
    else ppv
  let res :=
    if usesParams.contains q.scheme && pathpart.contains ';' then
      splitParamsModel pathpart
    else (pathpart, [])
  rstripSlash res.1 == q.path && res.2 == q.params

/-! ## Theorems -/

set_option maxRecDepth 8000

/-- C8, counterexample to the claim as stated: in the source's binary64
arithmetic, `score_cluster(size=50, avg_sentiment=1.0, avg_quality=1.0,
trend_score=1.0)` is not exactly `1.0` — the double sum
`0.4 + 0.2 + 0.3 + 0.1` rounds up twice and returns
`1.0000000000000002`. -/
theorem score_cluster_exact_one_counterexample :
    score_cluster_f64 50 1 1 1 ≠ 1 := by decide

/-- C8: `score_cluster` evaluates the weighted sum
`0.4*min(size/50,1) + 0.2*((avg_sentiment+1)/2) + 0.3*avg_quality +
0.1*trend_score` left to right in IEEE-754 binary64 arithmetic.  At
`(50, 1.0, 1.0, 1.0)` the exact value of the formula is `1`, but the
rounded sum returns the double `1 + 2⁻⁵²` (printed `1.0000000000000002`),
strictly greater than `1`; at `(0, −1.0, 0.0, 0.0)` every intermediate is
exactly representable and the function returns exactly `0`, which is also
the formula's exact value there. -/
theorem score_cluster_float_sum :
    score_cluster_f64 50 1 1 1 = 1 + (2 ^ 52 : ℚ)⁻¹
    ∧ 1 < score_cluster_f64 50 1 1 1
    ∧ score_cluster_f64 0 (-1) 0 0 = 0
    ∧ score_cluster 50 1 1 1 = 1
    ∧ score_cluster 0 (-1) 0 0 = 0 := by
  have h1 : score_cluster_f64 50 1 1 1
      = mkRat 4503599627370497 4503599627370496 := by decide
  refine ⟨?_, by decide, by decide, by norm_num [score_cluster],
    by norm_num [score_cluster]⟩
  rw [h1, Rat.mkRat_eq_div]
  norm_num

/-- C9: once the module-level singleton exists, `get_cluster_engine`
returns it unchanged and ignores all keyword arguments; consequently the
engine produced after a first call with configuration `cfg₁` keeps
`cfg₁.min_cluster_size` whatever configuration a later call passes, and
the `cluster_ideas` convenience function likewise reuses the existing
engine untouched by its keyword arguments. -/
theorem get_cluster_engine_singleton :
    (∀ (e kwargs : ClusterEngine),
        get_cluster_engine (some e) kwargs = (e, some e))
    ∧ (∀ (cfg₁ cfg₂ : ClusterEngine),
        ((get_cluster_engine (get_cluster_engine none cfg₁).2 cfg₂).1).min_cluster_size
          = cfg₁.min_cluster_size)
    ∧ (∀ (e kwargs : ClusterEngine) (fit : List (List Char) → ClusterResult)
        (texts : List (List Char)),
        cluster_ideas_convenience (some e) kwargs fit texts
          = (cluster_ideas e fit texts, some e)) :=
  ⟨fun _ _ => rfl, fun _ _ => rfl, fun _ _ _ _ => rfl⟩

/-- C4: `cluster_ideas` signals an input error exactly on the empty text
list, and on a non-empty list shorter than `min_cluster_size` it returns —
without consulting the fitted model — the all-noise result: every label is
−1, `n_clusters = 0` and `n_noise = len(texts)`. -/
theorem cluster_ideas_degenerate (engine : ClusterEngine)
    (fit : List (List Char) → ClusterResult) (texts : List (List Char)) :
    ((∃ msg, cluster_ideas engine fit texts = .error msg) ↔ texts = [])
    ∧ (texts ≠ [] → texts.length < engine.min_cluster_size →
        cluster_ideas engine fit texts
          = .ok ⟨List.replicate texts.length (-1), [], none, 0,
                 texts.length⟩) := by
  constructor
  · constructor
    · rintro ⟨msg, hmsg⟩
      by_contra hne
      simp only [cluster_ideas, if_neg hne] at hmsg
      split at hmsg <;> exact Except.noConfusion hmsg
    · intro h
      subst h
      exact ⟨_, rfl⟩
  · intro hne hlt
    simp [cluster_ideas, hne, hlt, allNoiseResult]

/-- Witness for C4 at a concrete input: two texts with the default engine
(`min_cluster_size = 3`) yield the all-noise result, and the outcome does
not depend on the abstract fitted model. -/
theorem cluster_ideas_degenerate_witness :
    cluster_ideas {} (fun _ => allNoiseResult 7) [lstr "a", lstr "b"]
      = .ok ⟨[-1, -1], [], none, 0, 2⟩ :=
  (cluster_ideas_degenerate {} (fun _ => allNoiseResult 7)
      [lstr "a", lstr "b"]).2 (by decide) (by decide)

/-- An element of `clusterMembers ideas labels c` records a position whose
label is `c` and the idea at that position. -/
theorem clusterMembers_spec {ideas : List IdeaRow} {labels : List ℤ}
    {c : ℕ} {p : ℕ × IdeaRow} (h : p ∈ clusterMembers ideas labels c) :
    labels.get? p.1 = some (c : ℤ) ∧ ideas.get? p.1 = some p.2 := by
  rcases List.mem_map.1 h with ⟨q, hq, rfl⟩
  rcases List.mem_filter.1 hq with ⟨hmem, hcond⟩
  obtain ⟨hlt, hval⟩ := List.mem_enum hmem
  rw [List.length_zip, lt_min_iff] at hlt
  obtain ⟨hl1, hl2⟩ := hlt
  have hzl : q.1 < (labels.zip ideas).length := by
    rw [List.length_zip]; exact lt_min hl1 hl2
  have hz : (labels.zip ideas)[q.1] = (labels[q.1], ideas[q.1]) :=
    List.getElem_zip
  rw [hz] at hval
  have hlab : labels[q.1] = (c : ℤ) := by
    have : q.2.1 = (c : ℤ) := by exact_mod_cast of_decide_eq_true hcond
    rw [hval] at this
    exact this
  have hidea : ideas[q.1] = q.2.2 := by rw [hval]
  constructor
  · rw [List.get?_eq_getElem?, List.getElem?_eq_getElem hl1, hlab]
  · rw [List.get?_eq_getElem?, List.getElem?_eq_getElem hl2, hidea]

/-- Conversely, a position with label `c` yields a member of
`clusterMembers`. -/
theorem clusterMembers_mem_of {ideas : List IdeaRow} {labels : List ℤ}
    {c : ℕ} {i : ℕ} {x : IdeaRow}
    (hlab : labels.get? i = some (c : ℤ)) (hid : ideas.get? i = some x) :
    (i, x) ∈ clusterMembers ideas labels c := by
  rw [List.get?_eq_getElem?, List.getElem?_eq_some_iff] at hlab hid
  obtain ⟨hl1, hv1⟩ := hlab
  obtain ⟨hl2, hv2⟩ := hid
  have hzl : i < (labels.zip ideas).length := by
    rw [List.length_zip]; exact lt_min hl1 hl2
  have hel : i < (labels.zip ideas).enum.length := by
    rw [List.enum_length]; exact hzl
  have hz : (labels.zip ideas)[i] = (labels[i], ideas[i]) :=
    List.getElem_zip
  have henum : (labels.zip ideas).enum[i] = (i, (labels.zip ideas)[i]) :=
    List.getElem_enum _ _ hel
  have hmem : (i, (labels.zip ideas)[i]) ∈ (labels.zip ideas).enum := by
    rw [← henum]; exact List.getElem_mem hel
  rw [hz, hv1, hv2] at hmem
  apply List.mem_map.2
  refine ⟨(i, ((c : ℤ), x)), List.mem_filter.2 ⟨hmem, ?_⟩, rfl⟩
  simp

/-- The member indices of one cluster are pairwise distinct. -/
theorem clusterMembers_nodup_fst (ideas : List IdeaRow) (labels : List ℤ)
    (c : ℕ) : ((clusterMembers ideas labels c).map Prod.fst).Nodup := by
  have h1 : (clusterMembers ideas labels c).map Prod.fst
      = ((labels.zip ideas).enum.filter (fun p => p.2.1 == (c : ℤ))).map
          Prod.fst := by
    simp [clusterMembers, List.map_map]
  rw [h1]
  have hsub : (((labels.zip ideas).enum.filter
      (fun p => p.2.1 == (c : ℤ))).map Prod.fst).Sublist
      ((labels.zip ideas).enum.map Prod.fst) :=
    (List.filter_sublist _).map Prod.fst
  apply hsub.nodup
  rw [List.enum_map_fst]
  exact List.nodup_range _

theorem qualityDescLe_trans (a b c : ℕ × IdeaRow)
    (h1 : qualityDescLe a b = true) (h2 : qualityDescLe b c = true) :
    qualityDescLe a c = true := by
  simp only [qualityDescLe, decide_eq_true_eq] at *
  exact h2.trans h1

theorem qualityDescLe_total (a b : ℕ × IdeaRow) :
    (qualityDescLe a b || qualityDescLe b a) = true := by
  simp only [qualityDescLe, Bool.or_eq_true, decide_eq_true_eq]
  exact le_total _ _

/-- The stable sort permutes the member list. -/
theorem sortByQualityDesc_perm (l : List (ℕ × IdeaRow)) :
    (sortByQualityDesc l).Perm l :=
  List.mergeSort_perm l qualityDescLe

/-- Each membership row of cluster `c` points at cluster `c` and at a
position whose label is `c`. -/
theorem clusterMembershipRows_spec {ideas : List IdeaRow}
    {res : ClusterResult} {c : ℕ} {m : MembershipRow}
    (h : m ∈ clusterMembershipRows ideas res c) :
    m.cluster_index = c ∧ res.labels.get? m.idea_index = some (c : ℤ) := by
  rcases List.mem_map.1 h with ⟨q, hq, rfl⟩
  have hq2 : q.2 ∈ sortByQualityDesc (clusterMembers ideas res.labels c) := by
    have := List.enum_map_snd (sortByQualityDesc
      (clusterMembers ideas res.labels c))
    rw [← this]
    exact List.mem_map_of_mem Prod.snd hq
  have hmem : q.2 ∈ clusterMembers ideas res.labels c :=
    (sortByQualityDesc_perm _).subset hq2
  exact ⟨rfl, (clusterMembers_spec hmem).1⟩

/-- Within one cluster, an idea position occurs in at most one membership
row. -/
theorem clusterMembershipRows_countP_le_one (ideas : List IdeaRow)
    (res : ClusterResult) (c i : ℕ) :
    (clusterMembershipRows ideas res c).countP
      (fun m => m.idea_index == i) ≤ 1 := by
  unfold clusterMembershipRows membershipRowsOf
  rw [List.countP_map]
  have hcomp : ((fun m : MembershipRow => m.idea_index == i) ∘
      (fun p : ℕ × (ℕ × IdeaRow) =>
        ({ cluster_index := c
           idea_index := p.2.1
           idea_id := p.2.2.id
           similarity_score :=
             match res.probabilities with
             | some probs => probs.getD p.2.1 0
             | none => 0.9
           is_representative := decide (p.1 < 5) } : MembershipRow)))
      = (fun p : ℕ × (ℕ × IdeaRow) => p.2.1 == i) := rfl
  rw [hcomp]
  have h2 : (fun p : ℕ × (ℕ × IdeaRow) => p.2.1 == i)
      = ((fun q : ℕ × IdeaRow => q.1 == i) ∘ Prod.snd) := rfl
  rw [h2, ← List.countP_map, List.enum_map_snd]
  have h3 : (fun q : ℕ × IdeaRow => q.1 == i)
      = ((fun j : ℕ => j == i) ∘ Prod.fst) := rfl
  rw [h3, ← List.countP_map, ← List.count_eq_countP]
  have hnd : ((sortByQualityDesc
      (clusterMembers ideas res.labels c)).map Prod.fst).Nodup := by
    have hperm : ((sortByQualityDesc
        (clusterMembers ideas res.labels c)).map Prod.fst).Perm
        ((clusterMembers ideas res.labels c).map Prod.fst) :=
      (sortByQualityDesc_perm _).map Prod.fst
    exact hperm.symm.nodup (clusterMembers_nodup_fst _ _ _)
  exact List.nodup_iff_count_le_one.1 hnd i

/-- Arithmetic helper: the sum of a list of naturals is at most one when
each term is at most one and at most one term is non-zero. -/
theorem sum_map_le_one {g : ℕ → ℕ} : ∀ {L : List ℕ}, L.Nodup →
    (∀ c ∈ L, g c ≤ 1) →
    (∀ c ∈ L, ∀ c' ∈ L, g c ≠ 0 → g c' ≠ 0 → c = c') →
    (L.map g).sum ≤ 1 := by
  intro L
  induction L with
  | nil => intro _ _ _; simp
  | cons c L ih =>
    intro hnd hle huni
    simp only [List.map_cons, List.sum_cons]
    by_cases hc : g c = 0
    · rw [hc, zero_add]
      exact ih (List.Nodup.of_cons hnd)
        (fun c' h' => hle c' (List.mem_cons_of_mem _ h'))
        (fun a ha b hb => huni a (List.mem_cons_of_mem _ ha)
          b (List.mem_cons_of_mem _ hb))
    · have hrest : (L.map g).sum = 0 := by
        apply List.sum_eq_zero
        intro x hx
        rcases List.mem_map.1 hx with ⟨c', hc', rfl⟩
        by_contra hne
        have hcc : c = c' := huni c (List.mem_cons_self _ _)
          c' (List.mem_cons_of_mem _ hc') hc hne
        rw [List.nodup_cons] at hnd
        exact hnd.1 (hcc ▸ hc')
      rw [hrest, add_zero]
      exact hle c (List.mem_cons_self _ _)

/-- Filtering an enumeration by rank below `n` keeps exactly the first
`n - k` entries. -/
theorem enumFrom_filter_rank_lt {α : Type} (n : ℕ) :
    ∀ (l : List α) (k : ℕ),
      (List.enumFrom k l).filter (fun p => decide (p.1 < n))
        = List.enumFrom k (l.take (n - k)) := by
  intro l
  induction l with
  | nil => intro k; simp
  | cons a l ih =>
    intro k
    by_cases hk : k < n
    · have htake : n - k = (n - (k + 1)) + 1 := by omega
      rw [htake]
      simp only [List.enumFrom, List.take, List.filter, decide_eq_true hk]
      rw [ih (k + 1)]
    · have htake : n - k = 0 := by omega
      rw [htake]
      simp only [List.enumFrom, List.take, List.filter]
      rw [decide_eq_false hk]
      simp only [List.enumFrom]
      rw [ih (k + 1)]
      have h0 : n - (k + 1) = 0 := by omega
      simp [h0]

/-- C2: in a single clustering run the created `ClusterMembership` rows
form a partial function from the fetched ideas into the created clusters:
each fetched idea occurs in at most one membership row, a noise idea
(label −1) occurs in none, every membership row points at one of the
clusters of the run, and — since HDBSCAN's non-noise labels are exactly
`0 .. n_clusters−1`, carried here as the hypothesis `hcover` — the number
of `Cluster` rows created equals `n_clusters`. -/
theorem run_clustering_membership_partition (ideas : List IdeaRow)
    (res : ClusterResult)
    (hlen : res.labels.length = ideas.length)
    (hcover : ∀ c : ℕ, c < res.n_clusters → (c : ℤ) ∈ res.labels) :
    (∀ i : ℕ, (run_clustering_memberships ideas res).countP
        (fun m => m.idea_index == i) ≤ 1)
    ∧ (∀ i : ℕ, res.labels.get? i = some (-1) →
        ∀ m ∈ run_clustering_memberships ideas res, m.idea_index ≠ i)
    ∧ (∀ m ∈ run_clustering_memberships ideas res,
        m.cluster_index < res.n_clusters)
    ∧ run_clustering_clusters_created ideas res = res.n_clusters := by
  have hblock : ∀ (c : ℕ) (m : MembershipRow),
      m ∈ (if clusterMembers ideas res.labels c = [] then []
           else clusterMembershipRows ideas res c) →
      m.cluster_index = c ∧ res.labels.get? m.idea_index = some (c : ℤ) := by
    intro c m hm
    split at hm
    · exact absurd hm (List.not_mem_nil m)
    · exact clusterMembershipRows_spec hm
  have hmem : ∀ m ∈ run_clustering_memberships ideas res,
      ∃ c, c < res.n_clusters ∧ m.cluster_index = c
        ∧ res.labels.get? m.idea_index = some (c : ℤ) := by
    intro m hm
    rcases List.mem_flatMap.1 hm with ⟨c, hc, hmc⟩
    exact ⟨c, List.mem_range.1 hc, hblock c m hmc⟩
  refine ⟨?_, ?_, ?_, ?_⟩
  · intro i
    unfold run_clustering_memberships
    rw [List.countP_flatMap]
    apply sum_map_le_one (List.nodup_range _)
    · intro c _
      simp only [Function.comp]
      split
      · simp
      · exact clusterMembershipRows_countP_le_one ideas res c i
    · intro c hc c' hc' hne hne'
      have hx : ∃ m ∈ (if clusterMembers ideas res.labels c = [] then []
          else clusterMembershipRows ideas res c),
          (fun m : MembershipRow => m.idea_index == i) m = true := by
        by_contra hcon
        push_neg at hcon
        exact hne (List.countP_eq_zero.2 hcon)
      have hx' : ∃ m ∈ (if clusterMembers ideas res.labels c' = [] then []
          else clusterMembershipRows ideas res c'),
          (fun m : MembershipRow => m.idea_index == i) m = true := by
        by_contra hcon
        push_neg at hcon
        exact hne' (List.countP_eq_zero.2 hcon)
      rcases hx with ⟨m, hm, hmi⟩
      rcases hx' with ⟨m', hm', hmi'⟩
      have h1 := (hblock c m hm).2
      have h2 := (hblock c' m' hm').2
      have hii : m.idea_index = i := by simpa using hmi
      have hii' : m'.idea_index = i := by simpa using hmi'
      rw [hii] at h1
      rw [hii'] at h2
      rw [h1] at h2
      exact_mod_cast (Option.some.inj h2)
  · intro i hnoise m hm hmi
    rcases hmem m hm with ⟨c, _, _, hlab⟩
    rw [hmi, hnoise] at hlab
    have : ((-1 : ℤ)) = (c : ℤ) := Option.some.inj hlab
    omega
  · intro m hm
    rcases hmem m hm with ⟨c, hc, hci, _⟩
    rw [hci]
    exact hc
  · unfold run_clustering_clusters_created
    have hall : ∀ c ∈ List.range res.n_clusters,
        decide (clusterMembers ideas res.labels c ≠ []) = true := by
      intro c hc
      rcases List.mem_iff_get?.1 (hcover c (List.mem_range.1 hc)) with ⟨i, hi⟩
      have hlt : i < res.labels.length := by
        rcases List.get?_eq_some.1 hi with ⟨h, _⟩
        exact h
      have hlt2 : i < ideas.length := hlen ▸ hlt
      have hidea : ideas.get? i = some (ideas.get ⟨i, hlt2⟩) :=
        List.get?_eq_get hlt2
      have hm := clusterMembers_mem_of hi hidea
      exact decide_eq_true (List.ne_nil_of_mem hm)
    rw [List.filter_eq_self.2 hall, List.length_range]

/-- Witness for C2: two clusters over four ideas (one noise), checking the
hypotheses and the partial-function conclusion concretely. -/
theorem run_clustering_membership_partition_witness :
    run_clustering_clusters_created
      [⟨1, 0, 1, 0⟩, ⟨2, 0, 3/4, 0⟩, ⟨3, 0, 1/2, 0⟩, ⟨4, 0, 1/4, 0⟩]
      ⟨[0, 1, 0, -1], [], none, 2, 1⟩ = 2 :=
  (run_clustering_membership_partition
    [⟨1, 0, 1, 0⟩, ⟨2, 0, 3/4, 0⟩, ⟨3, 0, 1/2, 0⟩, ⟨4, 0, 1/4, 0⟩]
    ⟨[0, 1, 0, -1], [], none, 2, 1⟩ (by decide)
    (by decide)).2.2.2

/-- C3: for every cluster of a run, the membership rows flagged
`is_representative` are exactly those of the first 5 members (all members
when there are fewer) of the member list sorted by quality score
descending — so at most 5 rows per cluster carry the flag; moreover that
sorted list is a permutation of the members, is ordered by descending
quality score, and is stable: members of equal quality score stay in
original fetch order. -/
theorem representative_selection (ideas : List IdeaRow)
    (res : ClusterResult) (c : ℕ) :
    ((clusterMembershipRows ideas res c).filter
        (fun m => m.is_representative)).map (fun m => m.idea_index)
      = ((sortByQualityDesc (clusterMembers ideas res.labels c)).take 5).map
          Prod.fst
    ∧ ((clusterMembershipRows ideas res c).filter
        (fun m => m.is_representative)).length ≤ 5
    ∧ (sortByQualityDesc (clusterMembers ideas res.labels c)).Perm
        (clusterMembers ideas res.labels c)
    ∧ List.Pairwise (fun a b : ℕ × IdeaRow =>
        b.2.quality_score ≤ a.2.quality_score)
        (sortByQualityDesc (clusterMembers ideas res.labels c))
    ∧ ∀ q : ℚ,
        (sortByQualityDesc (clusterMembers ideas res.labels c)).filter
            (fun p => p.2.quality_score == q)
          = (clusterMembers ideas res.labels c).filter
              (fun p => p.2.quality_score == q) := by
  have hfilter : (clusterMembershipRows ideas res c).filter
      (fun m => m.is_representative)
      = (((sortByQualityDesc (clusterMembers ideas res.labels c)).take
          5).enum).map (fun p =>
        ({ cluster_index := c
           idea_index := p.2.1
           idea_id := p.2.2.id
           similarity_score :=
             match res.probabilities with
             | some probs => probs.getD p.2.1 0
             | none => 0.9
           is_representative := decide (p.1 < 5) } : MembershipRow)) := by
    unfold clusterMembershipRows membershipRowsOf
    rw [List.filter_map]
    have hcomp : ((fun m : MembershipRow => m.is_representative) ∘
        (fun p : ℕ × (ℕ × IdeaRow) =>
          ({ cluster_index := c
             idea_index := p.2.1
             idea_id := p.2.2.id
             similarity_score :=
               match res.probabilities with
               | some probs => probs.getD p.2.1 0
               | none => 0.9
             is_representative := decide (p.1 < 5) } : MembershipRow)))
        = (fun p : ℕ × (ℕ × IdeaRow) => decide (p.1 < 5)) := rfl
    rw [hcomp, List.enum_eq_enumFrom, List.enum_eq_enumFrom,
      enumFrom_filter_rank_lt]
  refine ⟨?_, ?_, sortByQualityDesc_perm _, ?_, ?_⟩
  · rw [hfilter, List.map_map]
    have h1 : ((fun m : MembershipRow => m.idea_index) ∘
        (fun p : ℕ × (ℕ × IdeaRow) =>
          ({ cluster_index := c
             idea_index := p.2.1
             idea_id := p.2.2.id
             similarity_score :=
               match res.probabilities with
               | some probs => probs.getD p.2.1 0
               | none => 0.9
             is_representative := decide (p.1 < 5) } : MembershipRow)))
        = ((fun q : ℕ × IdeaRow => q.1) ∘ Prod.snd) := rfl
    rw [h1, ← List.map_map, List.enum_map_snd]
  · rw [hfilter, List.length_map, List.enum_length]
    exact List.length_take_le _ _
  · have hs := List.sorted_mergeSort qualityDescLe_trans qualityDescLe_total
      (clusterMembers ideas res.labels c)
    exact hs.imp (fun h => of_decide_eq_true h)
  · intro q
    have hall : ∀ x ∈ (clusterMembers ideas res.labels c).filter
        (fun p => p.2.quality_score == q), x.2.quality_score = q := by
      intro x hx
      have := (List.mem_filter.1 hx).2
      exact eq_of_beq this
    have hpw : ((clusterMembers ideas res.labels c).filter
        (fun p => p.2.quality_score == q)).Pairwise
        (fun a b => qualityDescLe a b = true) := by
      apply List.pairwise_of_forall_mem_list
      intro a ha b hb
      simp only [qualityDescLe, decide_eq_true_eq]
      rw [hall a ha, hall b hb]
    have hsub := List.sublist_mergeSort qualityDescLe_trans
      qualityDescLe_total hpw
      (List.filter_sublist (clusterMembers ideas res.labels c))
    have h2 : (((clusterMembers ideas res.labels c).filter
          (fun p => p.2.quality_score == q)).filter
          (fun p => p.2.quality_score == q)).Sublist
        ((sortByQualityDesc (clusterMembers ideas res.labels c)).filter
          (fun p => p.2.quality_score == q)) :=
      hsub.filter _
    rw [List.filter_filter] at h2
    simp only [Bool.and_self] at h2
    have hlen : ((sortByQualityDesc
        (clusterMembers ideas res.labels c)).filter
          (fun p => p.2.quality_score == q)).length
        = ((clusterMembers ideas res.labels c).filter
            (fun p => p.2.quality_score == q)).length :=
      ((sortByQualityDesc_perm _).filter _).length_eq
    exact (h2.eq_of_length hlen.symm).symm

/-- Any value `_score_clarity` returns lies in `[0, 1]`. -/
theorem score_clarity_bounds {text : List Char} {cl : ℚ}
    (h : score_clarity text = some cl) : 0 ≤ cl ∧ cl ≤ 1 := by
  cases text with
  | nil => simp [score_clarity] at h
  | cons c0 rest =>
    simp only [score_clarity] at h
    injection h with h
    subst h
    exact ⟨le_max_left 0 _, max_le (by norm_num) (min_le_right _ _)⟩

/-- `_score_specificity` lies in `[0, 1]`. -/
theorem score_specificity_bounds (text : List Char) :
    0 ≤ score_specificity text ∧ score_specificity text ≤ 1 := by
  simp only [score_specificity]
  refine ⟨le_min ?_ (by norm_num), min_le_right _ _⟩
  split_ifs <;> norm_num

/-- `_score_actionability` lies in `[0, 1]`. -/
theorem score_actionability_bounds (text : List Char) :
    0 ≤ score_actionability text ∧ score_actionability text ≤ 1 := by
  simp only [score_actionability]
  exact ⟨le_max_left 0 _, max_le (by norm_num) (min_le_right _ _)⟩

/-- Rounding to two decimals keeps values of `[0, 1]` inside `[0, 1]`. -/
theorem pyRound2_mem_unit {x : ℚ} (h0 : 0 ≤ x) (h1 : x ≤ 1) :
    0 ≤ pyRound2 x ∧ pyRound2 x ≤ 1 := by
  have hy0 : (0 : ℚ) ≤ x * 100 := by positivity
  have hy1 : x * 100 ≤ 100 := by linarith
  simp only [pyRound2, roundHalfEven]
  have hf0 : (0 : ℤ) ≤ Rat.floor (x * 100) := Rat.le_floor.mpr (by
    exact_mod_cast hy0)
  have hfle : ((Rat.floor (x * 100) : ℤ) : ℚ) ≤ x * 100 :=
    Rat.le_floor.mp le_rfl
  have hf100 : Rat.floor (x * 100) ≤ 100 := by
    by_contra hcon
    push_neg at hcon
    have : (101 : ℚ) ≤ ((Rat.floor (x * 100) : ℤ) : ℚ) := by
      exact_mod_cast hcon
    linarith
  have hf99 : ¬(x * 100 - (Rat.floor (x * 100) : ℚ) < 1/2) →
      Rat.floor (x * 100) + 1 ≤ 100 := by
    intro hr
    push_neg at hr
    by_contra hcon
    push_neg at hcon
    have h100 : (100 : ℤ) ≤ Rat.floor (x * 100) := by omega
    have : (100 : ℚ) ≤ ((Rat.floor (x * 100) : ℤ) : ℚ) := by
      exact_mod_cast h100
    linarith
  split_ifs with hr1 hr2 hpar
  · constructor
    · apply div_nonneg _ (by norm_num)
      exact_mod_cast hf0
    · rw [div_le_one (by norm_num)]
      exact_mod_cast hf100
  · constructor
    · apply div_nonneg _ (by norm_num)
      have : (0 : ℤ) ≤ Rat.floor (x * 100) + 1 := by omega
      exact_mod_cast this
    · rw [div_le_one (by norm_num)]
      exact_mod_cast hf99 hr1
  · constructor
    · apply div_nonneg _ (by norm_num)
      exact_mod_cast hf0
    · rw [div_le_one (by norm_num)]
      exact_mod_cast hf100
  · constructor
    · apply div_nonneg _ (by norm_num)
      have : (0 : ℤ) ≤ Rat.floor (x * 100) + 1 := by omega
      exact_mod_cast this
    · rw [div_le_one (by norm_num)]
      exact_mod_cast hf99 hr1

/-- C1 counterexample: on the empty string, `calculate_quality_score`
does not return a value — `_score_clarity` evaluates `text[0]` and raises
`IndexError`, so the claim's "total on the empty string" fails. -/
theorem calculate_quality_score_empty_raises :
    calculate_quality_score [] = none := rfl

/-- C1 (amended): on every *non-empty* string, `calculate_quality_score`
returns a value in `[0, 1]`, equal to the weighted sum of the three
sub-scores (specificity 0.4, actionability 0.3, clarity 0.3), each
sub-score in `[0, 1]`, rounded to two decimals. -/
theorem calculate_quality_score_bounds :
    ∀ text : List Char, text ≠ [] →
      ∃ cl q : ℚ,
        score_clarity text = some cl
        ∧ calculate_quality_score text = some q
        ∧ q = pyRound2 (0.4 * score_specificity text
            + 0.3 * score_actionability text + 0.3 * cl)
        ∧ 0 ≤ score_specificity text ∧ score_specificity text ≤ 1
        ∧ 0 ≤ score_actionability text ∧ score_actionability text ≤ 1
        ∧ 0 ≤ cl ∧ cl ≤ 1
        ∧ 0 ≤ q ∧ q ≤ 1 := by
  intro text hne
  obtain ⟨c0, rest, rfl⟩ := List.exists_cons_of_ne_nil hne
  cases hcl : score_clarity (c0 :: rest) with
  | none => simp [score_clarity] at hcl
  | some cl =>
    have hq : calculate_quality_score (c0 :: rest)
        = some (pyRound2 (score_specificity (c0 :: rest) * 0.4
          + score_actionability (c0 :: rest) * 0.3 + cl * 0.3)) := by
      simp [calculate_quality_score, hcl]
    have hform : pyRound2 (score_specificity (c0 :: rest) * 0.4
          + score_actionability (c0 :: rest) * 0.3 + cl * 0.3)
        = pyRound2 (0.4 * score_specificity (c0 :: rest)
          + 0.3 * score_actionability (c0 :: rest) + 0.3 * cl) := by
      ring_nf
    obtain ⟨hs0, hs1⟩ := score_specificity_bounds (c0 :: rest)
    obtain ⟨ha0, ha1⟩ := score_actionability_bounds (c0 :: rest)
    obtain ⟨hc0, hc1⟩ := score_clarity_bounds hcl
    have hsum0 : (0 : ℚ) ≤ score_specificity (c0 :: rest) * 0.4
        + score_actionability (c0 :: rest) * 0.3 + cl * 0.3 := by
      nlinarith
    have hsum1 : score_specificity (c0 :: rest) * 0.4
        + score_actionability (c0 :: rest) * 0.3 + cl * 0.3 ≤ 1 := by
      nlinarith
    obtain ⟨hq0, hq1⟩ := pyRound2_mem_unit hsum0 hsum1
    exact ⟨cl, pyRound2 (score_specificity (c0 :: rest) * 0.4
        + score_actionability (c0 :: rest) * 0.3 + cl * 0.3),
      rfl, hq, hform, hs0, hs1, ha0, ha1, hc0, hc1, hq0, hq1⟩

/-- Witness for C1 (amended) at the concrete statement
`"Track my plants with AI"`. -/
theorem calculate_quality_score_bounds_witness :
    lstr "Track my plants with AI" ≠ [] ∧
    ∃ cl q : ℚ,
      score_clarity (lstr "Track my plants with AI") = some cl
      ∧ calculate_quality_score (lstr "Track my plants with AI") = some q
      ∧ q = pyRound2 (0.4 * score_specificity (lstr "Track my plants with AI")
          + 0.3 * score_actionability (lstr "Track my plants with AI")
          + 0.3 * cl)
      ∧ 0 ≤ score_specificity (lstr "Track my plants with AI")
      ∧ score_specificity (lstr "Track my plants with AI") ≤ 1
      ∧ 0 ≤ score_actionability (lstr "Track my plants with AI")
      ∧ score_actionability (lstr "Track my plants with AI") ≤ 1
      ∧ 0 ≤ cl ∧ cl ≤ 1
      ∧ 0 ≤ q ∧ q ≤ 1 :=
  ⟨by decide, calculate_quality_score_bounds _ (by decide)⟩

set_option maxRecDepth 4000

/-- C5 (code bug): in `extract_need_statements` the match offsets are
relative to the *sentence* being scanned (`re.finditer(pattern,
sentence)`), yet `_extract_context(text, match.start(), match.end(), ...)`
applies them to the *full document*.  On `c5doc` the only match spans
offsets 0–46 of the second sentence, which sits at document offsets
132–178; the code therefore attaches the document's first 146 characters —
a window that does not even contain the matched statement — instead of the
±100-character window around the match required by the claim. -/
theorem extract_context_offsets_bug :
    split_sentences c5doc
      = [List.replicate 130 'x',
         lstr "I wish there was an app for tracking my plants"]
    ∧ (c5doc.drop 132).take 46
      = lstr "I wish there was an app for tracking my plants"
    ∧ extract_context c5doc 0 46 100 ≠ specContext c5doc 132 178 100
    ∧ containsSub (lstr "tracking my plants")
        (extract_context c5doc 0 46 100) = false := by
  refine ⟨by decide, by decide, by decide, by decide⟩

/-- C6 (code bug): the per-document loop of `extract_need_statements`
tests the lower-cased *raw* span against `seen` but stores the lower-cased
*cleaned* statement, and applies the minimum-length test before cleaning.
On the document `"We need calendar app thing. I need the calendar app
thing."` the two raw captures (`"calendar app thing"`,
`"the calendar app thing"`) both survive and both clean to the same
statement, so the same statement is returned twice; and the capture
`"the scanner"` (11 characters) cleans to `"scanner"` (7 characters),
which is returned although it is shorter than 10 characters. -/
theorem extract_need_statements_dedup_bug :
    split_sentences
        (lstr "We need calendar app thing. I need the calendar app thing.")
      = [lstr "We need calendar app thing",
         lstr "I need the calendar app thing"]
    ∧ process_captures
        [lstr "calendar app thing", lstr "the calendar app thing"]
      = [lstr "calendar app thing", lstr "calendar app thing"]
    ∧ process_captures [lstr "the scanner"] = [lstr "scanner"]
    ∧ (lstr "scanner").length < 10 := by
  refine ⟨by decide, by decide, by decide, by decide⟩

theorem cmpChar_eq_iff (a b : Char) : cmpChar a b = .eq ↔ a = b := by
  unfold cmpChar
  split_ifs with h1 h2
  · simp only [reduceCtorEq, false_iff]
    exact fun he => absurd (he ▸ h1) (lt_irrefl b)
  · simp only [reduceCtorEq, false_iff]
    exact fun he => absurd (he ▸ h2) (lt_irrefl b)
  · simp only [true_iff]
    exact le_antisymm (not_lt.1 h2) (not_lt.1 h1)

theorem cmpChar_swap (a b : Char) : (cmpChar a b).swap = cmpChar b a := by
  unfold cmpChar
  rcases lt_trichotomy a b with h | h | h
  · rw [if_pos h, if_neg (not_lt.2 h.le), if_pos h]
    rfl
  · subst h
    rw [if_neg (lt_irrefl a), if_neg (lt_irrefl a)]
    rfl
  · rw [if_neg (not_lt.2 h.le), if_pos h, if_pos h]
    rfl

theorem cmpChar_lt (a b : Char) (h : cmpChar a b = .lt) : a < b := by
  unfold cmpChar at h
  split_ifs at h with h1 h2
  exact h1

theorem cmpChar_lt_trans (a b c : Char) (h1 : cmpChar a b = .lt)
    (h2 : cmpChar b c = .lt) : cmpChar a c = .lt := by
  have := (cmpChar_lt a b h1).trans (cmpChar_lt b c h2)
  unfold cmpChar
  rw [if_pos this]

theorem cmpLex_eq_iff {α : Type} {cmp : α → α → Ordering}
    (hcmp : ∀ a b, cmp a b = .eq ↔ a = b) :
    ∀ l₁ l₂ : List α, cmpLex cmp l₁ l₂ = .eq ↔ l₁ = l₂ := by
  intro l₁
  induction l₁ with
  | nil =>
    intro l₂
    cases l₂ <;> simp [cmpLex]
  | cons a as ih =>
    intro l₂
    cases l₂ with
    | nil => simp [cmpLex]
    | cons b bs =>
      simp only [cmpLex]
      cases hab : cmp a b with
      | lt =>
        simp only [reduceCtorEq, false_iff]
        intro he
        rw [List.cons.injEq] at he
        rw [(hcmp a b).2 he.1] at hab
        exact Ordering.noConfusion hab
      | gt =>
        simp only [reduceCtorEq, false_iff]
        intro he
        rw [List.cons.injEq] at he
        rw [(hcmp a b).2 he.1] at hab
        exact Ordering.noConfusion hab
      | eq =>
        rw [ih bs, List.cons.injEq]
        have := (hcmp a b).1 hab
        simp [this]

theorem cmpLex_swap {α : Type} {cmp : α → α → Ordering}
    (hswap : ∀ a b, (cmp a b).swap = cmp b a) :
    ∀ l₁ l₂ : List α, (cmpLex cmp l₁ l₂).swap = cmpLex cmp l₂ l₁ := by
  intro l₁
  induction l₁ with
  | nil =>
    intro l₂
    cases l₂ <;> rfl
  | cons a as ih =>
    intro l₂
    cases l₂ with
    | nil => rfl
    | cons b bs =>
      simp only [cmpLex]
      cases hab : cmp a b with
      | lt =>
        rw [← hswap a b, hab]
        rfl
      | gt =>
        rw [← hswap a b, hab]
        rfl
      | eq =>
        rw [← hswap a b, hab]
        exact ih bs

theorem cmpLex_lt_trans {α : Type} {cmp : α → α → Ordering}
    (hcmp : ∀ a b, cmp a b = .eq ↔ a = b)
    (htrans : ∀ a b c, cmp a b = .lt → cmp b c = .lt → cmp a c = .lt) :
    ∀ l₁ l₂ l₃ : List α, cmpLex cmp l₁ l₂ = .lt → cmpLex cmp l₂ l₃ = .lt →
      cmpLex cmp l₁ l₃ = .lt := by
  intro l₁
  induction l₁ with
  | nil =>
    intro l₂ l₃ h12 h23
    cases l₂ with
    | nil => exact h23
    | cons b bs =>
      cases l₃ with
      | nil => exact absurd h23 (by simp [cmpLex])
      | cons c cs => rfl
  | cons a as ih =>
    intro l₂ l₃ h12 h23
    cases l₂ with
    | nil => exact absurd h12 (by simp [cmpLex])
    | cons b bs =>
      cases l₃ with
      | nil => exact absurd h23 (by simp [cmpLex])
      | cons c cs =>
        simp only [cmpLex] at h12 h23 ⊢
        cases hab : cmp a b with
        | gt => rw [hab] at h12; exact absurd h12 (by simp)
        | lt =>
          rw [hab] at h12
          cases hbc : cmp b c with
          | gt => rw [hbc] at h23; exact absurd h23 (by simp)
          | lt => rw [htrans a b c hab hbc]
          | eq =>
            have := (hcmp b c).1 hbc
            subst this
            rw [hab]
        | eq =>
          have := (hcmp a b).1 hab
          subst this
          cases hbc : cmp a c with
          | gt => rw [hbc] at h23; exact absurd h23 (by simp)
          | lt => rfl
          | eq =>
            rw [hab] at h12
            rw [hbc] at h23
            exact ih bs cs h12 h23

theorem cmpStr_eq_iff : ∀ l₁ l₂ : List Char, cmpStr l₁ l₂ = .eq ↔ l₁ = l₂ :=
  cmpLex_eq_iff cmpChar_eq_iff

theorem cmpStr_swap : ∀ l₁ l₂ : List Char,
    (cmpStr l₁ l₂).swap = cmpStr l₂ l₁ :=
  cmpLex_swap cmpChar_swap

theorem cmpStr_lt_trans : ∀ l₁ l₂ l₃ : List Char, cmpStr l₁ l₂ = .lt →
    cmpStr l₂ l₃ = .lt → cmpStr l₁ l₃ = .lt :=
  cmpLex_lt_trans cmpChar_eq_iff cmpChar_lt_trans

theorem cmpVals_eq_iff : ∀ l₁ l₂ : List (List Char),
    cmpLex cmpStr l₁ l₂ = .eq ↔ l₁ = l₂ :=
  cmpLex_eq_iff cmpStr_eq_iff

theorem cmpVals_swap : ∀ l₁ l₂ : List (List Char),
    (cmpLex cmpStr l₁ l₂).swap = cmpLex cmpStr l₂ l₁ :=
  cmpLex_swap cmpStr_swap

theorem cmpVals_lt_trans : ∀ l₁ l₂ l₃ : List (List Char),
    cmpLex cmpStr l₁ l₂ = .lt → cmpLex cmpStr l₂ l₃ = .lt →
      cmpLex cmpStr l₁ l₃ = .lt :=
  cmpLex_lt_trans cmpStr_eq_iff cmpStr_lt_trans

theorem cmpPair_eq_iff (a b : List Char × List (List Char)) :
    cmpPair a b = .eq ↔ a = b := by
  unfold cmpPair
  cases hk : cmpStr a.1 b.1 with
  | lt =>
    simp only [reduceCtorEq, false_iff]
    intro he
    rw [(cmpStr_eq_iff a.1 b.1).2 (congrArg Prod.fst he)] at hk
    exact Ordering.noConfusion hk
  | gt =>
    simp only [reduceCtorEq, false_iff]
    intro he
    rw [(cmpStr_eq_iff a.1 b.1).2 (congrArg Prod.fst he)] at hk
    exact Ordering.noConfusion hk
  | eq =>
    rw [cmpVals_eq_iff]
    have h1 := (cmpStr_eq_iff a.1 b.1).1 hk
    constructor
    · intro h2
      exact Prod.ext h1 h2
    · intro he
      exact congrArg Prod.snd he

theorem cmpPair_swap (a b : List Char × List (List Char)) :
    (cmpPair a b).swap = cmpPair b a := by
  unfold cmpPair
  cases hk : cmpStr a.1 b.1 with
  | lt =>
    rw [← cmpStr_swap a.1 b.1, hk]
    rfl
  | gt =>
    rw [← cmpStr_swap a.1 b.1, hk]
    rfl
  | eq =>
    have h1 := (cmpStr_eq_iff a.1 b.1).1 hk
    have hk2 : cmpStr b.1 a.1 = .eq := (cmpStr_eq_iff b.1 a.1).2 h1.symm
    rw [hk2]
    exact cmpVals_swap a.2 b.2

theorem cmpPair_lt_trans (a b c : List Char × List (List Char))
    (h1 : cmpPair a b = .lt) (h2 : cmpPair b c = .lt) :
    cmpPair a c = .lt := by
  unfold cmpPair at *
  cases hab : cmpStr a.1 b.1 with
  | gt => rw [hab] at h1; exact absurd h1 (by simp)
  | lt =>
    cases hbc : cmpStr b.1 c.1 with
    | gt => rw [hbc] at h2; exact absurd h2 (by simp)
    | lt => rw [cmpStr_lt_trans a.1 b.1 c.1 hab hbc]
    | eq =>
      have := (cmpStr_eq_iff b.1 c.1).1 hbc
      rw [← this, hab]
  | eq =>
    have hk := (cmpStr_eq_iff a.1 b.1).1 hab
    rw [hab] at h1
    cases hbc : cmpStr b.1 c.1 with
    | gt => rw [hbc] at h2; exact absurd h2 (by simp)
    | lt => rw [hk, hbc]
    | eq =>
      rw [hbc] at h2
      rw [hk, hbc]
      exact cmpVals_lt_trans a.2 b.2 c.2 h1 h2

theorem pairLe_total (a b : List Char × List (List Char)) :
    (pairLe a b || pairLe b a) = true := by
  cases hab : cmpPair a b with
  | lt => simp [pairLe, hab]
  | eq => simp [pairLe, hab]
  | gt =>
    have hba : cmpPair b a = .lt := by
      rw [← cmpPair_swap a b, hab]
      rfl
    simp [pairLe, hab, hba]

theorem pairLe_trans (a b c : List Char × List (List Char))
    (h1 : pairLe a b = true) (h2 : pairLe b c = true) :
    pairLe a c = true := by
  unfold pairLe at *
  cases hab : cmpPair a b with
  | gt => rw [hab] at h1; exact absurd h1 (by simp)
  | eq =>
    have := (cmpPair_eq_iff a b).1 hab
    subst this
    exact h2
  | lt =>
    cases hbc : cmpPair b c with
    | gt => rw [hbc] at h2; exact absurd h2 (by simp)
    | eq =>
      have := (cmpPair_eq_iff b c).1 hbc
      subst this
      rw [hab]
    | lt => rw [cmpPair_lt_trans a b c hab hbc]

theorem pairLe_antisymm (a b : List Char × List (List Char))
    (h1 : pairLe a b = true) (h2 : pairLe b a = true) : a = b := by
  unfold pairLe at *
  cases hab : cmpPair a b with
  | eq => exact (cmpPair_eq_iff a b).1 hab
  | gt => rw [hab] at h1; exact absurd h1 (by simp)
  | lt =>
    have hba : cmpPair b a = .gt := by
      rw [← cmpPair_swap a b, hab]
      rfl
    rw [hba] at h2
    simp at h2

/-- Two permuted parameter dictionaries sort identically (Python's
`sorted` output is determined by the multiset of tuples). -/
theorem sortPairs_eq_of_perm {l₁ l₂ : List (List Char × List (List Char))}
    (h : l₁.Perm l₂) : sortPairs l₁ = sortPairs l₂ := by
  haveI : IsTotal (List Char × List (List Char))
      (fun a b => pairLe a b = true) := ⟨by
    intro a b
    have := pairLe_total a b
    rcases Bool.or_eq_true_iff.1 this with h1 | h1
    · exact Or.inl h1
    · exact Or.inr h1⟩
  haveI : IsTrans (List Char × List (List Char))
      (fun a b => pairLe a b = true) := ⟨pairLe_trans⟩
  haveI : IsAntisymm (List Char × List (List Char))
      (fun a b => pairLe a b = true) := ⟨pairLe_antisymm⟩
  have hs₁ := List.sorted_insertionSort (fun a b => pairLe a b = true) l₁
  have hs₂ := List.sorted_insertionSort (fun a b => pairLe a b = true) l₂
  have hperm : (sortPairs l₁).Perm (sortPairs l₂) :=
    ((List.perm_insertionSort _ l₁).trans h).trans
      (List.perm_insertionSort _ l₂).symm
  exact List.eq_of_perm_of_sorted hperm hs₁ hs₂

theorem hex8_length (w : ℕ) : (hex8 w).length = 8 := rfl

/-- Every digest is 64 hexadecimal characters. -/
theorem sha256hex_length (msg : List ℕ) : (sha256hex msg).length = 64 := by
  simp [sha256hex, List.length_append, hex8_length]

/-- C7 counterexample: two concrete URL pairs that differ only in ways the
claim allows, yet canonicalize differently.  First pair: the same
repeated query key with its values in the two orders (`x=1&x=2` versus
`x=2&x=1`).  Second pair: one extra leading `www.` on a host that still
starts with `www.` afterwards (only one `www.` is stripped per call). -/
theorem canonicalize_url_claim_counterexample :
    (differOnlyByClaimed (lstr "http://example.com/a?x=1&x=2")
        (lstr "http://example.com/a?x=2&x=1") = true
      ∧ canonicalize_url (lstr "http://example.com/a?x=1&x=2")
          ≠ canonicalize_url (lstr "http://example.com/a?x=2&x=1"))
    ∧ (differOnlyByClaimed (lstr "http://www.www.example.com/x")
        (lstr "http://www.example.com/x") = true
      ∧ canonicalize_url (lstr "http://www.www.example.com/x")
          ≠ canonicalize_url (lstr "http://www.example.com/x")) :=
  ⟨⟨by decide, by decide⟩, ⟨by decide, by decide⟩⟩

/-- C7 (amended): two URLs canonicalize to the identical string — and
hash to the identical 64-character SHA-256 hex digest — whenever their
parses agree on scheme, params, on the host after lower-casing and one
`www.` strip, on the path after trailing-slash stripping, and have
permutations of the same non-tracking query dictionary entries (same
per-key value sequences; key order free). -/
theorem canonicalize_url_invariance (u₁ u₂ : List Char) (p₁ p₂ : UrlParts)
    (h₁ : urlparseModel u₁ = some p₁) (h₂ : urlparseModel u₂ = some p₂)
    (hscheme : p₁.scheme = p₂.scheme)
    (hnetloc : stripWww (pyLower p₁.netloc) = stripWww (pyLower p₂.netloc))
    (hpath : rstripSlash p₁.path = rstripSlash p₂.path)
    (hparams : p₁.params = p₂.params)
    (hquery : ((parse_qs_model p₁.query).filter
        (fun kv => !(trackingParams.contains kv.1))).Perm
      ((parse_qs_model p₂.query).filter
        (fun kv => !(trackingParams.contains kv.1)))) :
    canonicalize_url u₁ = canonicalize_url u₂
    ∧ ∃ d : List Char, generate_url_hash u₁ = some d
        ∧ generate_url_hash u₂ = some d ∧ d.length = 64 := by
  have hcp : canonicalParts p₁ = canonicalParts p₂ := by
    unfold canonicalParts canonicalQuery
    rw [hscheme, hnetloc, hpath, hparams, sortPairs_eq_of_perm hquery]
  have hc₁ : canonicalize_url u₁
      = some (urlunparseModel (canonicalParts p₁)) := by
    simp [canonicalize_url, h₁]
  have hc₂ : canonicalize_url u₂
      = some (urlunparseModel (canonicalParts p₂)) := by
    simp [canonicalize_url, h₂]
  refine ⟨by rw [hc₁, hc₂, hcp], ?_⟩
  refine ⟨sha256hex (utf8Encode (urlunparseModel (canonicalParts p₁))),
    ?_, ?_, sha256hex_length _⟩
  · simp [generate_url_hash, hc₁]
  · rw [hcp]
    simp [generate_url_hash, hc₂]

/-- Witness for C7 (amended): a concrete pair differing by case and
`www.` on the host, a trailing slash, a tracking parameter and query
order. -/
theorem canonicalize_url_invariance_witness :
    canonicalize_url (lstr "https://www.Example.com/a/?utm_source=t&b=2&a=1")
      = canonicalize_url (lstr "https://example.com/a?a=1&b=2")
    ∧ ∃ d : List Char,
        generate_url_hash
          (lstr "https://www.Example.com/a/?utm_source=t&b=2&a=1") = some d
        ∧ generate_url_hash (lstr "https://example.com/a?a=1&b=2") = some d
        ∧ d.length = 64 :=
  canonicalize_url_invariance _ _
    ⟨lstr "https", lstr "www.Example.com", lstr "/a/", [],
     lstr "utm_source=t&b=2&a=1", []⟩
    ⟨lstr "https", lstr "example.com", lstr "/a", [], lstr "a=1&b=2", []⟩
    (by decide) (by decide) (by decide) (by decide) (by decide) (by decide)
    (by decide)

theorem takeWhile_all {α : Type} {p : α → Bool} {l : List α}
    (h : ∀ a ∈ l, p a = true) : l.takeWhile p = l := by
  induction l with
  | nil => rfl
  | cons a as ih =>
    simp only [List.takeWhile_cons, h a (List.mem_cons_self a as), if_true]
    rw [ih (fun x hx => h x (List.mem_cons_of_mem a hx))]

theorem dropWhile_all {α : Type} {p : α → Bool} {l : List α}
    (h : ∀ a ∈ l, p a = true) : l.dropWhile p = [] := by
  induction l with
  | nil => rfl
  | cons a as ih =>
    simp only [List.dropWhile_cons, h a (List.mem_cons_self a as), if_true]
    exact ih (fun x hx => h x (List.mem_cons_of_mem a hx))

theorem takeWhile_append_stop {α : Type} {p : α → Bool} {l₁ : List α}
    (b : α) (l₂ : List α) (h : ∀ a ∈ l₁, p a = true) (hb : p b = false) :
    (l₁ ++ b :: l₂).takeWhile p = l₁ := by
  induction l₁ with
  | nil => simp [List.takeWhile_cons, hb]
  | cons a as ih =>
    simp only [List.cons_append, List.takeWhile_cons,
      h a (List.mem_cons_self a as), if_true]
    rw [ih (fun x hx => h x (List.mem_cons_of_mem a hx))]

theorem dropWhile_append_stop {α : Type} {p : α → Bool} {l₁ : List α}
    (b : α) (l₂ : List α) (h : ∀ a ∈ l₁, p a = true) (hb : p b = false) :
    (l₁ ++ b :: l₂).dropWhile p = b :: l₂ := by
  induction l₁ with
  | nil => simp [List.dropWhile_cons, hb]
  | cons a as ih =>
    simp only [List.cons_append, List.dropWhile_cons,
      h a (List.mem_cons_self a as), if_true]
    exact ih (fun x hx => h x (List.mem_cons_of_mem a hx))

/-- `breakAtFirst` on a string known not to contain the separator. -/
theorem breakAtFirst_not_mem {ch : Char} {l : List Char}
    (h : ∀ a ∈ l, (a == ch) = false) : breakAtFirst ch l = (l, none) := by
  unfold breakAtFirst
  rw [dropWhile_all (by
    intro a ha
    simp [h a ha])]

/-- `breakAtFirst` at the first separator occurrence. -/
theorem breakAtFirst_append {ch : Char} {l₁ : List Char} (l₂ : List Char)
    (h : ∀ a ∈ l₁, (a == ch) = false) :
    breakAtFirst ch (l₁ ++ ch :: l₂) = (l₁, some l₂) := by
  unfold breakAtFirst
  have hnb : (fun c => !(c == ch)) ch = false := by simp
  rw [dropWhile_append_stop ch l₂ (by
      intro a ha
      simp [h a ha]) hnb,
    takeWhile_append_stop ch l₂ (by
      intro a ha
      simp [h a ha]) hnb]

/-- `splitChar` of a separator-free string. -/
theorem splitChar_not_mem {ch : Char} {l : List Char}
    (h : ∀ a ∈ l, a ≠ ch) : splitChar ch l = [l] := by
  induction l with
  | nil => rfl
  | cons a as ih =>
    have ha : a ≠ ch := h a (List.mem_cons_self a as)
    simp only [splitChar, if_neg ha]
    rw [ih (fun x hx => h x (List.mem_cons_of_mem a hx))]

/-- Splitting at the first separator occurrence peels off one
separator-free field. -/
theorem splitChar_append {ch : Char} {f : List Char} (rest : List Char)
    (h : ∀ a ∈ f, a ≠ ch) :
    splitChar ch (f ++ ch :: rest) = f :: splitChar ch rest := by
  induction f with
  | nil => simp [splitChar]
  | cons a as ih =>
    have ha : a ≠ ch := h a (List.mem_cons_self a as)
    simp only [List.cons_append, splitChar, if_neg ha, List.append_eq]
    rw [ih (fun x hx => h x (List.mem_cons_of_mem a hx))]

/-- `str.split(sep)` undoes `sep.join(fields)` when no field contains the
separator. -/
theorem splitChar_intercalate {ch : Char} :
    ∀ fields : List (List Char), fields ≠ [] →
      (∀ f ∈ fields, ∀ a ∈ f, a ≠ ch) →
      splitChar ch (List.intercalate [ch] fields) = fields := by
  intro fields
  induction fields with
  | nil => intro h; exact absurd rfl h
  | cons f rest ih =>
    intro _ hall
    cases rest with
    | nil =>
      simp only [List.intercalate, List.intersperse, List.flatten]
      rw [List.append_nil]
      exact splitChar_not_mem (hall f (List.mem_cons_self f []))
    | cons g rest2 =>
      have hjoin : List.intercalate [ch] (f :: g :: rest2)
          = f ++ ch :: List.intercalate [ch] (g :: rest2) := by
        simp [List.intercalate, List.intersperse]
      rw [hjoin, splitChar_append _ (hall f (List.mem_cons_self f _)),
        ih (by simp) (fun x hx y hy =>
          hall x (List.mem_cons_of_mem f hx) y hy)]

/-- Code-point facts about the upper-case hexadecimal digits emitted by
`quote`: ASCII, distinct from the special query characters, and
inverted by `hexVal`. -/
theorem hexUpper_facts : ∀ d, d < 16 → (hexUpper d).toNat < 128
    ∧ (hexUpper d).toNat ≠ 37 ∧ hexUpper d ≠ '+'
    ∧ hexVal ((hexUpper d).toNat) = some d
    ∧ hexUpper d ≠ '&' ∧ hexUpper d ≠ '=' ∧ hexUpper d ≠ '?'
    ∧ hexUpper d ≠ '#' ∧ goodCh (hexUpper d) = true := by decide

/-- `Char.ofNat` inverts `Char.toNat` on valid code points. -/
theorem char_toNat_ofNat {n : ℕ} (h : Nat.isValidChar n) :
    (Char.ofNat n).toNat = n := by
  unfold Char.ofNat
  rw [dif_pos h]
  unfold Char.ofNatAux Char.toNat UInt32.toNat
  simp

/-- Characters with equal code points are equal. -/
theorem char_eq_of_toNat {a b : Char} (h : a.toNat = b.toNat) : a = b :=
  Char.eq_of_val_eq (UInt32.ext h)

/-- The validity range of a character's code point. -/
theorem char_valid (c : Char) :
    c.toNat < 55296 ∨ (57343 < c.toNat ∧ c.toNat < 1114112) := c.valid

/-- Every byte of the UTF-8 encoding of one character is below 256. -/
theorem utf8EncodeChar_lt (c : Char) : ∀ b ∈ utf8EncodeChar c, b < 256 := by
  have hv := char_valid c
  intro b hb
  simp only [utf8EncodeChar] at hb
  split_ifs at hb with h1 h2 h3
  · simp at hb; omega
  · simp at hb; rcases hb with rfl | rfl <;> omega
  · simp at hb; rcases hb with rfl | rfl | rfl <;> omega
  · simp at hb; rcases hb with rfl | rfl | rfl | rfl <;> omega

/-- Decoding the UTF-8 encoding of one character from the initial
decoder state recovers the character. -/
theorem feedBytes_encodeChar (c : Char) :
    feedBytes none (utf8EncodeChar c) = (none, [c]) := by
  have hv := char_valid c
  have hval : Nat.isValidChar c.toNat := c.valid
  by_cases h1 : c.toNat < 128
  · have he : utf8EncodeChar c = [c.toNat] := by simp [utf8EncodeChar, h1]
    rw [he]
    simp [feedBytes, utf8Step, utf8StartByte, h1, Char.ofNat_toNat]
  · by_cases h2 : c.toNat < 2048
    · have he : utf8EncodeChar c
          = [192 + c.toNat / 64, 128 + c.toNat % 64] := by
        simp [utf8EncodeChar, h1, h2]
      rw [he]
      have hb1a : ¬ (192 + c.toNat / 64 < 128) := by omega
      have hb1b : 194 ≤ 192 + c.toNat / 64 ∧ 192 + c.toNat / 64 ≤ 223 := by
        omega
      have hb2 : 128 ≤ 128 + c.toNat % 64 ∧ 128 + c.toNat % 64 < 192 := by
        omega
      have harg : c.toNat / 64 * 64 + c.toNat % 64 = c.toNat := by omega
      simp [feedBytes, utf8Step, utf8StartByte, hb1a, hb1b, hb2,
        Nat.add_sub_cancel_left, harg, scalarChar, hval, Char.ofNat_toNat]
    · by_cases h3 : c.toNat < 65536
      · have he : utf8EncodeChar c
            = [224 + c.toNat / 4096, 128 + c.toNat / 64 % 64,
               128 + c.toNat % 64] := by
          simp [utf8EncodeChar, h1, h2, h3]
        rw [he]
        have hb1a : ¬ (224 + c.toNat / 4096 < 128) := by omega
        have hb1b : ¬ (194 ≤ 224 + c.toNat / 4096
            ∧ 224 + c.toNat / 4096 ≤ 223) := by omega
        have hb1c : 224 ≤ 224 + c.toNat / 4096
            ∧ 224 + c.toNat / 4096 ≤ 239 := by omega
        have hb2 : 128 ≤ 128 + c.toNat / 64 % 64
            ∧ 128 + c.toNat / 64 % 64 < 192 := by omega
        have hb3 : 128 ≤ 128 + c.toNat % 64 ∧ 128 + c.toNat % 64 < 192 := by
          omega
        have harg : (c.toNat / 4096 * 64 + c.toNat / 64 % 64) * 64
            + c.toNat % 64 = c.toNat := by omega
        simp [feedBytes, utf8Step, utf8StartByte, hb1a, hb1b, hb1c, hb2, hb3,
          Nat.add_sub_cancel_left, harg, scalarChar, hval, Char.ofNat_toNat]
      · have hub : c.toNat < 1114112 := by omega
        have he : utf8EncodeChar c
            = [240 + c.toNat / 262144, 128 + c.toNat / 4096 % 64,
               128 + c.toNat / 64 % 64, 128 + c.toNat % 64] := by
          simp [utf8EncodeChar, h1, h2, h3]
        rw [he]
        have hb1a : ¬ (240 + c.toNat / 262144 < 128) := by omega
        have hb1b : ¬ (194 ≤ 240 + c.toNat / 262144
            ∧ 240 + c.toNat / 262144 ≤ 223) := by omega
        have hb1c : ¬ (224 ≤ 240 + c.toNat / 262144
            ∧ 240 + c.toNat / 262144 ≤ 239) := by omega
        have hb1d : 240 ≤ 240 + c.toNat / 262144
            ∧ 240 + c.toNat / 262144 ≤ 244 := by omega
        have hb2 : 128 ≤ 128 + c.toNat / 4096 % 64
            ∧ 128 + c.toNat / 4096 % 64 < 192 := by omega
        have hb3 : 128 ≤ 128 + c.toNat / 64 % 64
            ∧ 128 + c.toNat / 64 % 64 < 192 := by omega
        have hb4 : 128 ≤ 128 + c.toNat % 64 ∧ 128 + c.toNat % 64 < 192 := by
          omega
        have harg : ((c.toNat / 262144 * 64 + c.toNat / 4096 % 64) * 64
            + c.toNat / 64 % 64) * 64 + c.toNat % 64 = c.toNat := by omega
        simp [feedBytes, utf8Step, utf8StartByte, hb1a, hb1b, hb1c, hb1d,
          hb2, hb3, hb4, Nat.add_sub_cancel_left, harg, scalarChar, hval,
          Char.ofNat_toNat]

/-- The incremental UTF-8 decoder splits over list concatenation. -/
theorem feedBytes_append (u : Utf8State) (bs₁ bs₂ : List ℕ) :
    feedBytes u (bs₁ ++ bs₂) =
      ((feedBytes (feedBytes u bs₁).1 bs₂).1,
       (feedBytes u bs₁).2 ++ (feedBytes (feedBytes u bs₁).1 bs₂).2) := by
  induction bs₁ generalizing u with
  | nil => simp [feedBytes]
  | cons b bs ih => simp [feedBytes, ih, List.append_assoc]

/-- Decoding the UTF-8 encoding of a string from the initial decoder
state recovers the string, ending in the initial state. -/
theorem feedBytes_utf8Encode (s : List Char) :
    feedBytes none (utf8Encode s) = (none, s) := by
  induction s with
  | nil => rfl
  | cons c cs ih =>
    have he : utf8Encode (c :: cs) = utf8EncodeChar c ++ utf8Encode cs := by
      simp [utf8Encode]
    rw [he, feedBytes_append, feedBytes_encodeChar c, ih]
    rfl

/-- One ASCII character steps the `unquote` automaton. -/
theorem unquoteGo_ascii (p : PctState) (u : Utf8State) (c : Char)
    (cs : List Char) (h : c.toNat < 128) :
    unquoteGo p u (c :: cs) =
      (pctStep p u c.toNat).2.2
        ++ unquoteGo (pctStep p u c.toNat).1 (pctStep p u c.toNat).2.1 cs := by
  simp only [unquoteGo, h, if_true]

/-- Feeding the `parse_qsl` rendering of a byte list to the `unquote`
automaton from the idle state decodes exactly those bytes. -/
theorem unquoteGo_qp : ∀ bs : List ℕ, (∀ b ∈ bs, b < 256) →
    ∀ (u : Utf8State) (rest : List Char),
    unquoteGo .idle u (bs.flatMap qpRestChar ++ rest)
      = (feedBytes u bs).2 ++ unquoteGo .idle (feedBytes u bs).1 rest := by
  intro bs
  induction bs with
  | nil => intro _ u rest; simp [feedBytes]
  | cons b bs ih =>
    intro hb u rest
    have hb0 : b < 256 := hb b (List.mem_cons_self b bs)
    have hbs : ∀ x ∈ bs, x < 256 :=
      fun x hx => hb x (List.mem_cons_of_mem b hx)
    have hflat : (b :: bs).flatMap qpRestChar
        = qpRestChar b ++ bs.flatMap qpRestChar := by simp
    rw [hflat, List.append_assoc]
    by_cases h32 : b = 32
    · subst h32
      rw [show qpRestChar 32 = [' '] from rfl, List.singleton_append,
        unquoteGo_ascii _ _ _ _ (by decide)]
      have hstep : pctStep .idle u (' '.toNat)
          = (.idle, (utf8Step u 32).1, (utf8Step u 32).2) := by
        simp [pctStep]
      rw [hstep, ih hbs _ rest]
      simp [feedBytes, List.append_assoc]
    · by_cases hsafe : isSafeByte b = true
      · have hrange : (48 ≤ b ∧ b ≤ 57) ∨ (65 ≤ b ∧ b ≤ 90)
            ∨ (97 ≤ b ∧ b ≤ 122) ∨ b = 95 ∨ b = 46 ∨ b = 45 ∨ b = 126 := by
          simp [isSafeByte] at hsafe
          omega
        have hlt : b < 128 := by omega
        have hne37 : ¬ (b = 37) := by omega
        have htn : (Char.ofNat b).toNat = b :=
          char_toNat_ofNat (Or.inl (by omega))
        rw [show qpRestChar b = [Char.ofNat b] from by
          simp [qpRestChar, h32, hsafe], List.singleton_append,
          unquoteGo_ascii _ _ _ _ (by rw [htn]; exact hlt)]
        have hstep : pctStep .idle u ((Char.ofNat b).toNat)
            = (.idle, (utf8Step u b).1, (utf8Step u b).2) := by
          rw [htn]
          simp [pctStep, hne37]
        rw [hstep, ih hbs _ rest]
        simp [feedBytes, List.append_assoc]
      · obtain ⟨hu1lt, _, _, hu1hex, _⟩ := hexUpper_facts (b / 16) (by omega)
        obtain ⟨hu2lt, _, _, hu2hex, _⟩ := hexUpper_facts (b % 16) (by omega)
        rw [show qpRestChar b = '%' :: toHexUpper2 b from by
          simp [qpRestChar, h32, hsafe], toHexUpper2]
        rw [List.cons_append, List.cons_append, List.cons_append,
          unquoteGo_ascii _ _ '%' _ (by decide)]
        have hs1 : pctStep .idle u ('%'.toNat) = (.afterPct, u, []) := by
          simp [pctStep]
        rw [hs1]
        rw [unquoteGo_ascii _ _ _ _ hu1lt]
        have hs2 : pctStep .afterPct u ((hexUpper (b / 16)).toNat)
            = (.afterHex ((hexUpper (b / 16)).toNat), u, []) := by
          simp [pctStep, hu1hex]
        rw [hs2]
        rw [unquoteGo_ascii _ _ _ _ hu2lt]
        have hs3 : pctStep (.afterHex ((hexUpper (b / 16)).toNat)) u
              ((hexUpper (b % 16)).toNat)
            = (.idle, (utf8Step u b).1, (utf8Step u b).2) := by
          simp only [pctStep, hu1hex, hu2hex]
          have harg : b / 16 * 16 + b % 16 = b := by omega
          rw [harg]
        rw [hs3]
        simp only [List.nil_append]
        rw [ih hbs _ rest]
        simp [feedBytes, List.append_assoc]

/-- After the `+`-to-space restoration, a `quote_plus`-encoded byte list
reads as its `qpRestChar` rendering. -/
theorem plusToSpace_quoteBytes : ∀ bs : List ℕ, (∀ b ∈ bs, b < 256) →
    plusToSpace (bs.flatMap (fun b =>
      if b = 32 then ['+']
      else if isSafeByte b then [Char.ofNat b]
      else '%' :: toHexUpper2 b)) = bs.flatMap qpRestChar := by
  intro bs
  induction bs with
  | nil => intro _; rfl
  | cons b bs ih =>
    intro hb
    have hb0 : b < 256 := hb b (List.mem_cons_self b bs)
    have hbs : ∀ x ∈ bs, x < 256 :=
      fun x hx => hb x (List.mem_cons_of_mem b hx)
    simp only [List.flatMap_cons, plusToSpace, List.map_append] at ih ⊢
    rw [ih hbs]
    congr 1
    by_cases h32 : b = 32
    · subst h32; rfl
    · by_cases hsafe : isSafeByte b = true
      · have hne43 : ¬ (b = 43) := by
          intro h
          subst h
          simp [isSafeByte] at hsafe
        have htn : (Char.ofNat b).toNat = b := by
          refine char_toNat_ofNat (Or.inl ?_)
          simp [isSafeByte] at hsafe
          omega
        have hnp : ¬ (Char.ofNat b = '+') := by
          intro h
          rw [h] at htn
          exact hne43 htn.symm
        simp [qpRestChar, h32, hsafe, hnp]
      · obtain ⟨_, _, hu1p, _⟩ := hexUpper_facts (b / 16) (by omega)
        obtain ⟨_, _, hu2p, _⟩ := hexUpper_facts (b % 16) (by omega)
        simp [qpRestChar, h32, hsafe, toHexUpper2, hu1p, hu2p]

/-- All bytes of a UTF-8 encoded string are below 256. -/
theorem utf8Encode_lt (s : List Char) : ∀ b ∈ utf8Encode s, b < 256 := by
  intro b hb
  simp only [utf8Encode, List.mem_flatMap] at hb
  obtain ⟨c, _, hc⟩ := hb
  exact utf8EncodeChar_lt c b hc

/-- `unquote` inverts `quote_plus` composed with the `+`-to-space
restoration performed by `parse_qsl`. -/
theorem unquote_quote_plus (s : List Char) :
    unquote (plusToSpace (quote_plus_model s)) = s := by
  have h1 : plusToSpace (quote_plus_model s)
      = (utf8Encode s).flatMap qpRestChar := by
    simp only [quote_plus_model]
    exact plusToSpace_quoteBytes (utf8Encode s) (utf8Encode_lt s)
  rw [h1, unquote, ← List.append_nil ((utf8Encode s).flatMap qpRestChar),
    unquoteGo_qp (utf8Encode s) (utf8Encode_lt s) none [],
    feedBytes_utf8Encode]
  simp [unquoteGo, feedBytes, pctPendingBytes, utf8Flush]

/-- Unequal code points give unequal characters. -/
theorem char_ne_of_toNat {a b : Char} (h : a.toNat ≠ b.toNat) : a ≠ b :=
  fun he => h (by rw [he])

/-- A UTF-8 decoding step that emits nothing leaves the decoder waiting
for continuation bytes. -/
theorem utf8Step_empty (u : Utf8State) (b : ℕ)
    (h : (utf8Step u b).2 = []) : ∃ na, (utf8Step u b).1 = some na := by
  rcases u with _ | ⟨n, a⟩
  · simp only [utf8Step, utf8StartByte] at h ⊢
    split_ifs at h ⊢ with h1 h2 h3 h4 <;> simp_all
  · simp only [utf8Step] at h ⊢
    split_ifs at h ⊢ with h1 h2
    all_goals simp_all [utf8StartByte]

/-- Feeding an ASCII byte to the UTF-8 decoder always emits something. -/
theorem utf8Step_ascii_out (u : Utf8State) (b : ℕ) (hb : b < 128) :
    (utf8Step u b).2 ≠ [] := by
  rcases u with _ | ⟨n, a⟩
  · simp [utf8Step, utf8StartByte, hb]
  · have : ¬ (128 ≤ b ∧ b < 192) := by omega
    simp [utf8Step, this]

/-- Once the decoder has consumed at least one byte or is mid-scalar,
the decoded output together with the final flush is nonempty. -/
theorem feedBytes_out_ne : ∀ (bs : List ℕ) (u : Utf8State),
    (u ≠ none ∨ bs ≠ []) →
    (feedBytes u bs).2 ++ utf8Flush (feedBytes u bs).1 ≠ [] := by
  intro bs
  induction bs with
  | nil =>
    intro u hu
    rcases hu with hu | hu
    · rcases u with _ | ⟨n, a⟩
      · exact absurd rfl hu
      · simp [feedBytes, utf8Flush]
    · exact absurd rfl hu
  | cons b bs ih =>
    intro u _
    by_cases hout : (utf8Step u b).2 = []
    · obtain ⟨na, hna⟩ := utf8Step_empty u b hout
      have hne : (utf8Step u b).1 ≠ none := by
        rw [hna]
        exact fun hc => Option.noConfusion hc
      have hrec := ih (utf8Step u b).1 (Or.inl hne)
      simp only [feedBytes, hout, List.nil_append]
      exact hrec
    · intro hcon
      simp only [feedBytes] at hcon
      rw [List.append_assoc, List.append_eq_nil] at hcon
      exact hout hcon.1

/-- A percent-automaton step that emits nothing leaves a pending escape
or a waiting UTF-8 decoder. -/
theorem pctStep_empty (p : PctState) (u : Utf8State) (b : ℕ)
    (h : (pctStep p u b).2.2 = []) :
    pctPendingBytes (pctStep p u b).1 ≠ [] ∨ (pctStep p u b).2.1 ≠ none := by
  rcases p with _ | _ | b1
  · by_cases h37 : b = 37
    · subst h37
      left
      simp [pctStep, pctPendingBytes]
    · right
      simp only [pctStep, if_neg h37] at h ⊢
      obtain ⟨na, hna⟩ := utf8Step_empty u b h
      rw [hna]
      exact fun hc => Option.noConfusion hc
  · by_cases hhex : (hexVal b).isSome = true
    · left
      simp [pctStep, hhex, pctPendingBytes]
    · by_cases h37 : b = 37
      · subst h37
        exfalso
        rw [show pctStep .afterPct u 37
            = (.afterPct, (utf8Step u 37).1, (utf8Step u 37).2) from by
          simp [pctStep, hhex]] at h
        exact utf8Step_ascii_out u 37 (by omega) h
      · exfalso
        rw [show pctStep .afterPct u b
            = (.idle, (feedBytes u [37, b]).1, (feedBytes u [37, b]).2)
            from by simp [pctStep, hhex, h37]] at h
        simp only [feedBytes] at h
        rw [List.append_eq_nil] at h
        exact utf8Step_ascii_out u 37 (by omega) h.1
  · rcases hx1 : hexVal b1 with _ | v1
    · by_cases h37 : b = 37
      · subst h37
        left
        rw [show pctStep (.afterHex b1) u 37
            = (.afterPct, (feedBytes u [37, b1]).1, (feedBytes u [37, b1]).2)
            from by simp [pctStep, hx1]]
        simp [pctPendingBytes]
      · exfalso
        rw [show pctStep (.afterHex b1) u b
            = (.idle, (feedBytes u [37, b1, b]).1,
               (feedBytes u [37, b1, b]).2)
            from by simp [pctStep, hx1, h37]] at h
        simp only [feedBytes] at h
        rw [List.append_eq_nil] at h
        exact utf8Step_ascii_out u 37 (by omega) h.1
    · rcases hx2 : hexVal b with _ | v2
      · by_cases h37 : b = 37
        · subst h37
          left
          rw [show pctStep (.afterHex b1) u 37
              = (.afterPct, (feedBytes u [37, b1]).1,
                 (feedBytes u [37, b1]).2)
              from by simp [pctStep, hx1, hx2]]
          simp [pctPendingBytes]
        · exfalso
          rw [show pctStep (.afterHex b1) u b
              = (.idle, (feedBytes u [37, b1, b]).1,
                 (feedBytes u [37, b1, b]).2)
              from by simp [pctStep, hx1, hx2, h37]] at h
          simp only [feedBytes] at h
          rw [List.append_eq_nil] at h
          exact utf8Step_ascii_out u 37 (by omega) h.1
      · rw [show pctStep (.afterHex b1) u b
            = (.idle, (utf8Step u (v1 * 16 + v2)).1,
               (utf8Step u (v1 * 16 + v2)).2)
            from by simp [pctStep, hx1, hx2]] at h ⊢
        obtain ⟨na, hna⟩ := utf8Step_empty u (v1 * 16 + v2) h
        right
        rw [hna]
        exact fun hc => Option.noConfusion hc

/-- `unquote` never maps a nonempty string (or a pending automaton
state) to the empty string. -/
theorem unquoteGo_ne_nil : ∀ (s : List Char) (p : PctState) (u : Utf8State),
    (s ≠ [] ∨ pctPendingBytes p ≠ [] ∨ u ≠ none) →
    unquoteGo p u s ≠ [] := by
  intro s
  induction s with
  | nil =>
    intro p u hps
    have hfeed : pctPendingBytes p ≠ [] ∨ u ≠ none := by
      rcases hps with h | h | h
      · exact absurd rfl h
      · exact Or.inl h
      · exact Or.inr h
    simp only [unquoteGo]
    exact feedBytes_out_ne (pctPendingBytes p) u (hfeed.symm.imp id id)
  | cons c cs ih =>
    intro p u _
    by_cases hc : c.toNat < 128
    · rw [unquoteGo_ascii p u c cs hc]
      by_cases hout : (pctStep p u c.toNat).2.2 = []
      · rw [hout, List.nil_append]
        refine ih _ _ ?_
        rcases pctStep_empty p u c.toNat hout with h | h
        · exact Or.inr (Or.inl h)
        · exact Or.inr (Or.inr h)
      · intro hcon
        rw [List.append_eq_nil] at hcon
        exact hout hcon.1
    · simp only [unquoteGo, if_neg hc]
      intro hcon
      rw [List.append_eq_nil, List.append_eq_nil] at hcon
      exact List.cons_ne_nil c _ hcon.2

/-- `unquote` of a nonempty string is nonempty. -/
theorem unquote_ne_nil {s : List Char} (h : s ≠ []) : unquote s ≠ [] :=
  unquoteGo_ne_nil s .idle none (Or.inl h)

/-- Character-class facts about `quote_plus` output: ASCII, never a
query metacharacter, never a removed whitespace character. -/
theorem quote_plus_chars (s : List Char) : ∀ c ∈ quote_plus_model s,
    c.toNat < 128 ∧ c ≠ '&' ∧ c ≠ '=' ∧ c ≠ '?' ∧ c ≠ '#'
      ∧ goodCh c = true := by
  intro c hc
  simp only [quote_plus_model, List.mem_flatMap] at hc
  obtain ⟨b, hb, hcb⟩ := hc
  have hb256 : b < 256 := utf8Encode_lt s b hb
  by_cases h32 : b = 32
  · subst h32
    simp at hcb
    subst hcb
    exact ⟨by decide, by decide, by decide, by decide, by decide, by decide⟩
  · by_cases hsafe : isSafeByte b = true
    · rw [if_neg h32, if_pos hsafe] at hcb
      simp only [List.mem_singleton] at hcb
      subst hcb
      have hrange : (48 ≤ b ∧ b ≤ 57) ∨ (65 ≤ b ∧ b ≤ 90)
          ∨ (97 ≤ b ∧ b ≤ 122) ∨ b = 95 ∨ b = 46 ∨ b = 45 ∨ b = 126 := by
        simp [isSafeByte] at hsafe
        omega
      have htn : (Char.ofNat b).toNat = b :=
        char_toNat_ofNat (Or.inl (by omega))
      refine ⟨by rw [htn]; omega, ?_, ?_, ?_, ?_, ?_⟩
      · refine char_ne_of_toNat ?_
        rw [htn, show ('&').toNat = 38 from rfl]
        omega
      · refine char_ne_of_toNat ?_
        rw [htn, show ('=').toNat = 61 from rfl]
        omega
      · refine char_ne_of_toNat ?_
        rw [htn, show ('?').toNat = 63 from rfl]
        omega
      · refine char_ne_of_toNat ?_
        rw [htn, show ('#').toNat = 35 from rfl]
        omega
      · simp only [goodCh, Bool.not_eq_true', Bool.or_eq_false_iff,
          beq_eq_false_iff_ne]
        refine ⟨⟨?_, ?_⟩, ?_⟩ <;> refine char_ne_of_toNat ?_ <;> rw [htn]
        · rw [show ('\t').toNat = 9 from rfl]; omega
        · rw [show ('\r').toNat = 13 from rfl]; omega
        · rw [show ('\n').toNat = 10 from rfl]; omega
    · rw [if_neg h32, if_neg hsafe] at hcb
      simp only [toHexUpper2, List.mem_cons, List.not_mem_nil,
        or_false] at hcb
      rcases hcb with rfl | rfl | rfl
      · exact ⟨by decide, by decide, by decide, by decide, by decide,
          by decide⟩
      · obtain ⟨h1, _, _, _, h5, h6, h7, h8, h9⟩ :=
          hexUpper_facts (b / 16) (by omega)
        exact ⟨h1, h5, h6, h7, h8, h9⟩
      · obtain ⟨h1, _, _, _, h5, h6, h7, h8, h9⟩ :=
          hexUpper_facts (b % 16) (by omega)
        exact ⟨h1, h5, h6, h7, h8, h9⟩

/-- `quote_plus` of a nonempty string is nonempty. -/
theorem utf8EncodeChar_ne_nil (c : Char) : utf8EncodeChar c ≠ [] := by
  simp only [utf8EncodeChar]
  split_ifs <;> simp

/-- `quote_plus` maps nonempty strings to nonempty strings. -/
theorem quote_plus_ne_nil {v : List Char} (h : v ≠ []) :
    quote_plus_model v ≠ [] := by
  rcases v with _ | ⟨c, cs⟩
  · exact absurd rfl h
  · obtain ⟨b, bs, hb⟩ : ∃ b bs, utf8Encode (c :: cs) = b :: bs := by
      have henc : utf8Encode (c :: cs)
          = utf8EncodeChar c ++ utf8Encode cs := by simp [utf8Encode]
      rcases he : utf8EncodeChar c with _ | ⟨b, bs⟩
      · exact absurd he (utf8EncodeChar_ne_nil c)
      · exact ⟨b, bs ++ utf8Encode cs, by rw [henc, he]; rfl⟩
    simp only [quote_plus_model, hb, List.flatMap_cons]
    intro hcon
    rw [List.append_eq_nil] at hcon
    have hfst := hcon.1
    split_ifs at hfst

/-- An `urlencode` field is nonempty (it contains its `=`). -/
theorem qsField_ne_nil (kv : List Char × List Char) : qsField kv ≠ [] := by
  simp [qsField, List.append_eq_nil]

/-- Membership in `intersperse`. -/
theorem mem_intersperse {α : Type} {sep x : α} :
    ∀ {l : List α}, x ∈ List.intersperse sep l → x = sep ∨ x ∈ l := by
  intro l
  induction l with
  | nil => intro h; simp [List.intersperse] at h
  | cons a t ih =>
    cases t with
    | nil =>
      intro h
      simp only [List.intersperse, List.mem_singleton] at h
      exact Or.inr (by simp [h])
    | cons b t2 =>
      intro h
      rw [List.intersperse_cons_cons, List.mem_cons, List.mem_cons] at h
      rcases h with rfl | rfl | h
      · exact Or.inr (List.mem_cons_self _ _)
      · exact Or.inl rfl
      · rcases ih h with h | h
        · exact Or.inl h
        · exact Or.inr (List.mem_cons_of_mem _ h)

/-- `urlencode(query, doseq=True)` joins one field per flattened
`(key, value)` pair. -/
theorem urlencode_eq (pairs : List (List Char × List (List Char))) :
    urlencode_model pairs
      = List.intercalate ['&'] ((flatPairs pairs).map qsField) := by
  simp only [urlencode_model, flatPairs, qsField, List.map_flatMap,
    List.map_map]
  rfl

/-- Character-class facts about `urlencode` output. -/
theorem urlencode_chars (pairs : List (List Char × List (List Char))) :
    ∀ c ∈ urlencode_model pairs,
      c.toNat < 128 ∧ c ≠ '?' ∧ c ≠ '#' ∧ goodCh c = true := by
  intro c hc
  rw [urlencode_eq] at hc
  simp only [List.intercalate] at hc
  rw [List.mem_flatten] at hc
  obtain ⟨l, hl, hcl⟩ := hc
  rcases mem_intersperse hl with rfl | hl2
  · simp only [List.mem_singleton] at hcl
    subst hcl
    exact ⟨by decide, by decide, by decide, by decide⟩
  · simp only [List.mem_map] at hl2
    obtain ⟨kv, _, rfl⟩ := hl2
    simp only [qsField, List.mem_append, List.mem_cons] at hcl
    rcases hcl with h | h | h
    · obtain ⟨h1, _, _, h4, h5, h6⟩ := quote_plus_chars kv.1 c h
      exact ⟨h1, h4, h5, h6⟩
    · subst h
      exact ⟨by decide, by decide, by decide, by decide⟩
    · obtain ⟨h1, _, _, h4, h5, h6⟩ := quote_plus_chars kv.2 c h
      exact ⟨h1, h4, h5, h6⟩

/-- A joined field list headed by a nonempty field is nonempty. -/
theorem intercalate_ne_nil {sep a : List Char} {l : List (List Char)}
    (ha : a ≠ []) : List.intercalate sep (a :: l) ≠ [] := by
  cases l with
  | nil => simpa [List.intercalate, List.intersperse]
  | cons b t =>
    intro hcon
    rw [List.intercalate, List.intersperse_cons_cons] at hcon
    simp only [List.flatten, List.append_eq_nil] at hcon
    exact ha hcon.1

/-- A `filterMap` that fixes every element of a list is the identity. -/
theorem filterMap_some_id {α : Type} {f : α → Option α} :
    ∀ {l : List α}, (∀ a ∈ l, f a = some a) → l.filterMap f = l := by
  intro l
  induction l with
  | nil => intro _; rfl
  | cons a t ih =>
    intro h
    rw [List.filterMap_cons, h a (List.mem_cons_self a t),
      ih (fun x hx => h x (List.mem_cons_of_mem a hx))]

/-- `parse_qsl` recovers the flattened pair list from its `urlencode`
rendering, provided every value is nonempty. -/
theorem parse_qsl_fields (FL : List (List Char × List Char))
    (hv : ∀ kv ∈ FL, kv.2 ≠ []) :
    parse_qsl_model (List.intercalate ['&'] (FL.map qsField)) = FL := by
  rcases FL with _ | ⟨f0, F⟩
  · rfl
  · have hne : List.intercalate ['&'] ((f0 :: F).map qsField) ≠ [] := by
      rw [List.map_cons]
      exact intercalate_ne_nil (qsField_ne_nil f0)
    have hnoamp : ∀ fl ∈ (f0 :: F).map qsField, ∀ a ∈ fl, a ≠ '&' := by
      intro fl hfl a ha
      simp only [List.mem_map] at hfl
      obtain ⟨kv, _, rfl⟩ := hfl
      simp only [qsField, List.mem_append, List.mem_cons] at ha
      rcases ha with h | h | h
      · exact (quote_plus_chars kv.1 a h).2.1
      · subst h; decide
      · exact (quote_plus_chars kv.2 a h).2.1
    have hsplit := splitChar_intercalate ((f0 :: F).map qsField)
      (by simp) hnoamp
    simp only [parse_qsl_model, if_neg hne, hsplit]
    rw [List.filterMap_map]
    apply filterMap_some_id
    intro kv hkv
    obtain ⟨k, v⟩ := kv
    have hvne : v ≠ [] := hv (k, v) hkv
    have hqne : ¬ (quote_plus_model k ++ '=' :: quote_plus_model v = []) := by
      simp [List.append_eq_nil]
    have hkeq : ∀ a ∈ quote_plus_model k, (a == '=') = false := by
      intro a ha
      rw [beq_eq_false_iff_ne]
      exact (quote_plus_chars k a ha).2.2.1
    have hbreak : breakAtFirst '='
        (quote_plus_model k ++ '=' :: quote_plus_model v)
        = (quote_plus_model k, some (quote_plus_model v)) :=
      breakAtFirst_append _ hkeq
    simp only [Function.comp, qsField, if_neg hqne, hbreak,
      if_neg (quote_plus_ne_nil hvne)]
    rw [unquote_quote_plus, unquote_quote_plus]

/-- The keys present after one `dictAppend` step. -/
theorem dictAppend_keys (acc : List (List Char × List (List Char)))
    (kv : List Char × List Char) (x : List Char) :
    x ∈ (dictAppend acc kv).map Prod.fst
      ↔ x ∈ acc.map Prod.fst ∨ x = kv.1 := by
  induction acc with
  | nil => simp [dictAppend]
  | cons e rest ih =>
    obtain ⟨k, vs⟩ := e
    by_cases hk : k = kv.1
    · simp only [dictAppend, if_pos hk, List.map_cons, List.mem_cons]
      subst hk
      tauto
    · simp only [dictAppend, if_neg hk, List.map_cons, List.mem_cons, ih]
      tauto

/-- `dictAppend` preserves key distinctness. -/
theorem dictAppend_nodup (acc : List (List Char × List (List Char)))
    (kv : List Char × List Char) (h : (acc.map Prod.fst).Nodup) :
    ((dictAppend acc kv).map Prod.fst).Nodup := by
  induction acc with
  | nil => simp [dictAppend]
  | cons e rest ih =>
    obtain ⟨k, vs⟩ := e
    simp only [List.map_cons, List.nodup_cons] at h
    by_cases hk : k = kv.1
    · simp only [dictAppend, if_pos hk, List.map_cons, List.nodup_cons]
      exact h
    · simp only [dictAppend, if_neg hk, List.map_cons, List.nodup_cons]
      refine ⟨?_, ih h.2⟩
      intro hc
      rw [dictAppend_keys] at hc
      rcases hc with hc | hc
      · exact h.1 hc
      · exact hk hc

/-- `dictAppend` keeps every value list nonempty. -/
theorem dictAppend_vals (acc : List (List Char × List (List Char)))
    (kv : List Char × List Char) (h : ∀ e ∈ acc, e.2 ≠ []) :
    ∀ e ∈ dictAppend acc kv, e.2 ≠ [] := by
  induction acc with
  | nil =>
    intro e he
    simp only [dictAppend, List.mem_singleton] at he
    rw [he]
    simp
  | cons e0 rest ih =>
    obtain ⟨k, vs⟩ := e0
    intro e he
    by_cases hk : k = kv.1
    · simp only [dictAppend, if_pos hk, List.mem_cons] at he
      rcases he with rfl | he
      · simp
      · exact h e (List.mem_cons_of_mem _ he)
    · simp only [dictAppend, if_neg hk, List.mem_cons] at he
      rcases he with rfl | he
      · exact h _ (List.mem_cons_self _ _)
      · exact ih (fun x hx => h x (List.mem_cons_of_mem _ hx)) e he

/-- `dictAppend` keeps every value string nonempty. -/
theorem dictAppend_valstrings (acc : List (List Char × List (List Char)))
    (kv : List Char × List Char) (h : ∀ e ∈ acc, ∀ v ∈ e.2, v ≠ [])
    (hkv : kv.2 ≠ []) :
    ∀ e ∈ dictAppend acc kv, ∀ v ∈ e.2, v ≠ [] := by
  induction acc with
  | nil =>
    intro e he v hv
    simp only [dictAppend, List.mem_singleton] at he
    rw [he] at hv
    simp only [List.mem_singleton] at hv
    rw [hv]
    exact hkv
  | cons e0 rest ih =>
    obtain ⟨k, vs⟩ := e0
    intro e he v hv
    by_cases hk : k = kv.1
    · simp only [dictAppend, if_pos hk, List.mem_cons] at he
      rcases he with rfl | he
      · simp only [List.mem_append, List.mem_singleton] at hv
        rcases hv with hv | hv
        · exact h (k, vs) (List.mem_cons_self _ _) v hv
        · rw [hv]
          exact hkv
      · exact h e (List.mem_cons_of_mem _ he) v hv
    · simp only [dictAppend, if_neg hk, List.mem_cons] at he
      rcases he with rfl | he
      · exact h _ (List.mem_cons_self _ _) v hv
      · exact ih (fun x hx => h x (List.mem_cons_of_mem _ hx)) e he v hv

/-- Every value string produced by `parse_qsl` is nonempty (fields with
empty values are dropped, and `unquote` maps nonempty to nonempty). -/
theorem parse_qsl_vals (qs : List Char) :
    ∀ kv ∈ parse_qsl_model qs, kv.2 ≠ [] := by
  intro kv hkv
  simp only [parse_qsl_model] at hkv
  split_ifs at hkv with hq
  · simp at hkv
  · rw [List.mem_filterMap] at hkv
    obtain ⟨field, _, hsome⟩ := hkv
    split_ifs at hsome with hf
    rcases hbr : breakAtFirst '=' field with ⟨name, vOpt⟩
    rw [hbr] at hsome
    rcases vOpt with _ | value
    · simp at hsome
    · have hsome2 : (if value = [] then none
          else some (unquote (plusToSpace name), unquote (plusToSpace value)))
          = some kv := hsome
      split_ifs at hsome2 with hv
      injection hsome2 with hsome2
      rw [← hsome2]
      show unquote (plusToSpace value) ≠ []
      apply unquote_ne_nil
      simp [plusToSpace, hv]

/-- The `parse_qs` invariants transported through the fold. -/
theorem foldl_dictAppend_facts :
    ∀ (l : List (List Char × List Char))
      (acc : List (List Char × List (List Char))),
      (∀ kv ∈ l, kv.2 ≠ []) →
      (acc.map Prod.fst).Nodup → (∀ e ∈ acc, e.2 ≠ []) →
      (∀ e ∈ acc, ∀ v ∈ e.2, v ≠ []) →
      ((List.foldl dictAppend acc l).map Prod.fst).Nodup
        ∧ (∀ e ∈ List.foldl dictAppend acc l, e.2 ≠ [])
        ∧ (∀ e ∈ List.foldl dictAppend acc l, ∀ v ∈ e.2, v ≠ []) := by
  intro l
  induction l with
  | nil => intro acc _ h1 h2 h3; exact ⟨h1, h2, h3⟩
  | cons kv rest ih =>
    intro acc hl h1 h2 h3
    simp only [List.foldl_cons]
    exact ih _ (fun x hx => hl x (List.mem_cons_of_mem _ hx))
      (dictAppend_nodup _ _ h1) (dictAppend_vals _ _ h2)
      (dictAppend_valstrings _ _ h3 (hl kv (List.mem_cons_self _ _)))

/-- The `parse_qs` dictionary has distinct keys, nonempty value lists
and nonempty value strings. -/
theorem parse_qs_facts (qs : List Char) :
    ((parse_qs_model qs).map Prod.fst).Nodup
      ∧ (∀ e ∈ parse_qs_model qs, e.2 ≠ [])
      ∧ (∀ e ∈ parse_qs_model qs, ∀ v ∈ e.2, v ≠ []) :=
  foldl_dictAppend_facts (parse_qsl_model qs) [] (parse_qsl_vals qs)
    (by simp) (by simp) (by simp)

/-- Appending a pair with a fresh key adds a new dictionary entry. -/
theorem dictAppend_new (acc : List (List Char × List (List Char)))
    (k : List Char) (v : List Char) (h : ¬ k ∈ acc.map Prod.fst) :
    dictAppend acc (k, v) = acc ++ [(k, [v])] := by
  induction acc with
  | nil => rfl
  | cons e rest ih =>
    obtain ⟨k0, vs⟩ := e
    simp only [List.map_cons, List.mem_cons] at h
    push_neg at h
    have hne : ¬ (k0 = k) := fun hc => h.1 (Eq.symm hc)
    simp only [dictAppend, if_neg hne, List.cons_append]
    rw [ih h.2]

/-- Appending a pair whose key owns the last entry extends that entry. -/
theorem dictAppend_last (acc : List (List Char × List (List Char)))
    (k : List Char) (us : List (List Char)) (v : List Char)
    (h : ¬ k ∈ acc.map Prod.fst) :
    dictAppend (acc ++ [(k, us)]) (k, v) = acc ++ [(k, us ++ [v])] := by
  induction acc with
  | nil => simp [dictAppend]
  | cons e rest ih =>
    obtain ⟨k0, vs⟩ := e
    simp only [List.map_cons, List.mem_cons] at h
    push_neg at h
    have hne : ¬ (k0 = k) := fun hc => h.1 (Eq.symm hc)
    simp only [List.cons_append, dictAppend, if_neg hne, List.append_eq]
    rw [ih h.2]

/-- Folding a run of pairs with one fresh key extends that key's entry
value by value. -/
theorem foldl_dictAppend_run (vs : List (List Char)) :
    ∀ (acc : List (List Char × List (List Char))) (k : List Char)
      (us : List (List Char)), ¬ k ∈ acc.map Prod.fst →
      List.foldl dictAppend (acc ++ [(k, us)])
          (vs.map (fun v => (k, v)))
        = acc ++ [(k, us ++ vs)] := by
  induction vs with
  | nil => intro acc k us _; simp
  | cons v vs ih =>
    intro acc k us h
    simp only [List.map_cons, List.foldl_cons]
    rw [dictAppend_last acc k us v h, ih acc k (us ++ [v]) h]
    simp

/-- Folding the flattened pairs of a dictionary with distinct keys and
nonempty value lists rebuilds the dictionary. -/
theorem foldl_dictAppend_flat :
    ∀ (pairs : List (List Char × List (List Char)))
      (acc : List (List Char × List (List Char))),
      (pairs.map Prod.fst).Nodup →
      (∀ kv ∈ pairs, ¬ kv.1 ∈ acc.map Prod.fst) →
      (∀ kv ∈ pairs, kv.2 ≠ []) →
      List.foldl dictAppend acc (flatPairs pairs) = acc ++ pairs := by
  intro pairs
  induction pairs with
  | nil => intro acc _ _ _; simp [flatPairs]
  | cons kv rest ih =>
    intro acc hnd hdisj hvne
    obtain ⟨k, vs⟩ := kv
    have hflat : flatPairs ((k, vs) :: rest)
        = vs.map (fun v => (k, v)) ++ flatPairs rest := by
      simp [flatPairs]
    rw [hflat, List.foldl_append]
    rcases vs with _ | ⟨v0, vs'⟩
    · exact absurd rfl (hvne (k, []) (List.mem_cons_self _ _))
    · have hknot : ¬ k ∈ acc.map Prod.fst :=
        hdisj (k, v0 :: vs') (List.mem_cons_self _ _)
      have hfirst : List.foldl dictAppend acc
          ((v0 :: vs').map (fun v => (k, v)))
          = acc ++ [(k, v0 :: vs')] := by
        simp only [List.map_cons, List.foldl_cons]
        rw [dictAppend_new acc k v0 hknot,
          foldl_dictAppend_run vs' acc k [v0] hknot]
        rfl
      simp only [List.map_cons, List.nodup_cons] at hnd
      have hdisj' : ∀ kv ∈ rest,
          ¬ kv.1 ∈ (acc ++ [(k, v0 :: vs')]).map Prod.fst := by
        intro kv' hkv'
        simp only [List.map_append, List.mem_append, List.map_cons,
          List.mem_singleton, List.map_nil]
        push_neg
        refine ⟨fun hc => hdisj kv' (List.mem_cons_of_mem _ hkv') hc, ?_⟩
        intro hc
        exact hnd.1 (hc ▸ List.mem_map_of_mem Prod.fst hkv')
      rw [hfirst, ih (acc ++ [(k, v0 :: vs')]) hnd.2 hdisj'
        (fun x hx => hvne x (List.mem_cons_of_mem _ hx))]
      simp

/-- A sorted pair list is a fixed point of `sortPairs`. -/
theorem sortPairs_fix (l : List (List Char × List (List Char))) :
    sortPairs (sortPairs l) = sortPairs l := by
  haveI : IsTotal (List Char × List (List Char))
      (fun a b => pairLe a b = true) := ⟨by
    intro a b
    have := pairLe_total a b
    rcases Bool.or_eq_true_iff.1 this with h1 | h1
    · exact Or.inl h1
    · exact Or.inr h1⟩
  haveI : IsTrans (List Char × List (List Char))
      (fun a b => pairLe a b = true) := ⟨pairLe_trans⟩
  exact List.Sorted.insertionSort_eq
    (List.sorted_insertionSort (fun a b => pairLe a b = true) l)

/-- A sorted, tracking-free, duplicate-free dictionary is a fixed point
of the filter–sort–re-encode query canonicalization. -/
theorem canonicalQuery_fix (S : List (List Char × List (List Char)))
    (hnd : (S.map Prod.fst).Nodup)
    (hvl : ∀ e ∈ S, e.2 ≠ [])
    (hvs : ∀ e ∈ S, ∀ v ∈ e.2, v ≠ [])
    (hpred : ∀ e ∈ S, (!(trackingParams.contains e.1)) = true)
    (hsorted : sortPairs S = S) :
    canonicalQuery (urlencode_model S) = urlencode_model S := by
  have hFLv : ∀ kv ∈ flatPairs S, kv.2 ≠ [] := by
    intro kv hkv
    simp only [flatPairs, List.mem_flatMap, List.mem_map] at hkv
    obtain ⟨e, he, v, hv, rfl⟩ := hkv
    exact hvs e he v hv
  have hqsl : parse_qsl_model (urlencode_model S) = flatPairs S := by
    rw [urlencode_eq]
    exact parse_qsl_fields (flatPairs S) hFLv
  have hqs : parse_qs_model (urlencode_model S) = S := by
    simp only [parse_qs_model, hqsl]
    rw [foldl_dictAppend_flat S [] hnd (by simp) hvl]
    rw [List.nil_append]
  have hfil : S.filter (fun kv => !(trackingParams.contains kv.1)) = S :=
    List.filter_eq_self.mpr hpred
  simp only [canonicalQuery, hqs, hfil, hsorted]

/-- The query canonicalization of `canonicalize_url` is idempotent. -/
theorem canonicalQuery_idem (x : List Char) :
    canonicalQuery (canonicalQuery x) = canonicalQuery x := by
  obtain ⟨hnd, hvl, hvs⟩ := parse_qs_facts x
  have hshow : canonicalQuery x = urlencode_model (sortPairs
      ((parse_qs_model x).filter
        (fun kv => !(trackingParams.contains kv.1)))) := rfl
  set F := (parse_qs_model x).filter
    (fun kv => !(trackingParams.contains kv.1)) with hFdef
  set S := sortPairs F with hSdef
  have hSperm : S.Perm F := List.perm_insertionSort _ F
  have hFsub : F.Sublist (parse_qs_model x) := List.filter_sublist _
  have hFnd : (F.map Prod.fst).Nodup :=
    List.Nodup.sublist (hFsub.map Prod.fst) hnd
  have hSnd : (S.map Prod.fst).Nodup :=
    ((hSperm.map Prod.fst).nodup_iff).mpr hFnd
  have hSmemD : ∀ e ∈ S, e ∈ parse_qs_model x :=
    fun e he => List.mem_of_mem_filter (hSperm.mem_iff.mp he)
  have hSvl : ∀ e ∈ S, e.2 ≠ [] := fun e he => hvl e (hSmemD e he)
  have hSvs : ∀ e ∈ S, ∀ v ∈ e.2, v ≠ [] := fun e he => hvs e (hSmemD e he)
  have hSpred : ∀ e ∈ S, (!(trackingParams.contains e.1)) = true := by
    intro e he
    have hmem : e ∈ F := hSperm.mem_iff.mp he
    rw [hFdef] at hmem
    exact @List.of_mem_filter _ (fun kv => !(trackingParams.contains kv.1))
      e (parse_qs_model x) hmem
  have hsorted : sortPairs S = S := sortPairs_fix F
  rw [hshow]
  exact canonicalQuery_fix S hSnd hSvl hSvs hSpred hsorted

/-- ASCII facts about `Char.toLower`: it stays in ASCII, is idempotent,
and preserves the character classes relevant to URL parsing. -/
theorem asciiLower_aux : ∀ n, n < 128 →
    ((Char.ofNat n).toLower.toNat < 128
      ∧ (Char.ofNat n).toLower.toLower = (Char.ofNat n).toLower
      ∧ (schemeChars.contains (Char.ofNat n) = true →
          schemeChars.contains (Char.ofNat n).toLower = true)
      ∧ ((Char.ofNat n).isAlpha = true →
          (Char.ofNat n).toLower.isAlpha = true)
      ∧ (isNetlocDelim (Char.ofNat n) = false →
          isNetlocDelim (Char.ofNat n).toLower = false)
      ∧ (((Char.ofNat n) == '[') = false →
          ((Char.ofNat n).toLower == '[') = false)
      ∧ (((Char.ofNat n) == ']') = false →
          ((Char.ofNat n).toLower == ']') = false)
      ∧ (goodCh (Char.ofNat n) = true →
          goodCh (Char.ofNat n).toLower = true)) := by decide

/-- `asciiLower_aux`, transported to an arbitrary ASCII character. -/
theorem asciiLower_facts (c : Char) (hc : c.toNat < 128) :
    c.toLower.toNat < 128
      ∧ c.toLower.toLower = c.toLower
      ∧ (schemeChars.contains c = true →
          schemeChars.contains c.toLower = true)
      ∧ (c.isAlpha = true → c.toLower.isAlpha = true)
      ∧ (isNetlocDelim c = false → isNetlocDelim c.toLower = false)
      ∧ ((c == '[') = false → (c.toLower == '[') = false)
      ∧ ((c == ']') = false → (c.toLower == ']') = false)
      ∧ (goodCh c = true → goodCh c.toLower = true) := by
  have h := asciiLower_aux c.toNat hc
  rw [Char.ofNat_toNat] at h
  exact h

/-- Facts about the scheme alphabet. -/
theorem schemeChars_facts : ∀ d ∈ schemeChars, goodCh d = true
    ∧ 32 < d.toNat ∧ (d == ':') = false ∧ d.toNat < 128 := by decide

/-- `str.lower()` is idempotent on ASCII strings. -/
theorem pyLower_idem_ascii {l : List Char} (h : ∀ c ∈ l, c.toNat < 128) :
    pyLower (pyLower l) = pyLower l := by
  simp only [pyLower, List.map_map]
  apply List.map_congr_left
  intro a ha
  exact (asciiLower_facts a (h a ha)).2.1

/-- A list does not contain an element absent from it. -/
theorem contains_eq_false_of {l : List Char} {a : Char} (h : ¬ a ∈ l) :
    l.contains a = false := by
  cases hc : l.contains a
  · rfl
  · exact absurd (List.elem_iff.mp hc) h

/-- The head surviving `dropWhile` falsifies the predicate. -/
theorem dropWhile_head_false {α : Type} {p : α → Bool} :
    ∀ {l : List α} {a : α} {t : List α}, l.dropWhile p = a :: t →
      p a = false := by
  intro l
  induction l with
  | nil => intro a t h; simp at h
  | cons x xs ih =>
    intro a t h
    rw [List.dropWhile_cons] at h
    split_ifs at h with hx
    · exact ih h
    · injection h with h1 _
      rw [← h1]
      simpa using hx

/-- Both parts of `breakAtFirst` avoid the separator in the first
component. -/
theorem breakAtFirst_fst_not {ch : Char} {s : List Char} :
    ∀ c ∈ (breakAtFirst ch s).1, (c == ch) = false := by
  intro c hc
  unfold breakAtFirst at hc
  rcases hdw : s.dropWhile (fun c => !(c == ch)) with _ | ⟨x, r⟩
  · simp only [hdw] at hc
    have := List.dropWhile_eq_nil_iff.mp hdw c hc
    simpa using this
  · simp only [hdw] at hc
    have := List.mem_takeWhile_imp hc
    simpa using this

/-- The first `breakAtFirst` component is made of input characters. -/
theorem breakAtFirst_fst_mem {ch : Char} {s : List Char} :
    ∀ c ∈ (breakAtFirst ch s).1, c ∈ s := by
  intro c hc
  unfold breakAtFirst at hc
  rcases hdw : s.dropWhile (fun c => !(c == ch)) with _ | ⟨x, r⟩
  · simp only [hdw] at hc
    exact hc
  · simp only [hdw] at hc
    exact List.takeWhile_subset _ hc

/-- The second `breakAtFirst` component is made of input characters. -/
theorem breakAtFirst_some_mem {ch : Char} {s a r : List Char}
    (h : breakAtFirst ch s = (a, some r)) : ∀ c ∈ r, c ∈ s := by
  intro c hc
  unfold breakAtFirst at h
  rcases hdw : s.dropWhile (fun c => !(c == ch)) with _ | ⟨x, rr⟩
  · rw [hdw] at h
    simp at h
  · rw [hdw] at h
    simp only [Prod.mk.injEq, Option.some.injEq] at h
    have hsub : (x :: rr).Sublist s := hdw ▸ List.dropWhile_sublist _
    exact hsub.subset (List.mem_cons_of_mem x (h.2 ▸ hc))

/-- The remainder returned by `splitScheme` is made of input
characters. -/
theorem splitScheme_snd_mem (x : List Char) :
    ∀ c ∈ (splitScheme x).2, c ∈ x := by
  intro c hc
  rcases hbr : breakAtFirst ':' x with ⟨pre, rOpt⟩
  rcases rOpt with _ | rest
  · have hval : splitScheme x = ([], x) := by
      unfold splitScheme
      rw [hbr]
    rw [hval] at hc
    exact hc
  · rcases pre with _ | ⟨c0, pre'⟩
    · have hval : splitScheme x = ([], x) := by
        unfold splitScheme
        rw [hbr]
      rw [hval] at hc
      exact hc
    · by_cases hcond : (decide (c0.toNat < 128) && c0.isAlpha
          && (c0 :: pre').all (fun d => schemeChars.contains d)) = true
      · have hval : splitScheme x = (pyLower (c0 :: pre'), rest) := by
          unfold splitScheme
          rw [hbr]
          exact if_pos hcond
        rw [hval] at hc
        exact breakAtFirst_some_mem hbr c hc
      · have hval : splitScheme x = ([], x) := by
          unfold splitScheme
          rw [hbr]
          exact if_neg hcond
        rw [hval] at hc
        exact hc

/-- Shape of a recognised scheme: all scheme characters, an ASCII
letter first, and already lower-case. -/
theorem splitScheme_range (x : List Char) :
    (splitScheme x).1 = [] ∨
      ((splitScheme x).1.all (fun d => schemeChars.contains d) = true
        ∧ (∃ c rest, (splitScheme x).1 = c :: rest
            ∧ c.toNat < 128 ∧ c.isAlpha = true)
        ∧ pyLower (splitScheme x).1 = (splitScheme x).1) := by
  rcases hbr : breakAtFirst ':' x with ⟨pre, rOpt⟩
  rcases rOpt with _ | rest
  · left
    have hval : splitScheme x = ([], x) := by
      unfold splitScheme
      rw [hbr]
    rw [hval]
  · rcases pre with _ | ⟨c0, pre'⟩
    · left
      have hval : splitScheme x = ([], x) := by
        unfold splitScheme
        rw [hbr]
      rw [hval]
    · by_cases hcond : (decide (c0.toNat < 128) && c0.isAlpha
          && (c0 :: pre').all (fun d => schemeChars.contains d)) = true
      · right
        have hval : splitScheme x = (pyLower (c0 :: pre'), rest) := by
          unfold splitScheme
          rw [hbr]
          exact if_pos hcond
        rw [hval]
        have hcond' := hcond
        simp only [Bool.and_eq_true, decide_eq_true_eq] at hcond'
        obtain ⟨⟨h128, halpha⟩, hall⟩ := hcond'
        have hall' := List.all_eq_true.mp hall
        have hasc : ∀ d ∈ c0 :: pre', d.toNat < 128 := by
          intro d hd
          exact (schemeChars_facts d
            (List.elem_iff.mp (hall' d hd))).2.2.2
        refine ⟨?_, ?_, ?_⟩
        · rw [List.all_eq_true]
          intro d hd
          simp only [pyLower, List.mem_map] at hd
          obtain ⟨d0, hd0, rfl⟩ := hd
          exact (asciiLower_facts d0 (hasc d0 hd0)).2.2.1 (hall' d0 hd0)
        · refine ⟨c0.toLower, pyLower pre', rfl, ?_, ?_⟩
          · exact (asciiLower_facts c0 (by omega)).1
          · exact (asciiLower_facts c0 (by omega)).2.2.2.1 halpha
        · exact pyLower_idem_ascii hasc
      · left
        have hval : splitScheme x = ([], x) := by
          unfold splitScheme
          rw [hbr]
          exact if_neg hcond
        rw [hval]

/-- `urlsplitModel` is input cleaning, scheme recognition, and
`urlsplitRest`. -/
theorem urlsplitModel_decomp (u : List Char) :
    urlsplitModel u = urlsplitRest
      (splitScheme ((u.dropWhile (fun c => c.toNat ≤ 32)).filter
        (fun c => !(c == '\t' || c == '\r' || c == '\n')))).1
      (splitScheme ((u.dropWhile (fun c => c.toNat ≤ 32)).filter
        (fun c => !(c == '\t' || c == '\r' || c == '\n')))).2 := by
  simp only [urlsplitModel, urlsplitRest, urlsplitFq]

/-- When `breakAtFirst` finds no separator, the input is
separator-free. -/
theorem breakAtFirst_none_not {ch : Char} {s : List Char}
    (h : (breakAtFirst ch s).2 = none) : ∀ c ∈ s, (c == ch) = false := by
  intro c hc
  unfold breakAtFirst at h
  rcases hdw : s.dropWhile (fun c => !(c == ch)) with _ | ⟨x, rr⟩
  · have := List.dropWhile_eq_nil_iff.mp hdw c hc
    simpa using this
  · rw [hdw] at h
    simp at h

/-- Character classes of the components produced by `urlsplitFq`. -/
theorem urlsplitFq_range {scheme netloc url3 : List Char}
    {s n pa q f : List Char}
    (h : urlsplitFq scheme netloc url3 = some (s, n, pa, q, f))
    (hgood : ∀ c ∈ url3, goodCh c = true) :
    s = scheme ∧ n = netloc
      ∧ (∀ c ∈ pa, (c == '#') = false ∧ (c == '?') = false
          ∧ goodCh c = true) := by
  have hu4hash : ∀ c ∈ (if ((breakAtFirst '#' url3).2).isSome = true
      then (breakAtFirst '#' url3).1 else url3), (c == '#') = false := by
    by_cases hfr : ((breakAtFirst '#' url3).2).isSome = true
    · rw [if_pos hfr]
      exact breakAtFirst_fst_not
    · rw [if_neg hfr]
      exact breakAtFirst_none_not (Option.not_isSome_iff_eq_none.mp hfr)
  have hu4mem : ∀ c ∈ (if ((breakAtFirst '#' url3).2).isSome = true
      then (breakAtFirst '#' url3).1 else url3), c ∈ url3 := by
    by_cases hfr : ((breakAtFirst '#' url3).2).isSome = true
    · rw [if_pos hfr]
      exact breakAtFirst_fst_mem
    · rw [if_neg hfr]
      exact fun c hc => hc
  simp only [urlsplitFq] at h
  simp only [Option.some.injEq, Prod.mk.injEq] at h
  obtain ⟨hs, hn, hpa, _, _⟩ := h
  subst hs
  subst hn
  refine ⟨rfl, rfl, ?_⟩
  intro c hc
  rw [← hpa] at hc
  by_cases hqr : ((breakAtFirst '?' (if ((breakAtFirst '#' url3).2).isSome
      = true then (breakAtFirst '#' url3).1 else url3)).2).isSome = true
  · rw [if_pos hqr] at hc
    have hmem4 := hu4mem c (breakAtFirst_fst_mem c hc)
    exact ⟨hu4hash c (breakAtFirst_fst_mem c hc),
      breakAtFirst_fst_not c hc, hgood c hmem4⟩
  · rw [if_neg hqr] at hc
    exact ⟨hu4hash c hc,
      breakAtFirst_none_not (Option.not_isSome_iff_eq_none.mp hqr) c hc,
      hgood c (hu4mem c hc)⟩

/-- Character classes of the components produced by `urlsplitRest`. -/
theorem urlsplitRest_range {scheme url2 : List Char}
    {s n pa q f : List Char}
    (h : urlsplitRest scheme url2 = some (s, n, pa, q, f))
    (hgood2 : ∀ c ∈ url2, goodCh c = true) :
    s = scheme
      ∧ (∀ c ∈ n, c.toNat < 128 ∧ isNetlocDelim c = false
          ∧ (c == '[') = false ∧ (c == ']') = false ∧ goodCh c = true)
      ∧ (∀ c ∈ pa, (c == '#') = false ∧ (c == '?') = false
          ∧ goodCh c = true) := by
  by_cases hpre : ((lstr "//").isPrefixOf url2) = true
  · simp only [urlsplitRest, if_pos hpre] at h
    split_ifs at h with hg
    have hg1 : ((url2.drop 2).takeWhile
        (fun c => !(isNetlocDelim c))).contains '[' = false := by
      cases hcb : ((url2.drop 2).takeWhile
          (fun c => !(isNetlocDelim c))).contains '['
      · rfl
      · exact absurd (by rw [hcb]; simp) hg
    have hg2 : ((url2.drop 2).takeWhile
        (fun c => !(isNetlocDelim c))).contains ']' = false := by
      cases hcb : ((url2.drop 2).takeWhile
          (fun c => !(isNetlocDelim c))).contains ']'
      · rfl
      · exact absurd (by rw [hcb]; simp) hg
    have hg3 : ((url2.drop 2).takeWhile (fun c => !(isNetlocDelim c))).all
        (fun c => decide (c.toNat < 128)) = true := by
      cases hall : ((url2.drop 2).takeWhile
          (fun c => !(isNetlocDelim c))).all (fun c => decide (c.toNat < 128))
      · exact absurd (by rw [hall]; simp) hg
      · rfl
    obtain ⟨hs, hn, hpa⟩ := urlsplitFq_range h (by
      intro c hc
      exact hgood2 c (List.drop_subset _ _
        ((List.dropWhile_sublist _).subset hc)))
    subst hs
    subst hn
    refine ⟨rfl, ?_, hpa⟩
    intro c hc
    refine ⟨?_, ?_, ?_, ?_, ?_⟩
    · have := List.all_eq_true.mp hg3 c hc
      exact of_decide_eq_true this
    · have := List.mem_takeWhile_imp hc
      simpa using this
    · rw [beq_eq_false_iff_ne]
      intro he
      subst he
      have h2 : ((url2.drop 2).takeWhile
          (fun c => !(isNetlocDelim c))).contains '[' = true :=
        List.elem_iff.mpr hc
      rw [h2] at hg1
      exact Bool.noConfusion hg1
    · rw [beq_eq_false_iff_ne]
      intro he
      subst he
      have h2 : ((url2.drop 2).takeWhile
          (fun c => !(isNetlocDelim c))).contains ']' = true :=
        List.elem_iff.mpr hc
      rw [h2] at hg2
      exact Bool.noConfusion hg2
    · exact hgood2 c (List.drop_subset _ _
        (List.takeWhile_subset _ hc))
  · simp only [urlsplitRest, if_neg hpre] at h
    split_ifs at h with hg
    obtain ⟨hs, hn, hpa⟩ := urlsplitFq_range h hgood2
    subst hs
    subst hn
    refine ⟨rfl, ?_, hpa⟩
    intro c hc
    simp at hc

/-- Character classes of the components produced by `urlsplitModel`. -/
theorem urlsplit_range {u : List Char}
    {scheme netloc path query fragment : List Char}
    (hp : urlsplitModel u = some (scheme, netloc, path, query, fragment)) :
    (scheme = [] ∨ (scheme.all (fun d => schemeChars.contains d) = true
      ∧ (∃ c rest, scheme = c :: rest ∧ c.toNat < 128 ∧ c.isAlpha = true)
      ∧ pyLower scheme = scheme))
    ∧ (∀ c ∈ netloc, c.toNat < 128 ∧ isNetlocDelim c = false
        ∧ (c == '[') = false ∧ (c == ']') = false ∧ goodCh c = true)
    ∧ (∀ c ∈ path, (c == '#') = false ∧ (c == '?') = false
        ∧ goodCh c = true) := by
  rw [urlsplitModel_decomp] at hp
  have hu2good : ∀ c ∈ (splitScheme ((u.dropWhile
      (fun c => c.toNat ≤ 32)).filter
      (fun c => !(c == '\t' || c == '\r' || c == '\n')))).2,
      goodCh c = true := by
    intro c hc
    exact (List.mem_filter.mp (splitScheme_snd_mem _ c hc)).2
  obtain ⟨hs, hn, hpa⟩ := urlsplitRest_range hp hu2good
  subst hs
  exact ⟨splitScheme_range _, hn, hpa⟩

/-- Both `splitParamsModel` components are made of input characters. -/
theorem splitParams_mem (x : List Char) :
    (∀ c ∈ (splitParamsModel x).1, c ∈ x)
      ∧ (∀ c ∈ (splitParamsModel x).2, c ∈ x) := by
  have hsegmem : ∀ c ∈ (x.reverse.takeWhile (fun c => !(c == '/'))).reverse,
      c ∈ x := by
    intro c hc
    rw [List.mem_reverse] at hc
    have := List.takeWhile_subset _ hc
    rw [List.mem_reverse] at this
    exact this
  by_cases hsl : x.contains '/' = true
  · rcases hbr : breakAtFirst ';'
        ((x.reverse.takeWhile (fun c => !(c == '/'))).reverse)
        with ⟨before, aOpt⟩
    rcases aOpt with _ | after
    · have hval : splitParamsModel x = (x, []) := by
        unfold splitParamsModel
        rw [if_pos hsl]
        simp only [hbr]
      rw [hval]
      exact ⟨fun c hc => hc, fun c hc => absurd hc (List.not_mem_nil c)⟩
    · have hval : splitParamsModel x
          = (x.take (x.length
              - ((x.reverse.takeWhile (fun c => !(c == '/'))).reverse).length)
            ++ before, after) := by
        unfold splitParamsModel
        rw [if_pos hsl]
        simp only [hbr]
      rw [hval]
      constructor
      · intro c hc
        rcases List.mem_append.mp hc with h | h
        · exact List.take_subset _ _ h
        · have hm : c ∈ (breakAtFirst ';'
              ((x.reverse.takeWhile (fun c => !(c == '/'))).reverse)).1 := by
            rw [hbr]
            exact h
          exact hsegmem c (breakAtFirst_fst_mem c hm)
      · intro c hc
        exact hsegmem c (breakAtFirst_some_mem hbr c hc)
  · rcases hbr : breakAtFirst ';' x with ⟨before, aOpt⟩
    rcases aOpt with _ | after
    · have hval : splitParamsModel x = (x, []) := by
        unfold splitParamsModel
        rw [if_neg hsl]
        simp only [hbr]
      rw [hval]
      exact ⟨fun c hc => hc, fun c hc => absurd hc (List.not_mem_nil c)⟩
    · have hval : splitParamsModel x = (before, after) := by
        unfold splitParamsModel
        rw [if_neg hsl]
        simp only [hbr]
      rw [hval]
      constructor
      · intro c hc
        have hm : c ∈ (breakAtFirst ';' x).1 := by
          rw [hbr]
          exact hc
        exact breakAtFirst_fst_mem c hm
      · intro c hc
        exact breakAtFirst_some_mem hbr c hc

/-- `rstrip("/")` keeps only input characters. -/
theorem rstripSlash_mem (s : List Char) : ∀ c ∈ rstripSlash s, c ∈ s := by
  intro c hc
  simp only [rstripSlash] at hc
  rw [List.mem_reverse] at hc
  have := (List.dropWhile_sublist _).subset hc
  rw [List.mem_reverse] at this
  exact this

/-- Character classes of the components produced by `urlparseModel`. -/
theorem urlparse_range {u : List Char} {p : UrlParts}
    (hp : urlparseModel u = some p) :
    (p.scheme = [] ∨ (p.scheme.all (fun d => schemeChars.contains d) = true
      ∧ (∃ c rest, p.scheme = c :: rest ∧ c.toNat < 128
          ∧ c.isAlpha = true)
      ∧ pyLower p.scheme = p.scheme))
    ∧ (∀ c ∈ p.netloc, c.toNat < 128 ∧ isNetlocDelim c = false
        ∧ (c == '[') = false ∧ (c == ']') = false ∧ goodCh c = true)
    ∧ (∀ c ∈ p.path, (c == '#') = false ∧ (c == '?') = false
        ∧ goodCh c = true)
    ∧ (∀ c ∈ p.params, (c == '#') = false ∧ (c == '?') = false
        ∧ goodCh c = true) := by
  unfold urlparseModel at hp
  rcases hsp : urlsplitModel u
      with _ | ⟨scheme, netloc, url', query, fragment⟩
  · rw [hsp] at hp
    simp at hp
  · rw [hsp] at hp
    obtain ⟨hS, hN, hP⟩ := urlsplit_range hsp
    have hp2 : (if (usesParams.contains scheme && url'.contains ';') = true
        then some (⟨scheme, netloc, (splitParamsModel url').1,
          (splitParamsModel url').2, query, fragment⟩ : UrlParts)
        else some (⟨scheme, netloc, url', [], query, fragment⟩ : UrlParts))
        = some p := hp
    split_ifs at hp2 with hcond
    · injection hp2 with hp2
      subst hp2
      refine ⟨hS, hN, ?_, ?_⟩
      · intro c hc
        exact hP c ((splitParams_mem url').1 c hc)
      · intro c hc
        exact hP c ((splitParams_mem url').2 c hc)
    · injection hp2 with hp2
      subst hp2
      refine ⟨hS, hN, hP, ?_⟩
      intro c hc
      exact absurd hc (List.not_mem_nil c)

/-- Evaluation of the fragment/query tail on a reassembled canonical
string. -/
theorem urlsplitFq_eval (scheme netloc path0 query : List Char)
    (hp : ∀ c ∈ path0, (c == '#') = false ∧ (c == '?') = false)
    (hq : ∀ c ∈ query, (c == '#') = false ∧ (c == '?') = false) :
    urlsplitFq scheme netloc
        (path0 ++ (if query = [] then [] else '?' :: query))
      = some (scheme, netloc, path0, query, []) := by
  by_cases hqe : query = []
  · subst hqe
    rw [if_pos rfl, List.append_nil]
    have hbr1 : breakAtFirst '#' path0 = (path0, none) :=
      breakAtFirst_not_mem (fun c hc => (hp c hc).1)
    have hbr2 : breakAtFirst '?' path0 = (path0, none) :=
      breakAtFirst_not_mem (fun c hc => (hp c hc).2)
    simp [urlsplitFq, hbr1, hbr2]
  · rw [if_neg hqe]
    have h1 : ∀ c ∈ path0 ++ '?' :: query, (c == '#') = false := by
      intro c hc
      rcases List.mem_append.mp hc with h | h
      · exact (hp c h).1
      · rcases List.mem_cons.mp h with rfl | h
        · decide
        · exact (hq c h).1
    have hbr1 : breakAtFirst '#' (path0 ++ '?' :: query)
        = (path0 ++ '?' :: query, none) := breakAtFirst_not_mem h1
    have hbr2 : breakAtFirst '?' (path0 ++ '?' :: query)
        = (path0, some query) :=
      breakAtFirst_append query (fun a ha => (hp a ha).2)
    simp [urlsplitFq, hbr1, hbr2]

/-- Evaluation of `urlsplitRest` on a reassembled string that carries a
netloc. -/
theorem urlsplitRest_eval_netloc (scheme netloc rest : List Char)
    (hn : ∀ c ∈ netloc, c.toNat < 128 ∧ isNetlocDelim c = false
      ∧ (c == '[') = false ∧ (c == ']') = false)
    (hrest : rest = [] ∨ ∃ d t, rest = d :: t ∧ isNetlocDelim d = true) :
    urlsplitRest scheme (lstr "//" ++ (netloc ++ rest))
      = urlsplitFq scheme netloc rest := by
  have hpref : (lstr "//").isPrefixOf (lstr "//" ++ (netloc ++ rest))
      = true := by
    rw [List.isPrefixOf_iff_prefix]
    exact List.prefix_append _ _
  have hdrop : (lstr "//" ++ (netloc ++ rest)).drop 2 = netloc ++ rest :=
    rfl
  have htake : (netloc ++ rest).takeWhile (fun c => !(isNetlocDelim c))
      = netloc := by
    rcases hrest with rfl | ⟨d, t, rfl, hd⟩
    · rw [List.append_nil]
      exact takeWhile_all (fun a ha => by simp [(hn a ha).2.1])
    · exact takeWhile_append_stop d t
        (fun a ha => by simp [(hn a ha).2.1]) (by simp [hd])
  have hdropw : (netloc ++ rest).dropWhile (fun c => !(isNetlocDelim c))
      = rest := by
    rcases hrest with rfl | ⟨d, t, rfl, hd⟩
    · rw [List.append_nil]
      exact dropWhile_all (fun a ha => by simp [(hn a ha).2.1])
    · exact dropWhile_append_stop d t
        (fun a ha => by simp [(hn a ha).2.1]) (by simp [hd])
  have hnm1 : ¬ ('[' ∈ netloc) := by
    intro hm
    have := (hn '[' hm).2.2.1
    simp at this
  have hnm2 : ¬ (']' ∈ netloc) := by
    intro hm
    have := (hn ']' hm).2.2.2
    simp at this
  have hg3 : netloc.all (fun c => decide (c.toNat < 128)) = true :=
    List.all_eq_true.mpr (fun c hc => decide_eq_true (hn c hc).1)
  simp [urlsplitRest, hpref, hdrop, htake, hdropw, hnm1, hnm2, hg3]

/-- Evaluation of `urlsplitRest` on a reassembled string without a
netloc marker. -/
theorem urlsplitRest_eval_plain (scheme url2 : List Char)
    (hnp : (lstr "//").isPrefixOf url2 = false) :
    urlsplitRest scheme url2 = urlsplitFq scheme [] url2 := by
  simp [urlsplitRest, hnp]

/-- Reassembling a well-formed scheme and remainder reparses to
`urlsplitRest`. -/
theorem urlsplitModel_build (scheme R : List Char)
    (hs1 : scheme.all (fun d => schemeChars.contains d) = true)
    (hs2 : ∃ c rest, scheme = c :: rest ∧ c.toNat < 128
      ∧ c.isAlpha = true)
    (hs3 : pyLower scheme = scheme)
    (hgood : ∀ c ∈ R, goodCh c = true) :
    urlsplitModel (scheme ++ ':' :: R) = urlsplitRest scheme R := by
  obtain ⟨c0, srest, hsch, h128, halpha⟩ := hs2
  have hmemfacts : ∀ d ∈ scheme, goodCh d = true ∧ 32 < d.toNat
      ∧ (d == ':') = false ∧ d.toNat < 128 := fun d hd => schemeChars_facts d
    (List.elem_iff.mp (List.all_eq_true.mp hs1 d hd))
  have hc0 : c0 ∈ scheme := by
    rw [hsch]
    exact List.mem_cons_self _ _
  have hgt32 : ¬ (c0.toNat ≤ 32) := by
    have := (hmemfacts c0 hc0).2.1
    omega
  have hallgood : ∀ c ∈ scheme ++ ':' :: R, goodCh c = true := by
    intro c hc
    rcases List.mem_append.mp hc with h | h
    · exact (hmemfacts c h).1
    · rcases List.mem_cons.mp h with rfl | h
      · decide
      · exact hgood c h
  have h1 : (scheme ++ ':' :: R).dropWhile (fun c => c.toNat ≤ 32)
      = scheme ++ ':' :: R := by
    rw [hsch, List.cons_append, List.dropWhile_cons]
    simp [hgt32]
  have h2 : (scheme ++ ':' :: R).filter
      (fun c => !(c == '\t' || c == '\r' || c == '\n'))
      = scheme ++ ':' :: R :=
    List.filter_eq_self.mpr (fun a ha => hallgood a ha)
  have h3 : splitScheme (scheme ++ ':' :: R) = (scheme, R) := by
    have hnc : ∀ a ∈ scheme, (a == ':') = false :=
      fun a ha => (hmemfacts a ha).2.2.1
    have hbr : breakAtFirst ':' (scheme ++ ':' :: R)
        = (scheme, some R) := breakAtFirst_append R hnc
    unfold splitScheme
    rw [hbr, hsch]
    have hcond : (decide (c0.toNat < 128) && c0.isAlpha
        && (c0 :: srest).all (fun d => schemeChars.contains d)) = true := by
      rw [hsch] at hs1
      simp only [Bool.and_eq_true, decide_eq_true_eq]
      exact ⟨⟨h128, halpha⟩, hs1⟩
    have hite : (if (decide (c0.toNat < 128) && c0.isAlpha
        && (c0 :: srest).all (fun d => schemeChars.contains d)) = true
        then (pyLower (c0 :: srest), R)
        else (([] : List Char), (c0 :: srest) ++ ':' :: R))
        = ((c0 :: srest : List Char), R) := by
      rw [if_pos hcond]
      rw [hsch] at hs3
      rw [hs3]
    exact hite
  rw [urlsplitModel_decomp, h1, h2, h3]

/-- A string is fixed by `str.lower()` when each character is. -/
theorem pyLower_fix {l : List Char} (h : ∀ c ∈ l, c.toLower = c) :
    pyLower l = l := by
  simp only [pyLower]
  calc List.map Char.toLower l = List.map id l := List.map_congr_left h
    _ = l := List.map_id l

/-- `rstrip("/")` output is empty or ends in a non-slash. -/
theorem rstripSlash_last (s : List Char) :
    rstripSlash s = [] ∨ ∃ t d, rstripSlash s = t ++ [d]
      ∧ (d == '/') = false := by
  simp only [rstripSlash]
  rcases hdw : s.reverse.dropWhile (fun c => c == '/') with _ | ⟨d, t⟩
  · left
    rfl
  · right
    refine ⟨t.reverse, d, by simp, ?_⟩
    exact @dropWhile_head_false Char (fun c => c == '/') s.reverse d t hdw

/-- Appending a non-slash-headed suffix does not change whether a
string starts with `//`, provided the string does not end in `/`. -/
theorem prefix2_eq (path rest : List Char)
    (hlast : path = [] ∨ ∃ t d, path = t ++ [d] ∧ (d == '/') = false)
    (hrest : rest = [] ∨ ∃ t', rest = ';' :: t') :
    (lstr "//").isPrefixOf (path ++ rest)
      = (lstr "//").isPrefixOf path := by
  rcases path with _ | ⟨a, path1⟩
  · rcases hrest with rfl | ⟨t', rfl⟩
    · rfl
    · simp [List.isPrefixOf, lstr]
  · rcases path1 with _ | ⟨b, t⟩
    · have ha : (a == '/') = false := by
        rcases hlast with h0 | ⟨t0, d, heq, hd⟩
        · exact absurd h0 (List.cons_ne_nil a [])
        · rcases t0 with _ | ⟨x, xs⟩
          · simp at heq
            rw [heq]
            exact hd
          · simp at heq
      have ha' : ('/' == a) = false := by
        rw [beq_eq_false_iff_ne] at ha ⊢
        exact fun he => ha he.symm
      rcases hrest with rfl | ⟨t', rfl⟩
      · simp
      · simp [List.isPrefixOf, lstr, ha']
    · rcases hrest with rfl | ⟨t', rfl⟩
      · simp
      · simp [List.isPrefixOf, lstr]

/-- A query suffix cannot create a `//` prefix. -/
theorem notPrefix2_ext (pp optQ : List Char)
    (h : (lstr "//").isPrefixOf pp = false)
    (hoq : optQ = [] ∨ ∃ t, optQ = '?' :: t) :
    (lstr "//").isPrefixOf (pp ++ optQ) = false := by
  rcases pp with _ | ⟨w, ws⟩
  · rcases hoq with rfl | ⟨t, rfl⟩
    · rfl
    · simp [List.isPrefixOf, lstr]
  · rcases ws with _ | ⟨w2, ws2⟩
    · rcases hoq with rfl | ⟨t, rfl⟩
      · simp [List.isPrefixOf, lstr]
      · simp [List.isPrefixOf, lstr]
    · simp [List.isPrefixOf, lstr] at h ⊢
      exact h

/-- The slash-completion of `urlunsplit` yields an empty or
slash-headed path. -/
theorem maybeSlash_shape (pp : List Char) :
    (if pp ≠ [] ∧ ¬ (['/'].isPrefixOf pp) then '/' :: pp else pp) = []
      ∨ ∃ t, (if pp ≠ [] ∧ ¬ (['/'].isPrefixOf pp) then '/' :: pp else pp)
        = '/' :: t := by
  rcases pp with _ | ⟨w, ws⟩
  · left
    simp
  · right
    by_cases hw : (['/'].isPrefixOf (w :: ws)) = true
    · have hw' : '/' = w := by
        simp [List.isPrefixOf] at hw
        exact hw
      refine ⟨ws, ?_⟩
      rw [if_neg (by simp [hw])]
      rw [← hw']
    · refine ⟨w :: ws, ?_⟩
      rw [if_pos ⟨List.cons_ne_nil w ws, by simp [hw]⟩]

/-- Reparsing a reassembled canonical URL and canonicalizing again is
the identity, given the split result and the parameter-stability
facts. -/
theorem canonical_reparse (c : List Char) (q : UrlParts)
    (PPOUT : List Char) (R2 : List Char × List Char)
    (hsplitc : urlsplitModel c
      = some (q.scheme, q.netloc, PPOUT, q.query, []))
    (hR2 : (if (usesParams.contains q.scheme && PPOUT.contains ';') = true
      then splitParamsModel PPOUT else (PPOUT, [])) = R2)
    (hstp : rstripSlash R2.1 = q.path)
    (hstq : R2.2 = q.params)
    (hs3q : pyLower q.scheme = q.scheme)
    (hsneq : q.scheme ≠ [])
    (hnlowfix : pyLower q.netloc = q.netloc)
    (hwfix : stripWww q.netloc = q.netloc)
    (hqidem : canonicalQuery q.query = q.query)
    (hfrag : q.fragment = [])
    (hcq : urlunparseModel q = c) :
    canonicalize_url c = some c := by
  have hparse : urlparseModel c
      = some ⟨q.scheme, q.netloc, R2.1, R2.2, q.query, []⟩ := by
    unfold urlparseModel
    rw [hsplitc]
    show (if (usesParams.contains q.scheme && PPOUT.contains ';') = true
        then some (⟨q.scheme, q.netloc, (splitParamsModel PPOUT).1,
          (splitParamsModel PPOUT).2, q.query, []⟩ : UrlParts)
        else some ⟨q.scheme, q.netloc, PPOUT, [], q.query, []⟩)
      = some ⟨q.scheme, q.netloc, R2.1, R2.2, q.query, []⟩
    rw [← hR2]
    split_ifs <;> rfl
  have hcp : canonicalParts
      (⟨q.scheme, q.netloc, R2.1, R2.2, q.query, []⟩ : UrlParts) = q := by
    show (⟨if pyLower q.scheme = [] then lstr "https" else pyLower q.scheme,
        stripWww (pyLower q.netloc), rstripSlash R2.1, R2.2,
        canonicalQuery q.query, []⟩ : UrlParts) = q
    rw [hs3q, if_neg hsneq, hnlowfix, hwfix, hstp, hstq, hqidem, ← hfrag]
  unfold canonicalize_url
  rw [hparse]
  show some (urlunparseModel (canonicalParts
      (⟨q.scheme, q.netloc, R2.1, R2.2, q.query, []⟩ : UrlParts))) = some c
  rw [hcp, hcq]

/-- `fpParamsStable` in terms of `fpStableOn`. -/
theorem fpParamsStable_eq (q : UrlParts) :
    fpParamsStable q = fpStableOn q
      (if q.params = [] then q.path else q.path ++ ';' :: q.params) := rfl

/-- Assembling a canonical-shaped URL and reparsing it canonicalizes to
itself, for either netloc case. -/
theorem canonical_assemble (c : List Char) (q : UrlParts) (ppv : List Char)
    (hs1q : q.scheme.all (fun d => schemeChars.contains d) = true)
    (hs2q : ∃ c0 r0, q.scheme = c0 :: r0 ∧ c0.toNat < 128
      ∧ c0.isAlpha = true)
    (hs3q : pyLower q.scheme = q.scheme)
    (hnq : ∀ ch ∈ q.netloc, ch.toNat < 128 ∧ isNetlocDelim ch = false
      ∧ (ch == '[') = false ∧ (ch == ']') = false ∧ goodCh ch = true)
    (hnlowfix : pyLower q.netloc = q.netloc)
    (hwfix : stripWww q.netloc = q.netloc)
    (hpp : ∀ ch ∈ ppv, (ch == '#') = false ∧ (ch == '?') = false
      ∧ goodCh ch = true)
    (hqq : ∀ ch ∈ q.query, ch.toNat < 128 ∧ (ch == '#') = false
      ∧ (ch == '?') = false ∧ goodCh ch = true)
    (hqidem : canonicalQuery q.query = q.query)
    (hfrag : q.fragment = [])
    (hnore : q.netloc = [] → (lstr "//").isPrefixOf ppv = false)
    (hst2 : fpStableOn q ppv = true)
    (hcu : urlunsplitModel q.scheme q.netloc ppv q.query [] = c)
    (hcq : urlunparseModel q = c) :
    canonicalize_url c = some c := by
  have hsneq : q.scheme ≠ [] := by
    obtain ⟨c0, r0, he, _, _⟩ := hs2q
    rw [he]
    exact List.cons_ne_nil _ _
  have hoq : (if q.query = [] then ([] : List Char) else '?' :: q.query)
      = [] ∨ ∃ t, (if q.query = [] then ([] : List Char)
        else '?' :: q.query) = '?' :: t := by
    by_cases hqe : q.query = []
    · left
      rw [if_pos hqe]
    · right
      exact ⟨q.query, by rw [if_neg hqe]⟩
  have hoqgood : ∀ ch ∈ (if q.query = [] then ([] : List Char)
      else '?' :: q.query), goodCh ch = true := by
    intro ch hch
    by_cases hqe : q.query = []
    · rw [if_pos hqe] at hch
      exact absurd hch (List.not_mem_nil ch)
    · rw [if_neg hqe] at hch
      rcases List.mem_cons.mp hch with rfl | hch
      · decide
      · exact (hqq ch hch).2.2.2
  have hn4 : ∀ ch ∈ q.netloc, ch.toNat < 128 ∧ isNetlocDelim ch = false
      ∧ (ch == '[') = false ∧ (ch == ']') = false := fun ch hch =>
    ⟨(hnq ch hch).1, (hnq ch hch).2.1, (hnq ch hch).2.2.1,
      (hnq ch hch).2.2.2.1⟩
  by_cases hcond : q.netloc ≠ [] ∨ (q.scheme ≠ []
      ∧ usesNetloc.contains q.scheme = true
      ∧ ¬ ((lstr "//").isPrefixOf ppv = true))
  · -- the reassembled URL carries a `//netloc` marker
    have hMSfacts : ∀ ch ∈ (if ppv ≠ [] ∧ ¬ (['/'].isPrefixOf ppv = true)
        then '/' :: ppv else ppv), (ch == '#') = false
        ∧ (ch == '?') = false ∧ goodCh ch = true := by
      intro ch hch
      by_cases hsc : ppv ≠ [] ∧ ¬ (['/'].isPrefixOf ppv = true)
      · rw [if_pos hsc] at hch
        rcases List.mem_cons.mp hch with rfl | hch
        · exact ⟨by decide, by decide, by decide⟩
        · exact hpp ch hch
      · rw [if_neg hsc] at hch
        exact hpp ch hch
    have hunsp : urlunsplitModel q.scheme q.netloc ppv q.query []
        = q.scheme ++ ':' :: (lstr "//" ++ (q.netloc
          ++ ((if ppv ≠ [] ∧ ¬ (['/'].isPrefixOf ppv = true)
              then '/' :: ppv else ppv)
            ++ (if q.query = [] then [] else '?' :: q.query)))) := by
      simp only [urlunsplitModel]
      rw [if_pos hcond, if_pos hsneq,
        if_neg (show ¬ (([] : List Char) ≠ []) by simp)]
      by_cases hqe : q.query = []
      · rw [if_neg (show ¬ (q.query ≠ []) by simp [hqe]), if_pos hqe]
        simp [List.append_assoc]
      · rw [if_pos (show q.query ≠ [] from hqe), if_neg hqe]
        simp [List.append_assoc]
    have hrest : (if ppv ≠ [] ∧ ¬ (['/'].isPrefixOf ppv = true)
        then '/' :: ppv else ppv)
        ++ (if q.query = [] then [] else '?' :: q.query) = []
        ∨ ∃ d t, (if ppv ≠ [] ∧ ¬ (['/'].isPrefixOf ppv = true)
          then '/' :: ppv else ppv)
          ++ (if q.query = [] then [] else '?' :: q.query) = d :: t
          ∧ isNetlocDelim d = true := by
      rcases maybeSlash_shape ppv with hms | ⟨t, hms⟩
      · rw [hms, List.nil_append]
        rcases hoq with h0 | ⟨t, ht⟩
        · left
          exact h0
        · right
          exact ⟨'?', t, ht, by decide⟩
      · right
        rw [hms]
        exact ⟨'/', t ++ (if q.query = [] then [] else '?' :: q.query),
          by simp, by decide⟩
    have hgoodR : ∀ ch ∈ lstr "//" ++ (q.netloc
        ++ ((if ppv ≠ [] ∧ ¬ (['/'].isPrefixOf ppv = true)
            then '/' :: ppv else ppv)
          ++ (if q.query = [] then [] else '?' :: q.query))),
        goodCh ch = true := by
      intro ch hch
      rcases List.mem_append.mp hch with h | h
      · have h2 : lstr "//" = ['/', '/'] := rfl
        rw [h2] at h
        rcases List.mem_cons.mp h with rfl | h
        · decide
        · rcases List.mem_cons.mp h with rfl | h
          · decide
          · exact absurd h (List.not_mem_nil ch)
      · rcases List.mem_append.mp h with h | h
        · exact (hnq ch h).2.2.2.2
        · rcases List.mem_append.mp h with h | h
          · exact (hMSfacts ch h).2.2
          · exact hoqgood ch h
    have hsplitc : urlsplitModel c = some (q.scheme, q.netloc,
        (if ppv ≠ [] ∧ ¬ (['/'].isPrefixOf ppv = true)
          then '/' :: ppv else ppv), q.query, []) := by
      rw [← hcu, hunsp,
        urlsplitModel_build q.scheme _ hs1q hs2q hs3q hgoodR,
        urlsplitRest_eval_netloc q.scheme q.netloc _ hn4 hrest]
      exact urlsplitFq_eval q.scheme q.netloc _ q.query
        (fun ch hch => ⟨(hMSfacts ch hch).1, (hMSfacts ch hch).2.1⟩)
        (fun ch hch => ⟨(hqq ch hch).2.1, (hqq ch hch).2.2.1⟩)
    have hst3 : (rstripSlash (if (usesParams.contains q.scheme
        && ((if ppv ≠ [] ∧ ¬ (['/'].isPrefixOf ppv = true)
            then '/' :: ppv else ppv)).contains ';') = true
        then splitParamsModel (if ppv ≠ [] ∧ ¬ (['/'].isPrefixOf ppv
            = true) then '/' :: ppv else ppv)
        else ((if ppv ≠ [] ∧ ¬ (['/'].isPrefixOf ppv = true)
          then '/' :: ppv else ppv), [])).1 == q.path
        && (if (usesParams.contains q.scheme
          && ((if ppv ≠ [] ∧ ¬ (['/'].isPrefixOf ppv = true)
              then '/' :: ppv else ppv)).contains ';') = true
          then splitParamsModel (if ppv ≠ [] ∧ ¬ (['/'].isPrefixOf ppv
              = true) then '/' :: ppv else ppv)
          else ((if ppv ≠ [] ∧ ¬ (['/'].isPrefixOf ppv = true)
            then '/' :: ppv else ppv), [])).2 == q.params) = true := by
      have h0 := hst2
      simp only [fpStableOn] at h0
      rw [if_pos hcond] at h0
      exact h0
    rw [Bool.and_eq_true, beq_iff_eq, beq_iff_eq] at hst3
    exact canonical_reparse c q _ _ hsplitc rfl hst3.1 hst3.2 hs3q hsneq
      hnlowfix hwfix hqidem hfrag hcq
  · -- no netloc marker in the reassembled URL
    have hnl : q.netloc = [] := by
      by_contra hne
      exact hcond (Or.inl hne)
    have hnp : (lstr "//").isPrefixOf ppv = false := hnore hnl
    have hunsp : urlunsplitModel q.scheme q.netloc ppv q.query []
        = q.scheme ++ ':' :: (ppv
          ++ (if q.query = [] then [] else '?' :: q.query)) := by
      simp only [urlunsplitModel]
      rw [if_neg hcond, if_pos hsneq,
        if_neg (show ¬ (([] : List Char) ≠ []) by simp)]
      by_cases hqe : q.query = []
      · rw [if_neg (show ¬ (q.query ≠ []) by simp [hqe]), if_pos hqe]
        simp
      · rw [if_pos (show q.query ≠ [] from hqe), if_neg hqe]
        simp
    have hpref : (lstr "//").isPrefixOf (ppv
        ++ (if q.query = [] then [] else '?' :: q.query)) = false :=
      notPrefix2_ext ppv _ hnp hoq
    have hgoodR : ∀ ch ∈ ppv
        ++ (if q.query = [] then [] else '?' :: q.query),
        goodCh ch = true := by
      intro ch hch
      rcases List.mem_append.mp hch with h | h
      · exact (hpp ch h).2.2
      · exact hoqgood ch h
    have hsplitc : urlsplitModel c
        = some (q.scheme, q.netloc, ppv, q.query, []) := by
      rw [← hcu, hunsp,
        urlsplitModel_build q.scheme _ hs1q hs2q hs3q hgoodR,
        urlsplitRest_eval_plain q.scheme _ hpref, hnl]
      exact urlsplitFq_eval q.scheme [] ppv q.query
        (fun ch hch => ⟨(hpp ch hch).1, (hpp ch hch).2.1⟩)
        (fun ch hch => ⟨(hqq ch hch).2.1, (hqq ch hch).2.2.1⟩)
    have hst3 : (rstripSlash (if (usesParams.contains q.scheme
        && ppv.contains ';') = true
        then splitParamsModel ppv else (ppv, [])).1 == q.path
        && (if (usesParams.contains q.scheme && ppv.contains ';') = true
          then splitParamsModel ppv else (ppv, [])).2 == q.params)
        = true := by
      have h0 := hst2
      simp only [fpStableOn] at h0
      rw [if_neg hcond] at h0
      exact h0
    rw [Bool.and_eq_true, beq_iff_eq, beq_iff_eq] at hst3
    exact canonical_reparse c q _ _ hsplitc rfl hst3.1 hst3.2 hs3q hsneq
      hnlowfix hwfix hqidem hfrag hcq

/-- C10 (corrected): `canonicalize_url` is idempotent on every URL whose
canonical form (i) does not start its host with another `www.`,
(ii) does not start its path with `//` when the host is empty, and
(iii) has a reparse-stable path/params split (`fpParamsStable`); the
unrestricted claim is false, see the counterexample. -/
theorem canonicalize_url_idempotent (u c : List Char) (p : UrlParts)
    (hp : urlparseModel u = some p)
    (hc : canonicalize_url u = some c)
    (hwww : (lstr "www.").isPrefixOf (canonicalParts p).netloc = false)
    (hre : (canonicalParts p).netloc = [] →
      (lstr "//").isPrefixOf (canonicalParts p).path = false)
    (hst : fpParamsStable (canonicalParts p) = true) :
    canonicalize_url c = some c := by
  set q := canonicalParts p with hqdef
  have hcq : urlunparseModel q = c := by
    unfold canonicalize_url at hc
    rw [hp] at hc
    have hc2 : some (urlunparseModel q) = some c := hc
    injection hc2
  obtain ⟨hSch, hNet, hPath, hParams⟩ := urlparse_range hp
  have hqs : q.scheme.all (fun d => schemeChars.contains d) = true
      ∧ (∃ c0 r0, q.scheme = c0 :: r0 ∧ c0.toNat < 128
          ∧ c0.isAlpha = true)
      ∧ pyLower q.scheme = q.scheme := by
    have hqsdef : q.scheme = if pyLower p.scheme = [] then lstr "https"
        else pyLower p.scheme := by
      rw [hqdef]
      rfl
    by_cases hpe : pyLower p.scheme = []
    · rw [hqsdef, if_pos hpe]
      exact ⟨by decide,
        ⟨'h', lstr "ttps", by decide, by decide, by decide⟩, by decide⟩
    · rcases hSch with h0 | ⟨ha, hb, hcLow⟩
      · exact absurd (by rw [h0]; rfl) hpe
      · rw [hqsdef, if_neg hpe, hcLow]
        exact ⟨ha, hb, hcLow⟩
  obtain ⟨hs1q, hs2q, hs3q⟩ := hqs
  have hnq : ∀ ch ∈ q.netloc, ch.toNat < 128 ∧ isNetlocDelim ch = false
      ∧ (ch == '[') = false ∧ (ch == ']') = false ∧ goodCh ch = true := by
    intro ch hch
    have hch2 : ch ∈ stripWww (pyLower p.netloc) := by
      rw [hqdef] at hch
      exact hch
    have hmem : ch ∈ pyLower p.netloc := by
      unfold stripWww at hch2
      split_ifs at hch2 with hw
      · exact List.drop_subset _ _ hch2
      · exact hch2
    simp only [pyLower, List.mem_map] at hmem
    obtain ⟨d, hd, rfl⟩ := hmem
    obtain ⟨hd1, hd2, hd3, hd4, hd5⟩ := hNet d hd
    obtain ⟨f1, _, _, _, f5, f6, f7, f8⟩ := asciiLower_facts d hd1
    exact ⟨f1, f5 hd2, f6 hd3, f7 hd4, f8 hd5⟩
  have hnfix : ∀ ch ∈ q.netloc, ch.toLower = ch := by
    intro ch hch
    have hch2 : ch ∈ stripWww (pyLower p.netloc) := by
      rw [hqdef] at hch
      exact hch
    have hmem : ch ∈ pyLower p.netloc := by
      unfold stripWww at hch2
      split_ifs at hch2 with hw
      · exact List.drop_subset _ _ hch2
      · exact hch2
    simp only [pyLower, List.mem_map] at hmem
    obtain ⟨d, hd, rfl⟩ := hmem
    exact (asciiLower_facts d (hNet d hd).1).2.1
  have hnlowfix : pyLower q.netloc = q.netloc := pyLower_fix hnfix
  have hwfix : stripWww q.netloc = q.netloc := by
    unfold stripWww
    rw [if_neg (by simp [hwww])]
  have hpq : ∀ ch ∈ q.path, (ch == '#') = false ∧ (ch == '?') = false
      ∧ goodCh ch = true := by
    intro ch hch
    have hch2 : ch ∈ rstripSlash p.path := by
      rw [hqdef] at hch
      exact hch
    exact hPath ch (rstripSlash_mem p.path ch hch2)
  have hprq : ∀ ch ∈ q.params, (ch == '#') = false ∧ (ch == '?') = false
      ∧ goodCh ch = true := by
    intro ch hch
    have hch2 : ch ∈ p.params := by
      rw [hqdef] at hch
      exact hch
    exact hParams ch hch2
  have hqq : ∀ ch ∈ q.query, ch.toNat < 128 ∧ (ch == '#') = false
      ∧ (ch == '?') = false ∧ goodCh ch = true := by
    intro ch hch
    have hch2 : ch ∈ urlencode_model (sortPairs
        ((parse_qs_model p.query).filter
          (fun kv => !(trackingParams.contains kv.1)))) := by
      rw [hqdef] at hch
      exact hch
    obtain ⟨e1, e2, e3, e4⟩ := urlencode_chars _ ch hch2
    exact ⟨e1, beq_eq_false_iff_ne.mpr e3, beq_eq_false_iff_ne.mpr e2, e4⟩
  have hqidem : canonicalQuery q.query = q.query := by
    rw [hqdef]
    exact canonicalQuery_idem p.query
  have hfrag : q.fragment = [] := by
    rw [hqdef]
    rfl
  have hlast : q.path = [] ∨ ∃ t d, q.path = t ++ [d]
      ∧ (d == '/') = false := by
    rw [hqdef]
    exact rstripSlash_last p.path
  by_cases hpar : q.params = []
  · have hjoin : (if q.params ≠ [] then q.path ++ ';' :: q.params
        else q.path) = q.path := by simp [hpar]
    have hcu : urlunsplitModel q.scheme q.netloc q.path q.query [] = c := by
      rw [← hcq]
      show urlunsplitModel q.scheme q.netloc q.path q.query []
        = urlunsplitModel q.scheme q.netloc
          (if q.params ≠ [] then q.path ++ ';' :: q.params else q.path)
          q.query q.fragment
      rw [hjoin, hfrag]
    have hst2 : fpStableOn q q.path = true := by
      rw [fpParamsStable_eq, if_pos hpar] at hst
      exact hst
    exact canonical_assemble c q q.path hs1q hs2q hs3q hnq hnlowfix hwfix
      hpq hqq hqidem hfrag hre hst2 hcu hcq
  · have hjoin : (if q.params ≠ [] then q.path ++ ';' :: q.params
        else q.path) = q.path ++ ';' :: q.params := by simp [hpar]
    have hcu : urlunsplitModel q.scheme q.netloc
        (q.path ++ ';' :: q.params) q.query [] = c := by
      rw [← hcq]
      show urlunsplitModel q.scheme q.netloc
          (q.path ++ ';' :: q.params) q.query []
        = urlunsplitModel q.scheme q.netloc
          (if q.params ≠ [] then q.path ++ ';' :: q.params else q.path)
          q.query q.fragment
      rw [hjoin, hfrag]
    have hst2 : fpStableOn q (q.path ++ ';' :: q.params) = true := by
      rw [fpParamsStable_eq, if_neg hpar] at hst
      exact hst
    have hppB : ∀ ch ∈ q.path ++ ';' :: q.params, (ch == '#') = false
        ∧ (ch == '?') = false ∧ goodCh ch = true := by
      intro ch hch
      rcases List.mem_append.mp hch with h | h
      · exact hpq ch h
      · rcases List.mem_cons.mp h with rfl | h
        · exact ⟨by decide, by decide, by decide⟩
        · exact hprq ch h
    have hnoreB : q.netloc = [] →
        (lstr "//").isPrefixOf (q.path ++ ';' :: q.params) = false := by
      intro hnl
      rw [prefix2_eq q.path (';' :: q.params) hlast
        (Or.inr ⟨q.params, rfl⟩)]
      exact hre hnl
    exact canonical_assemble c q (q.path ++ ';' :: q.params) hs1q hs2q
      hs3q hnq hnlowfix hwfix hppB hqq hqidem hfrag hnoreB hst2 hcu hcq

/-- C10 (counterexample to the unrestricted claim): canonicalizing the
canonical form of `http://www.www.example.com/x` strips a second
`www.`, so `canonicalize_url` is not idempotent in general. -/
theorem canonicalize_url_idempotent_counterexample :
    (canonicalize_url (lstr "http://www.www.example.com/x")).bind
        canonicalize_url
      ≠ canonicalize_url (lstr "http://www.www.example.com/x") := by
  decide

/-- Witness: the corrected idempotence theorem applies to a typical
URL with a tracking parameter and a single `www.`. -/
theorem canonicalize_url_idempotent_witness :
    canonicalize_url (lstr "http://example.com/a?b=2")
      = some (lstr "http://example.com/a?b=2") :=
  canonicalize_url_idempotent
    (lstr "http://www.example.com/a?b=2&utm_source=x")
    (lstr "http://example.com/a?b=2")
    ⟨lstr "http", lstr "www.example.com", lstr "/a", [],
      lstr "b=2&utm_source=x", []⟩
    (by decide) (by decide) (by decide) (by decide) (by decide)
